import Mathlib

/-!
Command-pipeline engine of `bsh.c` and `server.c`.

A shallow embedding of the line parser and the process launchers that appear in
`src/custom shell/bsh.c` (interactive shell) and in
`src/multiprocessed client & server/server/server.c` (remote command service).

* C strings are lists of characters (the bytes before the terminating NUL).
* A `char *` that may be `NULL` is an `Option Tok`.
* The fixed-size arrays `stok[15]`, `cmds[16][32]` and `bg[16]` are lists of that
  length; an access outside an array is undefined behaviour in C and is reported
  as `Fault.outOfBounds`.
* A launcher is described by the ordered list of system calls made by the calling
  (parent) process; a successful `fork` carries the list of calls made by the
  child up to and after `execvp`.
* The results of `open`, `pipe` and `fork` come from the environment `Env`.
-/

namespace Engine

/-! ## Constants of both source files -/

/-- A token or argument string. -/
abbrev Tok := List Char

/-- Constant `MAX_LINE`, from `#define MAX_LINE 128`. -/
def MAX_LINE : Nat := 128

/-- Constant `MAX_ARGS`, from `#define MAX_ARGS 32`. -/
def MAX_ARGS : Nat := 32

/-- Constant `MAX_CMDS`, from `#define MAX_CMDS 16`. -/
def MAX_CMDS : Nat := 16

/-- Constant `DELIMS`, from `#define DELIMS " \t\r\n"`. -/
def DELIMS : List Char := [' ', '\t', '\r', '\n']

/-- Membership of a byte in `DELIMS`. -/
def isDelim (c : Char) : Bool := DELIMS.contains c

/-- The array `char *special[9]` with its nine literals `&`, `>`, `1>`, `2>`, `>>`,
`2>>`, `&>`, `<`, `|` in source order. -/
def special : List Tok :=
  ["&".toList, ">".toList, "1>".toList, "2>".toList, ">>".toList, "2>>".toList,
   "&>".toList, "<".toList, "|".toList]

/-! ## The C library function `strtok` -/

/-- One call of `strtok (_, DELIMS)` on the text that starts at the scan pointer
(`input` for the first call, the saved pointer for a call with `NULL`): leading
delimiters are skipped; if the text ends there the result is `NULL` (`none`);
otherwise the token runs up to the next delimiter, which is overwritten by NUL,
and the saved pointer moves just past it (or stays at the end of the text). The
result is the token and the text at the new saved pointer. -/
def strtok (s : List Char) : Option (Tok × List Char) :=
  match s.dropWhile isDelim with
  | [] => none
  | c :: cs =>
    some ((c :: cs).takeWhile (fun x => !isDelim x),
          ((c :: cs).dropWhile (fun x => !isDelim x)).drop 1)

/-- The tokens handed out by `cmd = strtok (input, DELIMS)` followed by
`cmd = strtok (NULL, DELIMS)` until `cmd == NULL`, in order. `none` means that
the iteration bound was used up before `NULL` came back. -/
def tokLoop : Nat → List Char → Option (List Tok)
  | 0, _ => none
  | fuel + 1, s =>
    match strtok s with
    | none => some []
    | some (t, rest) => (tokLoop fuel rest).map (fun ts => t :: ts)

/-- The token sequence of a line: `tokLoop` with one iteration per byte and one
more for the final `NULL`. -/
def tokenize (line : List Char) : Option (List Tok) :=
  tokLoop (line.length + 1) line

/-! ## Reference tokenisation -/

/-- Reference definition of the maximal separator-free substrings of a text, in
left-to-right order. `boundary` says that the position is the start of the text
or directly follows a separator. A substring starts at every non-separator that
stands at such a boundary (so it cannot be extended to the left) and runs as far
as no separator occurs (so it cannot be extended to the right). -/
def maximalRunsFrom : Bool → List Char → List Tok
  | _, [] => []
  | boundary, c :: cs =>
    if isDelim c then maximalRunsFrom true cs
    else if boundary then
      (c :: cs.takeWhile (fun x => !isDelim x)) :: maximalRunsFrom false cs
    else maximalRunsFrom false cs

/-- The maximal non-empty substrings of `line` without a separator. -/
def maximalRuns (line : List Char) : List Tok := maximalRunsFrom true line

/-! ## Parser state -/

/-- Ways in which the C program leaves defined behaviour. -/
inductive Fault
  | outOfBounds
  | nullDeref
  | outOfFuel
  deriving DecidableEq, Repr

/-- The variables that the parser block (re)initialises for every line. -/
structure PState where
  /-- The array `char *stok[(MAX_CMDS)-1]`. -/
  stok : List (Option Tok)
  /-- The table `char *cmds[MAX_CMDS][MAX_ARGS]`. -/
  cmds : List (List (Option Tok))
  /-- The counter `int cmdc`. -/
  cmdc : Nat
  /-- The counter `int tokc`. -/
  tokc : Nat
  /-- The array `int bg[MAX_CMDS]`. -/
  bg : List Nat
  deriving DecidableEq, Repr

/-- The values after `= {0}` and `= 0`. -/
def PState.init : PState where
  stok := List.replicate (MAX_CMDS - 1) none
  cmds := List.replicate MAX_CMDS (List.replicate MAX_ARGS none)
  cmdc := 0
  tokc := 0
  bg := List.replicate MAX_CMDS 0

/-- The assignment `xs[i] = v` into a fixed-size array. -/
def store {α : Type} (xs : List α) (i : Nat) (v : α) : Except Fault (List α) :=
  if i < xs.length then .ok (xs.set i v) else .error .outOfBounds

/-- The assignment `m[i][j] = v` into a fixed-size table. -/
def store2 {α : Type} (m : List (List α)) (i j : Nat) (v : α) :
    Except Fault (List (List α)) :=
  match m[i]? with
  | none => .error .outOfBounds
  | some row =>
    match store row j v with
    | .error f => .error f
    | .ok row1 => .ok (m.set i row1)

/-! ## Special token detection -/

/-- The loop `for (ii = 0; ii < 9; ii++) if (strcmp (cmd, special[ii]) == 0) ... break;`
started at index `ii` with `n` iterations left: the value of `ii` at the `break`,
or `none` when the loop runs to its end. -/
def specialFor (cmd : Tok) : Nat → Nat → Option Nat
  | _, 0 => none
  | ii, n + 1 => if special[ii]? = some cmd then some ii else specialFor cmd (ii + 1) n

/-- What the detection loop decides about a token. `background` is the branch
`ii == 0` (`bgflag` raised), `operator lit` the branch `ii != 0` (`tokflag` raised
and the literal `special[ii]` copied to `stok`), `word` the case in which both
flags stay lowered. -/
inductive Kind
  | background
  | operator (lit : Tok)
  | word
  deriving DecidableEq, Repr

/-- The outcome of the detection loop for the token `cmd`. -/
def classify (cmd : Tok) : Kind :=
  match specialFor cmd 0 9 with
  | none => .word
  | some 0 => .background
  | some (ii + 1) => .operator (special.getD (ii + 1) [])

/-- One iteration of the body of `while (cmd != NULL)` for the token `cmd`. -/
def parseStep (st : PState) (cmd : Tok) : Except Fault PState :=
  match classify cmd with
  | .background =>
    -- bg[cmdc] = 1; bgflag++;  neither branch of the following if is taken
    match store st.bg st.cmdc 1 with
    | .error f => .error f
    | .ok bg1 => .ok { st with bg := bg1 }
  | .operator lit =>
    -- strcpy (stok[cmdc], special[ii]); tokflag++;
    match store st.stok st.cmdc (some lit) with
    | .error f => .error f
    | .ok stok1 =>
      -- cmds[cmdc][tokc] = '\0';
      match store2 st.cmds st.cmdc st.tokc none with
      | .error f => .error f
      | .ok cmds1 =>
        -- cmdc++; bg[cmdc] = 0; tokc = 0;
        match store st.bg (st.cmdc + 1) 0 with
        | .error f => .error f
        | .ok bg1 =>
          .ok { stok := stok1, cmds := cmds1, cmdc := st.cmdc + 1, tokc := 0, bg := bg1 }
  | .word =>
    -- strcpy (cmds[cmdc][tokc], cmd); tokc++;
    match store2 st.cmds st.cmdc st.tokc (some cmd) with
    | .error f => .error f
    | .ok cmds1 => .ok { st with cmds := cmds1, tokc := st.tokc + 1 }

/-- The loop `cmd = strtok (input, DELIMS); while (cmd != NULL) { ...;
cmd = strtok (NULL, DELIMS); }` on the text at the scan pointer. -/
def parseLoop : Nat → PState → List Char → Except Fault PState
  | 0, _, _ => .error .outOfFuel
  | fuel + 1, st, s =>
    match strtok s with
    | none => .ok st
    | some (cmd, rest) =>
      match parseStep st cmd with
      | .error f => .error f
      | .ok st1 => parseLoop fuel st1 rest

/-- The parser block for one line, from freshly initialised variables; the
statement `bg[cmdc] = 0` before the loop stores 0 into `bg[0]`. -/
def parse (input : List Char) : Except Fault PState :=
  match store PState.init.bg PState.init.cmdc 0 with
  | .error f => .error f
  | .ok bg1 => parseLoop (input.length + 1) { PState.init with bg := bg1 } input

/-- The argument vector that `execvp` reads from a row of `cmds`: the entries
before the first `NULL`. -/
def argvOf (row : List (Option Tok)) : List Tok :=
  (row.takeWhile Option.isSome).filterMap id

/-! ## System calls and their traces -/

/-- The access and creation flags passed to `open`. -/
inductive OFlag
  | O_RDONLY
  | O_WRONLY
  | O_APPEND
  | O_CREAT
  | O_TRUNC
  deriving DecidableEq, Repr

/-- Permission bit `S_IRUSR` (POSIX value 0400). -/
def S_IRUSR : Nat := 0o400

/-- Permission bit `S_IWUSR` (POSIX value 0200). -/
def S_IWUSR : Nat := 0o200

/-- Permission bit `S_IRGRP` (POSIX value 0040). -/
def S_IRGRP : Nat := 0o040

/-- Permission bit `S_IROTH` (POSIX value 0004). -/
def S_IROTH : Nat := 0o004

/-- The descriptors the launchers name: the value that `open` returned (`fd`),
the entry `pipes[j]` filled in by `pipe`, and the socket argument `sockfd`. -/
inductive Fd
  | opened
  | pipes (j : Nat)
  | sockfd
  deriving DecidableEq, Repr

/-- The signals handled by the interactive shell. -/
inductive Sig
  | SIGINT
  | SIGQUIT
  | SIGTSTP
  | SIGTTIN
  | SIGTTOU
  | SIGCHLD
  deriving DecidableEq, Repr

/-- A call made by a forked child. The calls listed after `execvp` are the ones
made when `execvp` returns, that is when it failed. -/
inductive ChildAct
  | signalDfl (sig : Sig)
  | dup2 (src : Fd) (dst : Nat)
  | close (fd : Fd)
  | execvp (file : Option Tok) (argv : List Tok)
  | perror (msg : String)
  | exit (code : Nat)
  deriving DecidableEq, Repr

/-- A call made by the process that runs the parser and the launchers. -/
inductive Act
  | openFile (path : Option Tok) (flags : List OFlag) (mode : Option Nat)
  | pipe (slot : Nat)
  | pipeFailed (slot : Nat)
  | fork (child : List ChildAct)
  | forkFailed
  | dup2 (src : Fd) (dst : Nat)
  | close (fd : Fd)
  | wait
  | perror (msg : String)
  | printf (msg : String)
  | exit (code : Nat)
  deriving DecidableEq, Repr

/-- How a piece of code ends: it returns to its caller (or falls through to the
next statement), it terminates the process, or it leaves defined behaviour. -/
inductive Outcome
  | returned
  | exited (code : Nat)
  | fault (f : Fault)
  deriving DecidableEq, Repr

/-- The calls made by a piece of code, in order, and how it ends. -/
structure Run where
  /-- The calls, first to last. -/
  trace : List Act
  /-- The way the code ends. -/
  out : Outcome
  deriving DecidableEq, Repr

/-- Sequential composition: the second piece of code runs only if the first one
falls through. -/
def Run.andThen (r : Run) (k : Run) : Run :=
  match r.out with
  | .returned => { trace := r.trace ++ k.trace, out := k.out }
  | _ => r

/-- The results that the operating system gives to the launcher: whether the
`i`-th call of `pipe` and the `i`-th call of `fork` of a launcher (counted from 0)
succeed, and the value returned by `open`. -/
structure Env where
  /-- The value returned by `open`. -/
  openFd : Int
  /-- Success of the `i`-th `pipe`. -/
  pipeOk : Nat → Bool
  /-- Success of the `i`-th `fork`. -/
  forkOk : Nat → Bool

/-- The six `signal (_, SIG_DFL)` calls that open every child of the shell. -/
def restoreSignals : List ChildAct :=
  [.signalDfl .SIGINT, .signalDfl .SIGQUIT, .signalDfl .SIGTSTP,
   .signalDfl .SIGTTIN, .signalDfl .SIGTTOU, .signalDfl .SIGCHLD]

/-- The six signals set to `SIG_IGN` by the shell at startup (lines 166 to 171). -/
def ignoredAtStartup : List Sig :=
  [.SIGINT, .SIGQUIT, .SIGTSTP, .SIGTTIN, .SIGTTOU, .SIGCHLD]

/-- The call of `open` made by `redirect`, chosen by `std_ioe` and `append`. -/
def redirectOpen (file : Option Tok) (std_ioe append : Nat) : Act :=
  if std_ioe = 0 then .openFile file [.O_RDONLY] none
  else if append ≠ 0 then
    .openFile file [.O_WRONLY, .O_APPEND, .O_CREAT]
      (some (S_IRUSR ||| S_IWUSR ||| S_IRGRP ||| S_IROTH))
  else
    .openFile file [.O_WRONLY, .O_TRUNC, .O_CREAT]
      (some (S_IRUSR ||| S_IWUSR ||| S_IRGRP ||| S_IROTH))

/-- The `dup2` calls in the child of `redirect`. -/
def redirectDups (std_ioe : Nat) : List ChildAct :=
  if std_ioe = 3 then [.dup2 .opened 1, .dup2 .opened 2] else [.dup2 .opened std_ioe]

/-- The `dup2` calls of stage `i` in `multi_pipe` called with `n`. -/
def stageDups (n i : Nat) : List ChildAct :=
  (if i ≠ n then [ChildAct.dup2 (.pipes (i * 2 + 1)) 1] else []) ++
  (if i ≠ 0 then [ChildAct.dup2 (.pipes (i * 2 - 2)) 0] else [])

/-- The loop `for (j = 0; j < n*2; j++) close (pipes[j]);` in a child. -/
def childCloses (n : Nat) : List ChildAct :=
  (List.range (n * 2)).map (fun j => ChildAct.close (.pipes j))

/-- The loop `for (i = 0; i < n*2; i++) close (pipes[i]);` in the parent. -/
def parentCloses (n : Nat) : List Act :=
  (List.range (n * 2)).map (fun j => Act.close (.pipes j))

/-- The loop `for (i = 0; i <= n; i++) wait (&status);`. -/
def parentWaits (n : Nat) : List Act := List.replicate (n + 1) Act.wait

/-- The call `execvp (row[0], row)` followed by what runs if it returns. -/
def execTail (row : List (Option Tok)) : List ChildAct :=
  [.execvp (row.head?.join) (argvOf row), .perror "execvp", .exit 1]

/-! ## Launchers of the interactive shell (`bsh.c`) -/

namespace Bsh

/-- Function `redirect` of `bsh.c`, lines 27 to 65. -/
def redirect (env : Env) (cmd : List (Option Tok)) (file : Option Tok)
    (std_ioe append : Nat) (_bg : Nat) : Run :=
  if env.forkOk 0 then
    { trace := [redirectOpen file std_ioe append,
                .fork (restoreSignals ++ redirectDups std_ioe ++ [.close .opened] ++ execTail cmd),
                .wait],
      out := .returned }
  else
    { trace := [redirectOpen file std_ioe append, .forkFailed, .perror "fork", .exit 1],
      out := .exited 1 }

/-- The first loop of `multi_pipe`, at index `i` with `m` iterations left. -/
def pipeLoop (env : Env) : Nat → Nat → Run
  | _, 0 => { trace := [], out := .returned }
  | i, m + 1 =>
    if env.pipeOk i then
      let r := pipeLoop env (i + 1) m
      { trace := .pipe (i * 2) :: r.trace, out := r.out }
    else
      { trace := [.pipeFailed (i * 2), .perror "pipe", .exit 1], out := .exited 1 }

/-- The calls of the child forked for stage `i` by `multi_pipe`. -/
def stage (cmds : List (List (Option Tok))) (n i : Nat) : List ChildAct :=
  restoreSignals ++ stageDups n i ++ childCloses n ++ execTail (cmds.getD i [])

/-- The second loop of `multi_pipe`, at index `i` with `m` iterations left. -/
def forkLoop (env : Env) (cmds : List (List (Option Tok))) (n : Nat) : Nat → Nat → Run
  | _, 0 => { trace := [], out := .returned }
  | i, m + 1 =>
    if env.forkOk i then
      let r := forkLoop env cmds n (i + 1) m
      { trace := .fork (stage cmds n i) :: r.trace, out := r.out }
    else
      { trace := [.forkFailed, .perror "fork", .exit 1], out := .exited 1 }

/-- Function `multi_pipe` of `bsh.c`, lines 68 to 123. -/
def multi_pipe (env : Env) (cmds : List (List (Option Tok))) (n : Nat)
    (_bg : List Nat) : Run :=
  ((pipeLoop env 0 n).andThen (forkLoop env cmds n 0 (n + 1))).andThen
    { trace := parentCloses n ++ parentWaits n, out := .returned }

/-- Function `runcmd` of `bsh.c`, lines 126 to 150. -/
def runcmd (env : Env) (cmd : List (Option Tok)) : Run :=
  if env.forkOk 0 then
    { trace := [.fork (restoreSignals ++ execTail cmd), .wait], out := .returned }
  else
    { trace := [.forkFailed, .perror "fork", .exit 1], out := .exited 1 }

/-- The chain of comparisons of `stok[0]` in lines 264 to 282, entered when
`cmdc` is not zero. -/
def dispatchOp (env : Env) (st : PState) : Run :=
  match st.stok.head?.join with
  | none => { trace := [], out := .fault .nullDeref }
  | some op =>
    let cmd0 := st.cmds.getD 0 []
    let file := ((st.cmds.getD 1 []).head?).join
    let bg0 := st.bg.getD 0 0
    if op = ">".toList then redirect env cmd0 file 1 0 bg0
    else if op = "1>".toList then redirect env cmd0 file 1 0 bg0
    else if op = "2>".toList then redirect env cmd0 file 2 0 bg0
    else if op = ">>".toList then redirect env cmd0 file 1 1 bg0
    else if op = "2>>".toList then redirect env cmd0 file 2 1 bg0
    else if op = "&>".toList then redirect env cmd0 file 3 0 bg0
    else if op = "<".toList then redirect env cmd0 file 0 0 bg0
    else if op = "|".toList then multi_pipe env st.cmds st.cmdc st.bg
    else runcmd env cmd0

/-- The launching part of the run block, lines 263 to 285: the branches
`else if (cmdc) { ... } else { runcmd (cmds[0]); }` that follow the `exit`
comparison. -/
def launch (env : Env) (st : PState) : Run :=
  if st.cmdc ≠ 0 then dispatchOp env st
  else runcmd env (st.cmds.getD 0 [])

/-- The block `if (run) { ... }` of lines 259 to 286: `strcmp (cmds[0][0], "exit")`
first, where a `NULL` argument is a fault, then the launching part. -/
def runBlock (env : Env) (st : PState) : Run :=
  match (st.cmds.getD 0 []).head?.join with
  | none => { trace := [], out := .fault .nullDeref }
  | some arg0 =>
    if arg0 = "exit".toList then
      { trace := [.printf "Exiting shell...\n\n", .exit 1], out := .exited 1 }
    else launch env st

/-- The body of `while (1)` after a successful `fgets`: lines 203 to 287.
`returned` means that the loop goes on to the next prompt. -/
def shellLine (env : Env) (input : List Char) : Run :=
  if input.head? ≠ some '\n' then
    match parse input with
    | .error f => { trace := [], out := .fault f }
    | .ok st => runBlock env st
  else { trace := [], out := .returned }

end Bsh

/-! ## Launchers of the remote command service (`server.c`) -/

namespace Server

/-- Function `error` of `server.c`: `perror (msg); exit (1);`. -/
def error (msg : String) : List Act := [.perror msg, .exit 1]

/-- The same helper when called in a child. -/
def childError (msg : String) : List ChildAct := [.perror msg, .exit 1]

/-- The call `execvp (row[0], row)` followed by `error ("execvp")`. -/
def execTail (row : List (Option Tok)) : List ChildAct :=
  .execvp (row.head?.join) (argvOf row) :: childError "execvp"

/-- Function `redirect` of `server.c`, lines 52 to 79. -/
def redirect (env : Env) (cmd : List (Option Tok)) (file : Option Tok)
    (std_ioe append : Nat) (_bg : Nat) : Run :=
  if env.forkOk 0 then
    { trace := [redirectOpen file std_ioe append,
                .fork (redirectDups std_ioe ++ [.close .opened] ++ execTail cmd),
                .wait],
      out := .returned }
  else
    { trace := redirectOpen file std_ioe append :: .forkFailed :: error "fork",
      out := .exited 1 }

/-- The first loop of `multi_pipe`, at index `i` with `m` iterations left. -/
def pipeLoop (env : Env) : Nat → Nat → Run
  | _, 0 => { trace := [], out := .returned }
  | i, m + 1 =>
    if env.pipeOk i then
      let r := pipeLoop env (i + 1) m
      { trace := .pipe (i * 2) :: r.trace, out := r.out }
    else
      { trace := .pipeFailed (i * 2) :: error "pipe", out := .exited 1 }

/-- The calls of the child forked for stage `i` by `multi_pipe`. -/
def stage (cmds : List (List (Option Tok))) (n i : Nat) : List ChildAct :=
  stageDups n i ++ childCloses n ++ execTail (cmds.getD i [])

/-- The second loop of `multi_pipe`, at index `i` with `m` iterations left. -/
def forkLoop (env : Env) (cmds : List (List (Option Tok))) (n : Nat) : Nat → Nat → Run
  | _, 0 => { trace := [], out := .returned }
  | i, m + 1 =>
    if env.forkOk i then
      let r := forkLoop env cmds n (i + 1) m
      { trace := .fork (stage cmds n i) :: r.trace, out := r.out }
    else
      { trace := .forkFailed :: error "fork", out := .exited 1 }

/-- Function `multi_pipe` of `server.c`, lines 82 to 123. -/
def multi_pipe (env : Env) (cmds : List (List (Option Tok))) (n : Nat)
    (_bg : List Nat) : Run :=
  ((pipeLoop env 0 n).andThen (forkLoop env cmds n 0 (n + 1))).andThen
    { trace := parentCloses n ++ parentWaits n, out := .returned }

/-- Function `runcmd` of `server.c`, lines 126 to 139. -/
def runcmd (env : Env) (cmd : List (Option Tok)) : Run :=
  if env.forkOk 0 then
    { trace := [.fork (execTail cmd), .wait], out := .returned }
  else
    { trace := .forkFailed :: error "fork", out := .exited 1 }

/-- The chain of comparisons of `stok[0]` in lines 200 to 218. -/
def dispatchOp (env : Env) (st : PState) : Run :=
  match st.stok.head?.join with
  | none => { trace := [], out := .fault .nullDeref }
  | some op =>
    let cmd0 := st.cmds.getD 0 []
    let file := ((st.cmds.getD 1 []).head?).join
    let bg0 := st.bg.getD 0 0
    if op = ">".toList then redirect env cmd0 file 1 0 bg0
    else if op = "1>".toList then redirect env cmd0 file 1 0 bg0
    else if op = "2>".toList then redirect env cmd0 file 2 0 bg0
    else if op = ">>".toList then redirect env cmd0 file 1 1 bg0
    else if op = "2>>".toList then redirect env cmd0 file 2 1 bg0
    else if op = "&>".toList then redirect env cmd0 file 3 0 bg0
    else if op = "<".toList then redirect env cmd0 file 0 0 bg0
    else if op = "|".toList then multi_pipe env st.cmds st.cmdc st.bg
    else runcmd env cmd0

/-- The launching part of the run block, lines 199 to 221. -/
def launch (env : Env) (st : PState) : Run :=
  if st.cmdc ≠ 0 then dispatchOp env st
  else runcmd env (st.cmds.getD 0 [])

/-- The block `if (run) { ... }` of lines 196 to 222: `strcmp (cmds[0][0], "exit")`
first, where a `NULL` argument is a fault, then the launching part. -/
def runBlock (env : Env) (st : PState) : Run :=
  match (st.cmds.getD 0 []).head?.join with
  | none => { trace := [], out := .fault .nullDeref }
  | some arg0 =>
    if arg0 = "exit".toList then { trace := [], out := .returned }
    else launch env st

/-- Function `parseBuffer` of `server.c`, lines 142 to 224. -/
def parseBuffer (env : Env) (input : List Char) : Run :=
  Run.andThen { trace := [.dup2 .sockfd 1, .dup2 .sockfd 2], out := .returned }
    (if input.head? ≠ some '\n' then
      match parse input with
      | .error f => { trace := [], out := .fault f }
      | .ok st => runBlock env st
    else { trace := [], out := .returned })

end Server

/-! ## Reference definitions for the parser -/

/-- The string `t` occurs in `line` as a maximal separator-free substring: it is
not empty, holds no separator, and in some occurrence `line = pre ++ t ++ post`
it is preceded by the start of the line or a separator and followed by the end
of the line or a separator. -/
def IsMaximalRun (line t : List Char) : Prop :=
  t ≠ [] ∧ (∀ c ∈ t, isDelim c = false) ∧
  ∃ pre post, line = pre ++ t ++ post ∧
    (∀ d, pre.getLast? = some d → isDelim d = true) ∧
    (∀ d, post.head? = some d → isDelim d = true)

/-- The eight operator literals that end a command. -/
def operators : List Tok :=
  [">".toList, "1>".toList, "2>".toList, ">>".toList, "2>>".toList, "&>".toList,
   "<".toList, "|".toList]

/-- The seven redirection operators. -/
def redirections : List Tok :=
  [">".toList, "1>".toList, "2>".toList, ">>".toList, "2>>".toList, "&>".toList,
   "<".toList]

/-- The token is one of the eight operator literals. -/
def isOperator (t : Tok) : Bool := decide (t ∈ operators)

/-- The token is the background marker. -/
def isBackground (t : Tok) : Bool := decide (t = "&".toList)

/-- The token is neither an operator nor the background marker. -/
def isWord (t : Tok) : Bool := !isOperator t && !isBackground t

/-- The operator tokens other than the background marker, in input order. -/
def opsOf (toks : List Tok) : List Tok := toks.filter isOperator

/-- The stretches of tokens between consecutive operator tokens. -/
def rawSegments (toks : List Tok) : List (List Tok) := toks.splitOnP isOperator

/-- Reference split of a token list: entry `i` holds the Word tokens that lie
after operator `i - 1` (or the start) and before operator `i` (or the end). -/
def segments (toks : List Tok) : List (List Tok) :=
  (rawSegments toks).map (fun seg => seg.filter isWord)

/-- Reference background flags: entry `i` is 1 when a background marker occurs
among the tokens of stretch `i`, else 0. -/
def bgFlags (toks : List Tok) : List Nat :=
  (rawSegments toks).map (fun seg => if seg.any isBackground then 1 else 0)

/-- The list `xs` stored at the start of an array of `n` entries that were
initialised to `d`. -/
def pad {α : Type} (n : Nat) (d : α) (xs : List α) : List α :=
  xs ++ List.replicate (n - xs.length) d

/-- A row of `cmds` that holds the arguments `ws` followed by `NULL` entries. -/
def rowOf (ws : List Tok) : List (Option Tok) := pad MAX_ARGS none (ws.map some)

/-- The table `cmds` that holds the argument lists `segs` in its first rows. -/
def tableOf (segs : List (List Tok)) : List (List (Option Tok)) :=
  pad MAX_CMDS (List.replicate MAX_ARGS none) (segs.map rowOf)

/-- The parser state that holds the argument lists `segs` (the last one being the
command under construction), the operators `ops` and the flags `bgs`. -/
def stateOf (segs : List (List Tok)) (ops : List Tok) (bgs : List Nat) : PState where
  stok := pad (MAX_CMDS - 1) none (ops.map some)
  cmds := tableOf segs
  cmdc := segs.length - 1
  tokc := (segs.getLastD []).length
  bg := pad MAX_CMDS 0 bgs

/-- The body of the parse loop iterated over a given list of tokens. -/
def parseTokens (st : PState) : List Tok → Except Fault PState
  | [] => .ok st
  | t :: ts =>
    match parseStep st t with
    | .error f => .error f
    | .ok st1 => parseTokens st1 ts

/-- The argument list under construction followed by the reference split of the
tokens still to come. -/
def glueSegs (cur : List Tok) : List (List Tok) → List (List Tok)
  | [] => [cur]
  | hd :: tl => (cur ++ hd) :: tl

/-- The flag of the current slot followed by the reference flags of the tokens
still to come. -/
def glueBg (bgc : Nat) : List Nat → List Nat
  | [] => [bgc]
  | bh :: bt => (max bgc bh) :: bt

/-- A token list is within the capacity of the parser tables: at most 15 operator
tokens and at most 31 words in every stretch between operators. -/
def WithinCapacity (toks : List Tok) : Prop :=
  (opsOf toks).length ≤ MAX_CMDS - 1 ∧ ∀ seg ∈ segments toks, seg.length ≤ MAX_ARGS - 1

instance (toks : List Tok) : Decidable (WithinCapacity toks) := by
  unfold WithinCapacity
  infer_instance

/-! ## Reference definitions for the launchers -/

/-- The number of `pipe` calls in a trace. -/
def countPipes (tr : List Act) : Nat :=
  (tr.filter (fun a => match a with | .pipe _ => true | _ => false)).length

/-- The number of successful `fork` calls in a trace. -/
def countForks (tr : List Act) : Nat :=
  (tr.filter (fun a => match a with | .fork _ => true | _ => false)).length

/-- The number of `wait` calls in a trace. -/
def countWaits (tr : List Act) : Nat :=
  (tr.filter (fun a => match a with | .wait => true | _ => false)).length

/-- The number of `open` calls in a trace. -/
def countOpens (tr : List Act) : Nat :=
  (tr.filter (fun a => match a with | .openFile _ _ _ => true | _ => false)).length

/-- One row of the redirection table of the specification: the descriptors of
the child that are redirected to the file, the flags of the `open` call and the
permission bits of a creating `open`. -/
structure Redirection where
  /-- The descriptors redirected in the child. -/
  fds : List Nat
  /-- The flags given to `open`. -/
  flags : List OFlag
  /-- The permission bits, present when the `open` may create the file. -/
  mode : Option Nat
  deriving DecidableEq, Repr

/-- The redirection table of the specification, section 4.3: `>` and `1>` send
descriptor 1 to a file opened write-only, created or truncated; `2>` does so for
descriptor 2; `>>` and `2>>` open write-only, created or appended; `&>` sends
descriptors 1 and 2; `<` reads descriptor 0 from a file opened read-only. A
creating `open` uses the permission bits 0644. -/
def redirectionTable (op : Tok) : Option Redirection :=
  if op = ">".toList ∨ op = "1>".toList then
    some { fds := [1], flags := [.O_WRONLY, .O_TRUNC, .O_CREAT], mode := some 0o644 }
  else if op = "2>".toList then
    some { fds := [2], flags := [.O_WRONLY, .O_TRUNC, .O_CREAT], mode := some 0o644 }
  else if op = ">>".toList then
    some { fds := [1], flags := [.O_WRONLY, .O_APPEND, .O_CREAT], mode := some 0o644 }
  else if op = "2>>".toList then
    some { fds := [2], flags := [.O_WRONLY, .O_APPEND, .O_CREAT], mode := some 0o644 }
  else if op = "&>".toList then
    some { fds := [1, 2], flags := [.O_WRONLY, .O_TRUNC, .O_CREAT], mode := some 0o644 }
  else if op = "<".toList then
    some { fds := [0], flags := [.O_RDONLY], mode := none }
  else none

/-- The calls of the parent for a redirected command of the shell, as the
specification describes them: open the file, fork a child that restores the
signals, redirects the listed descriptors, closes the file and executes the
command, then wait. -/
def redirectedLaunch (r : Redirection) (path : Option Tok) (cmd : List Tok) : List Act :=
  [.openFile path r.flags r.mode,
   .fork (restoreSignals ++ r.fds.map (fun fd => ChildAct.dup2 .opened fd) ++
      [.close .opened, .execvp cmd.head? cmd, .perror "execvp", .exit 1]),
   .wait]

/-- The `pipe` calls of a launch that creates `n` pipes: `pipe (pipes + i*2)` for
`i` from 0 to `n - 1`. -/
def pipeCalls (n : Nat) : List Act := (List.range n).map (fun i => Act.pipe (i * 2))

/-- Every `wait` of the trace comes after its last `fork`: the trace splits into
a part without `wait` followed by a part without `fork`. -/
def WaitsAfterForks (tr : List Act) : Prop :=
  ∃ before after, tr = before ++ after ∧ countWaits before = 0 ∧ countForks after = 0

/-- A trace in which every forked child is waited for: as many `wait` calls as
`fork` calls, and every `wait` after the last `fork`. -/
def Balanced (tr : List Act) : Prop :=
  countWaits tr = countForks tr ∧ WaitsAfterForks tr

/-- The run of the shell for a line that it takes as an exit request. -/
def Bsh.exitRun : Run :=
  { trace := [.printf "Exiting shell...\n\n", .exit 1], out := .exited 1 }

/-- An environment in which every `pipe` and every `fork` succeeds and `open`
returns the descriptor `fd`. -/
def Env.allOk (fd : Int) : Env where
  openFd := fd
  pipeOk := fun _ => true
  forkOk := fun _ => true

/-! ## Reference definitions for the later shell claims -/

/-- The fault with which a computation leaves defined behaviour, if it does. -/
def faultOf {α : Type} : Except Fault α → Option Fault
  | .error f => some f
  | .ok _ => none

/-- The parser state before the loop: the initial values with `bg[0]` stored. -/
def PState.start : PState := stateOf [[]] [] [0]

/-- The `dup2` calls among the calls of a child. -/
def dupsOf (child : List ChildAct) : List ChildAct :=
  child.filter (fun a => match a with | .dup2 _ _ => true | _ => false)

/-- A line of seventeen one-word commands `a` separated by sixteen tokens `|`. -/
def sixteenPipes : List Char :=
  "a | a | a | a | a | a | a | a | a | a | a | a | a | a | a | a | a\n".toList

/-- A line of thirty-three one-letter words. -/
def thirtyThreeWords : List Char :=
  "a a a a a a a a a a a a a a a a a a a a a a a a a a a a a a a a a\n".toList

/-- An environment in which `open` fails with -1 while every `pipe` and `fork`
succeeds. -/
def Env.openFails : Env where
  openFd := -1
  pipeOk := fun _ => true
  forkOk := fun _ => true

/-- The read end of pipe `k`: the call `pipe (pipes + k*2)` stores it in
`pipes[k*2]`. -/
def readEnd (k : Nat) : Fd := .pipes (k * 2)

/-- The write end of pipe `k`: the call `pipe (pipes + k*2)` stores it in
`pipes[k*2 + 1]`. -/
def writeEnd (k : Nat) : Fd := .pipes (k * 2 + 1)

/-- Reference wiring of stage `i` of `n + 1` stages: standard output goes to the
write end of pipe `i` unless the stage is the last one, standard input comes from
the read end of pipe `i - 1` unless the stage is the first one. -/
def wiring (n i : Nat) : List ChildAct :=
  (if i < n then [ChildAct.dup2 (writeEnd i) 1] else []) ++
  (if 0 < i then [ChildAct.dup2 (readEnd (i - 1)) 0] else [])

/-! ## The banner device (`bannerdev.c`) -/

/-- The terminator byte `'\0'` of a C string. -/
def NUL : Char := Char.ofNat 0

/-- The macro `BUFF_LEN`. -/
def BUFF_LEN : Nat := 32

/-- The error number `EBUSY`. -/
def EBUSY : Int := 16

/-- The global variables of `bannerdev.c`. A pointer into `msg` is its offset from
`msg`; `none` is the null pointer that `msg_ptr` holds before the first open. -/
structure Banner where
  /-- The counter `static int Device_Open`. -/
  Device_Open : Int
  /-- The array `static char msg[BUFF_LEN]`. -/
  msg : List Char
  /-- The pointer `static char *msg_ptr`. -/
  msg_ptr : Option Nat
  deriving DecidableEq, Repr

/-- The state left by `bannerdev_init`: the zero-initialised statics, with
`sprintf(msg, "WORK DAMNIT\n")` done. -/
def Banner.init : Banner where
  Device_Open := 0
  msg := "WORK DAMNIT\n".toList ++ NUL :: List.replicate (BUFF_LEN - 13) NUL
  msg_ptr := none

/-- The function `device_open`: refused with `-EBUSY` while the device is open,
otherwise the counter is incremented and `msg_ptr = msg`. -/
def Banner.device_open (st : Banner) : Banner × Int :=
  if st.Device_Open ≠ 0 then (st, -EBUSY)
  else ({ st with Device_Open := st.Device_Open + 1, msg_ptr := some 0 }, 0)

/-- The function `device_release`. -/
def Banner.device_release (st : Banner) : Banner × Int :=
  ({ st with Device_Open := st.Device_Open - 1 }, 0)

/-- The loop `while (length && *msg_ptr) put_user(*(msg_ptr++), buffer++)` of
`device_read`, over the bytes from `msg_ptr` to the end of `msg`; the result is the
bytes delivered. Reading `*msg_ptr` past the end of the array is a fault. -/
def Banner.readLoop : Nat → List Char → Except Fault (List Char)
  | 0, _ => .ok []
  | _ + 1, [] => .error .outOfBounds
  | k + 1, c :: rest =>
    if c = NUL then .ok [] else (Banner.readLoop k rest).map (fun out => c :: out)

/-- The function `device_read` called with a buffer of `length` bytes: the new state,
the bytes put into the user buffer and the return value. -/
def Banner.device_read (st : Banner) (length : Nat) :
    Except Fault (Banner × List Char × Int) :=
  match st.msg_ptr with
  | none => .error .nullDeref
  | some p =>
    match st.msg[p]? with
    | none => .error .outOfBounds
    | some c =>
      if c = NUL then .ok (st, [], 0)
      else
        match Banner.readLoop length (st.msg.drop p) with
        | .error f => .error f
        | .ok out => .ok ({ st with msg_ptr := some (p + out.length) }, out, out.length)

/-- Successive stores `*(ptr++) = v` of the values `vs` into an array, from offset `p`:
the new array and the new offset. -/
def storeSeq {α : Type} : List α → Nat → List α → Except Fault (List α × Nat)
  | xs, p, [] => .ok (xs, p)
  | xs, p, v :: vs =>
    match store xs p v with
    | .error f => .error f
    | .ok xs1 => storeSeq xs1 (p + 1) vs

/-- The function `device_write` called with the `len` bytes `buff`: the loop
`for (i = 0; i < len && i < BUFF_LEN - 1; i++) get_user(*(msg_ptr++), buff + i)` stores
the bytes it takes at `msg_ptr`, which advances; then `*msg_ptr = 0`, `msg_ptr = msg`,
and `i` is returned. -/
def Banner.device_write (st : Banner) (buff : List Char) : Except Fault (Banner × Int) :=
  match st.msg_ptr with
  | none => .error .nullDeref
  | some p =>
    match storeSeq st.msg p (buff.take (BUFF_LEN - 1)) with
    | .error f => .error f
    | .ok (msg1, q) =>
      match store msg1 q NUL with
      | .error f => .error f
      | .ok msg2 =>
        .ok ({ st with msg := msg2, msg_ptr := some 0 }, (buff.take (BUFF_LEN - 1)).length)

/-! ## The Morse code device (`morsedev.c`) -/

/-- The macro `CAP1X`, the size of the device buffer. -/
def CAP1X : Nat := 32

/-- The macro `MAX_UNIT`, the size of the pulse array. -/
def MAX_UNIT : Nat := 600

/-- The global variables of `morsedev.c`, with the state of the GPIO pin and of the
kernel timer. A pointer into `dbuff` or `pulse` is its offset from the start of the
array; `none` is the null pointer that it holds before the first open. -/
structure Morse where
  /-- The counter `static int Device_Open`. -/
  Device_Open : Int
  /-- The `CAP1X` bytes that `dbuff` points to. -/
  dbuff : List Char
  /-- The pointer `static char *dbuff_ptr`. -/
  dbuff_ptr : Option Nat
  /-- The array `static char pulse[MAX_UNIT]`. -/
  pulse : List Char
  /-- The pointer `static char *pulse_ptr`. -/
  pulse_ptr : Option Nat
  /-- The counter `static int pulse_len`. -/
  pulse_len : Int
  /-- The counter `static int pulse_pos`. -/
  pulse_pos : Int
  /-- The flag `static int tmrbusy`. -/
  tmrbusy : Int
  /-- Whether `timer` is armed: set by `add_timer` and `mod_timer`, cleared by
  `del_timer` and when the timer fires. -/
  pending : Bool
  /-- The value last given to `gpio_set_value (GPIO, _)`. -/
  gpio : Int
  deriving DecidableEq, Repr

/-- The state left by `morsedev_init` with the default `capacity`: a zeroed device
buffer, the zero-initialised statics, and the pin switched on. -/
def Morse.init : Morse where
  Device_Open := 0
  dbuff := List.replicate CAP1X NUL
  dbuff_ptr := none
  pulse := List.replicate MAX_UNIT NUL
  pulse_ptr := none
  pulse_len := 0
  pulse_pos := 0
  tmrbusy := 0
  pending := false
  gpio := 1

/-- The units stored by the successive `*(pulse_ptr++) = _` of the body at `case 'A': caseA:`, and the
increment of `pulse_len`. -/
def Morse.caseA : List Char × Int := ("10111000".toList, 8)

/-- The units stored by the successive `*(pulse_ptr++) = _` of the body at `case 'B': caseB:`, and the
increment of `pulse_len`. -/
def Morse.caseB : List Char × Int := ("111010101000".toList, 12)

/-- The units stored by the successive `*(pulse_ptr++) = _` of the body at `case 'C': caseC:`, and the
increment of `pulse_len`. -/
def Morse.caseC : List Char × Int := ("11101011101000".toList, 14)

/-- The units stored by the successive `*(pulse_ptr++) = _` of the body at `case 'D': caseD:`, and the
increment of `pulse_len`. -/
def Morse.caseD : List Char × Int := ("1110101000".toList, 10)

/-- The units stored by the successive `*(pulse_ptr++) = _` of the body at `case 'E': caseE:`, and the
increment of `pulse_len`. -/
def Morse.caseE : List Char × Int := ("1000".toList, 4)

/-- The units stored by the successive `*(pulse_ptr++) = _` of the body at `case 'F': caseF:`, and the
increment of `pulse_len`. -/
def Morse.caseF : List Char × Int := ("101011101000".toList, 12)

/-- The units stored by the successive `*(pulse_ptr++) = _` of the body at `case 'G': caseG:`, and the
increment of `pulse_len`. -/
def Morse.caseG : List Char × Int := ("111011101000".toList, 12)

/-- The units stored by the successive `*(pulse_ptr++) = _` of the body at `case 'H': caseH:`, and the
increment of `pulse_len`. -/
def Morse.caseH : List Char × Int := ("1010101000".toList, 10)

/-- The units stored by the successive `*(pulse_ptr++) = _` of the body at `case 'I': caseI:`, and the
increment of `pulse_len`. -/
def Morse.caseI : List Char × Int := ("101000".toList, 6)

/-- The units stored by the successive `*(pulse_ptr++) = _` of the body at `case 'J': caseJ:`, and the
increment of `pulse_len`. -/
def Morse.caseJ : List Char × Int := ("1011101110111000".toList, 16)

/-- The units stored by the successive `*(pulse_ptr++) = _` of the body at `case 'K': caseK:`, and the
increment of `pulse_len`. -/
def Morse.caseK : List Char × Int := ("111010111000".toList, 12)

/-- The units stored by the successive `*(pulse_ptr++) = _` of the body at `case 'L': caseL:`, and the
increment of `pulse_len`. -/
def Morse.caseL : List Char × Int := ("101110101000".toList, 12)

/-- The units stored by the successive `*(pulse_ptr++) = _` of the body at `case 'M': caseM:`, and the
increment of `pulse_len`. -/
def Morse.caseM : List Char × Int := ("1110111000".toList, 10)

/-- The units stored by the successive `*(pulse_ptr++) = _` of the body at `case 'N': caseN:`, and the
increment of `pulse_len`. -/
def Morse.caseN : List Char × Int := ("11101000".toList, 8)

/-- The units stored by the successive `*(pulse_ptr++) = _` of the body at `case 'O': caseO:`, and the
increment of `pulse_len`. -/
def Morse.caseO : List Char × Int := ("11101110111000".toList, 14)

/-- The units stored by the successive `*(pulse_ptr++) = _` of the body at `case 'P': caseP:`, and the
increment of `pulse_len`. -/
def Morse.caseP : List Char × Int := ("10111011101000".toList, 14)

/-- The units stored by the successive `*(pulse_ptr++) = _` of the body at `case 'Q': caseQ:`, and the
increment of `pulse_len`. -/
def Morse.caseQ : List Char × Int := ("1110111010111000".toList, 16)

/-- The units stored by the successive `*(pulse_ptr++) = _` of the body at `case 'R': caseR:`, and the
increment of `pulse_len`. -/
def Morse.caseR : List Char × Int := ("1011101000".toList, 10)

/-- The units stored by the successive `*(pulse_ptr++) = _` of the body at `case 'S': caseS:`, and the
increment of `pulse_len`. -/
def Morse.caseS : List Char × Int := ("10101000".toList, 8)

/-- The units stored by the successive `*(pulse_ptr++) = _` of the body at `case 'T': caseT:`, and the
increment of `pulse_len`. -/
def Morse.caseT : List Char × Int := ("111000".toList, 6)

/-- The units stored by the successive `*(pulse_ptr++) = _` of the body at `case 'U': caseU:`, and the
increment of `pulse_len`. -/
def Morse.caseU : List Char × Int := ("1010111000".toList, 10)

/-- The units stored by the successive `*(pulse_ptr++) = _` of the body at `case 'V': caseV:`, and the
increment of `pulse_len`. -/
def Morse.caseV : List Char × Int := ("101010111000".toList, 12)

/-- The units stored by the successive `*(pulse_ptr++) = _` of the body at `case 'W': caseW:`, and the
increment of `pulse_len`. -/
def Morse.caseW : List Char × Int := ("101110111000".toList, 12)

/-- The units stored by the successive `*(pulse_ptr++) = _` of the body at `case 'X': caseX:`, and the
increment of `pulse_len`. -/
def Morse.caseX : List Char × Int := ("11101010111000".toList, 14)

/-- The units stored by the successive `*(pulse_ptr++) = _` of the body at `case 'Y': caseY:`, and the
increment of `pulse_len`. -/
def Morse.caseY : List Char × Int := ("1110101110111000".toList, 16)

/-- The units stored by the successive `*(pulse_ptr++) = _` of the body at `case 'Z': caseZ:`, and the
increment of `pulse_len`. -/
def Morse.caseZ : List Char × Int := ("11101110101000".toList, 14)

/-- The units stored by the successive `*(pulse_ptr++) = _` of the body at `case '0':`, and the
increment of `pulse_len`. -/
def Morse.case0 : List Char × Int := ("1110111011101110111000".toList, 22)

/-- The units stored by the successive `*(pulse_ptr++) = _` of the body at `case '1':`, and the
increment of `pulse_len`. -/
def Morse.case1 : List Char × Int := ("10111011101110111000".toList, 20)

/-- The units stored by the successive `*(pulse_ptr++) = _` of the body at `case '2':`, and the
increment of `pulse_len`. -/
def Morse.case2 : List Char × Int := ("101011101110111000".toList, 18)

/-- The units stored by the successive `*(pulse_ptr++) = _` of the body at `case '3':`, and the
increment of `pulse_len`. -/
def Morse.case3 : List Char × Int := ("1010101110111000".toList, 16)

/-- The units stored by the successive `*(pulse_ptr++) = _` of the body at `case '4':`, and the
increment of `pulse_len`. -/
def Morse.case4 : List Char × Int := ("10101010111000".toList, 14)

/-- The units stored by the successive `*(pulse_ptr++) = _` of the body at `case '5':`, and the
increment of `pulse_len`. -/
def Morse.case5 : List Char × Int := ("101010101000".toList, 12)

/-- The units stored by the successive `*(pulse_ptr++) = _` of the body at `case '6':`, and the
increment of `pulse_len`. -/
def Morse.case6 : List Char × Int := ("11101010101000".toList, 14)

/-- The units stored by the successive `*(pulse_ptr++) = _` of the body at `case '7':`, and the
increment of `pulse_len`. -/
def Morse.case7 : List Char × Int := ("1110111010101000".toList, 16)

/-- The units stored by the successive `*(pulse_ptr++) = _` of the body at `case '8':`, and the
increment of `pulse_len`. -/
def Morse.case8 : List Char × Int := ("111011101110101000".toList, 18)

/-- The units stored by the successive `*(pulse_ptr++) = _` of the body at `case '9':`, and the
increment of `pulse_len`. -/
def Morse.case9 : List Char × Int := ("11101110111011101000".toList, 20)

/-- The units stored by the successive `*(pulse_ptr++) = _` of the `default:` branch, and the
increment of `pulse_len`. -/
def Morse.caseDefault : List Char × Int := ("00000".toList, 5)

/-- The case labels of the `switch` in `device_write`, in source order, each with the
body that control reaches: a lower-case label jumps to the body of its upper-case
label. -/
def Morse.switchTable : List (Char × (List Char × Int)) :=
  [('a', Morse.caseA), ('b', Morse.caseB), ('c', Morse.caseC), ('d', Morse.caseD),
   ('e', Morse.caseE), ('f', Morse.caseF), ('g', Morse.caseG), ('h', Morse.caseH),
   ('i', Morse.caseI), ('j', Morse.caseJ), ('k', Morse.caseK), ('l', Morse.caseL),
   ('m', Morse.caseM), ('n', Morse.caseN), ('o', Morse.caseO), ('p', Morse.caseP),
   ('q', Morse.caseQ), ('r', Morse.caseR), ('s', Morse.caseS), ('t', Morse.caseT),
   ('u', Morse.caseU), ('v', Morse.caseV), ('w', Morse.caseW), ('x', Morse.caseX),
   ('y', Morse.caseY), ('z', Morse.caseZ), ('A', Morse.caseA), ('B', Morse.caseB),
   ('C', Morse.caseC), ('D', Morse.caseD), ('E', Morse.caseE), ('F', Morse.caseF),
   ('G', Morse.caseG), ('H', Morse.caseH), ('I', Morse.caseI), ('J', Morse.caseJ),
   ('K', Morse.caseK), ('L', Morse.caseL), ('M', Morse.caseM), ('N', Morse.caseN),
   ('O', Morse.caseO), ('P', Morse.caseP), ('Q', Morse.caseQ), ('R', Morse.caseR),
   ('S', Morse.caseS), ('T', Morse.caseT), ('U', Morse.caseU), ('V', Morse.caseV),
   ('W', Morse.caseW), ('X', Morse.caseX), ('Y', Morse.caseY), ('Z', Morse.caseZ),
   ('0', Morse.case0), ('1', Morse.case1), ('2', Morse.case2), ('3', Morse.case3),
   ('4', Morse.case4), ('5', Morse.case5), ('6', Morse.case6), ('7', Morse.case7),
   ('8', Morse.case8), ('9', Morse.case9)]

/-- The `switch (*(dbuff_ptr++))` of `device_write`: the body of the label equal to
the byte, or the `default:` branch. -/
def Morse.morseCase (c : Char) : List Char × Int :=
  (Morse.switchTable.lookup c).getD Morse.caseDefault

/-- The function `device_open`: refused with `-EBUSY` while the device is open;
otherwise the pin is switched off, `pulse_ptr = pulse` unless the timer is busy, and
`dbuff_ptr = dbuff`. -/
def Morse.device_open (st : Morse) : Morse × Int :=
  if st.Device_Open ≠ 0 then (st, -EBUSY)
  else
    ({ st with
        Device_Open := st.Device_Open + 1
        gpio := 0
        pulse_ptr := if st.tmrbusy = 0 then some 0 else st.pulse_ptr
        dbuff_ptr := some 0 }, 0)

/-- The function `device_release`. -/
def Morse.device_release (st : Morse) : Morse × Int :=
  ({ st with Device_Open := st.Device_Open - 1, gpio := 0 }, 0)

/-- The loop `while (*dbuff_ptr) put_user(*(dbuff_ptr++), buff++)` of `device_read`,
over the bytes from `dbuff_ptr` to the end of the device buffer; the result is the
bytes delivered. Reading `*dbuff_ptr` past the end of the buffer is a fault. -/
def Morse.readLoop : List Char → Except Fault (List Char)
  | [] => .error .outOfBounds
  | c :: rest =>
    if c = NUL then .ok [] else (Morse.readLoop rest).map (fun out => c :: out)

/-- The function `device_read`: the new state, the bytes put into the user buffer and
the return value. The length `len` of the user buffer is not consulted. When the
timer is idle the playback is started: `tmrbusy = 1`, `pulse_pos = pulse_len`,
`add_timer`. -/
def Morse.device_read (st : Morse) (_len : Nat) : Except Fault (Morse × List Char × Int) :=
  match st.dbuff_ptr with
  | none => .error .nullDeref
  | some p =>
    match st.dbuff[p]? with
    | none => .error .outOfBounds
    | some c =>
      if c = NUL then .ok (st, [], 0)
      else
        match Morse.readLoop (st.dbuff.drop p) with
        | .error f => .error f
        | .ok out =>
          let st1 := { st with dbuff_ptr := some (p + out.length) }
          let st2 :=
            if st1.tmrbusy = 0 then
              { st1 with tmrbusy := 1, pulse_pos := st1.pulse_len, pending := true }
            else st1
          .ok (st2, out, out.length)

/-- One iteration of the loop of `device_write` for the byte `c`: the byte is stored
at `dbuff_ptr`, which advances, and the body selected by the `switch` stores its
units at `pulse_ptr`, which advances, and adds its increment to `pulse_len`. -/
def Morse.writeByte (st : Morse) (c : Char) : Except Fault Morse :=
  match st.dbuff_ptr, st.pulse_ptr with
  | none, _ => .error .nullDeref
  | some _, none => .error .nullDeref
  | some p, some q =>
    match store st.dbuff p c with
    | .error f => .error f
    | .ok dbuff1 =>
      match storeSeq st.pulse q (Morse.morseCase c).1 with
      | .error f => .error f
      | .ok (pulse1, q1) =>
        .ok { st with
              dbuff := dbuff1
              dbuff_ptr := some (p + 1)
              pulse := pulse1
              pulse_ptr := some q1
              pulse_len := st.pulse_len + (Morse.morseCase c).2 }

/-- The loop `for (i = 0; i < len && i < CAP1X - 1; i++)` of `device_write`, over the
bytes it takes from the user buffer. -/
def Morse.writeLoop : Morse → List Char → Except Fault Morse
  | st, [] => .ok st
  | st, c :: cs =>
    match Morse.writeByte st c with
    | .error f => .error f
    | .ok st1 => Morse.writeLoop st1 cs

/-- The function `device_write` called with the `len` bytes `buff`: nothing is done
and 0 is returned while the timer is busy; otherwise `pulse_len = 0`, the loop, the
terminator `*dbuff_ptr = 0`, and the number of bytes taken is returned. -/
def Morse.device_write (st : Morse) (buff : List Char) : Except Fault (Morse × Int) :=
  if st.tmrbusy ≠ 0 then .ok (st, 0)
  else
    match Morse.writeLoop { st with pulse_len := 0 } (buff.take (CAP1X - 1)) with
    | .error f => .error f
    | .ok st1 =>
      match st1.dbuff_ptr with
      | none => .error .nullDeref
      | some p =>
        match store st1.dbuff p NUL with
        | .error f => .error f
        | .ok dbuff1 => .ok ({ st1 with dbuff := dbuff1 }, (buff.take (CAP1X - 1)).length)

/-- The timer function `expire`. The timer that fired is no longer armed; `pulse_pos`
is decremented whatever its value; if it was positive the pin is set from
`*(pulse_ptr++)`, `mod_timer` arms the timer again, and when `pulse_pos` has reached 0
the busy flag is cleared and `del_timer` disarms it. -/
def Morse.expire (st : Morse) : Except Fault Morse :=
  let st1 := { st with pulse_pos := st.pulse_pos - 1, pending := false }
  if st.pulse_pos > 0 then
    match st1.pulse_ptr with
    | none => .error .nullDeref
    | some q =>
      match st1.pulse[q]? with
      | none => .error .outOfBounds
      | some u =>
        let st2 := { st1 with
                     gpio := if u = '1' then 1 else 0
                     pulse_ptr := some (q + 1)
                     pending := true }
        if st2.pulse_pos = 0 then .ok { st2 with tmrbusy := 0, pending := false }
        else .ok st2
  else .ok st1

/-- The run of the timer for at most `k` expirations: `expire` is called as long as the
timer is armed; the result is the final state and the value of the pin after each
expiration, in order. -/
def Morse.timerRun : Nat → Morse → Except Fault (Morse × List Int)
  | 0, st => .ok (st, [])
  | k + 1, st =>
    if st.pending then
      match Morse.expire st with
      | .error f => .error f
      | .ok st1 =>
        match Morse.timerRun k st1 with
        | .error f => .error f
        | .ok (st2, levels) => .ok (st2, st1.gpio :: levels)
    else .ok (st, [])

/-! ## Reference Morse encoding -/

/-- The International Morse code of the letters and digits, `.` for a dot and `-` for
a dash. -/
def morseAlphabet : List (Char × String) :=
  [('A', ".-"), ('B', "-..."), ('C', "-.-."), ('D', "-.."), ('E', "."), ('F', "..-."),
   ('G', "--."), ('H', "...."), ('I', ".."), ('J', ".---"), ('K', "-.-"), ('L', ".-.."),
   ('M', "--"), ('N', "-."), ('O', "---"), ('P', ".--."), ('Q', "--.-"), ('R', ".-."),
   ('S', "..."), ('T', "-"), ('U', "..-"), ('V', "...-"), ('W', ".--"), ('X', "-..-"),
   ('Y', "-.--"), ('Z', "--.."),
   ('0', "-----"), ('1', ".----"), ('2', "..---"), ('3', "...--"), ('4', "....-"),
   ('5', "....."), ('6', "-...."), ('7', "--..."), ('8', "---.."), ('9', "----.")]

/-- The units of one element: one unit on for a dot, three units on for a dash. -/
def renderElement (e : Char) : List Char :=
  if e = '-' then "111".toList else "1".toList

/-- The units of a pattern: its elements separated by one unit off, followed by three
units off. -/
def render (pattern : List Char) : List Char :=
  List.intercalate ['0'] (pattern.map renderElement) ++ "000".toList

/-- Reference encoding of a byte: the rendered pattern of a letter of either case or
of a digit, five units off for every other byte. -/
def refEncoding (c : Char) : List Char :=
  match morseAlphabet.lookup c.toUpper with
  | some pattern => render pattern.toList
  | none => "00000".toList

/-- Reference encoding of a string: the encodings of its bytes, in order. -/
def encode (s : List Char) : List Char := (s.map refEncoding).flatten

/-- The level of the pin for a unit: on for `1`, off otherwise. -/
def levelOf (u : Char) : Int := if u = '1' then 1 else 0

/-- The device right after the first successful open. -/
def Morse.opened : Morse := (Morse.device_open Morse.init).1

/-! ## The summing server (`server.c` of the multithreaded pair) -/

/-- What the summing server takes from the C library and the platform. -/
structure Libc where
  /-- The call `strtol (s, NULL, 0)` on a token. -/
  strtol : List Char → Int
  /-- The constant `LONG_MAX`; `LONG_MIN` is `-LONG_MAX - 1`. -/
  LONG_MAX : Int

/-- Whether a value is representable in a `long`. -/
def Libc.inRange (libc : Libc) (v : Int) : Prop :=
  -libc.LONG_MAX - 1 ≤ v ∧ v ≤ libc.LONG_MAX

instance (libc : Libc) (v : Int) : Decidable (libc.inRange v) := by
  unfold Libc.inRange
  exact inferInstance

/-- Ways in which the summing server leaves defined behaviour. -/
inductive SumFault
  | overflow
  | outOfFuel
  deriving DecidableEq, Repr

/-- The addition of two `long` values; signed overflow is a fault. -/
def Libc.add (libc : Libc) (a b : Int) : Except SumFault Int :=
  if libc.inRange (a + b) then .ok (a + b) else .error .overflow

/-- The global variables `client_count` and `global_sum`. -/
structure SumServer where
  /-- The counter `long int client_count`. -/
  client_count : Int
  /-- The total `long int global_sum`. -/
  global_sum : Int
  deriving DecidableEq, Repr

/-- The initial values of the global variables. -/
def SumServer.init : SumServer where
  client_count := 0
  global_sum := 0

/-- The three values that `my_thread` sends to its client. -/
structure Reply where
  /-- The value printed after `Your total is`. -/
  local_sum : Int
  /-- The value printed after `The current Grand Total is`. -/
  local_gbl_sum : Int
  /-- The number of clients printed. -/
  local_c_count : Int
  deriving DecidableEq, Repr

/-- The loop `s_value = strtok (RxBuff, " \t\r\n"); while (s_value != NULL) ...` of
`my_thread`, from the text at the scan pointer and the value of `local_sum`, with an
iteration bound: each token is converted by `strtol` and added to `local_sum`. -/
def sumLoop (libc : Libc) : Nat → List Char → Int → Except SumFault Int
  | 0, _, _ => .error .outOfFuel
  | fuel + 1, s, local_sum =>
    match strtok s with
    | none => .ok local_sum
    | some (s_value, rest) =>
      match libc.add local_sum (libc.strtol s_value) with
      | .error f => .error f
      | .ok sum1 => sumLoop libc fuel rest sum1

/-- The function `my_thread` for the request text received in `RxBuff`: the loop, with
one iteration per byte and one more for the final `NULL`, then under the mutex
`global_sum += local_sum`, `client_count++` and the two copies, and the reply. -/
def my_thread (libc : Libc) (st : SumServer) (RxBuff : List Char) :
    Except SumFault (SumServer × Reply) :=
  match sumLoop libc (RxBuff.length + 1) RxBuff 0 with
  | .error f => .error f
  | .ok local_sum =>
    match libc.add st.global_sum local_sum with
    | .error f => .error f
    | .ok global_sum =>
      match libc.add st.client_count 1 with
      | .error f => .error f
      | .ok client_count =>
        .ok ({ client_count := client_count, global_sum := global_sum },
             { local_sum := local_sum, local_gbl_sum := global_sum,
               local_c_count := client_count })

/-- A sequence of requests handled one at a time, each by `my_thread`: the final
globals and the replies in order. -/
def serve (libc : Libc) : SumServer → List (List Char) → Except SumFault (SumServer × List Reply)
  | st, [] => .ok (st, [])
  | st, request :: requests =>
    match my_thread libc st request with
    | .error f => .error f
    | .ok (st1, reply) =>
      match serve libc st1 requests with
      | .error f => .error f
      | .ok (st2, replies) => .ok (st2, reply :: replies)

/-! ## Reference integer literals -/

/-- The value of a digit, for bases up to 16. -/
def digitValue (c : Char) : Option Nat :=
  if '0' ≤ c ∧ c ≤ '9' then some (c.toNat - '0'.toNat)
  else if 'a' ≤ c ∧ c ≤ 'f' then some (c.toNat - 'a'.toNat + 10)
  else if 'A' ≤ c ∧ c ≤ 'F' then some (c.toNat - 'A'.toNat + 10)
  else none

/-- The value of a possibly empty sequence of digits of the given base, continuing
from `acc`; `none` if a byte is not a digit of that base. -/
def numeralFrom (base : Nat) : Nat → List Char → Option Nat
  | acc, [] => some acc
  | acc, c :: cs =>
    match digitValue c with
    | none => none
    | some d => if d < base then numeralFrom base (acc * base + d) cs else none

/-- The value of a non-empty sequence of digits of the given base. -/
def numeral (base : Nat) (ds : List Char) : Option Nat :=
  if ds = [] then none else numeralFrom base 0 ds

/-- The value of an unsigned integer literal: hexadecimal after `0x` or `0X`, octal
after `0`, decimal otherwise. -/
def magnitude : List Char → Option Nat
  | '0' :: 'x' :: ds => numeral 16 ds
  | '0' :: 'X' :: ds => numeral 16 ds
  | '0' :: ds => numeralFrom 8 0 ds
  | ds => numeral 10 ds

/-- The value of an integer literal with an optional sign; `none` if the text is not
a valid integer literal. -/
def literalValue : List Char → Option Int
  | '-' :: m => (magnitude m).map (fun v => -(v : Int))
  | '+' :: m => (magnitude m).map (fun v => (v : Int))
  | m => (magnitude m).map (fun v => (v : Int))

/-- The integers of a request: the values of its tokens, the maximal substrings
without space, tab, CR or LF. -/
def requestValues (request : List Char) : List Int :=
  (maximalRuns request).map (fun t => (literalValue t).getD 0)

/-- The total of a request: the sum of its integers. -/
def requestTotal (request : List Char) : Int := (requestValues request).sum

/-- A C library whose `strtol` returns the value of a valid literal and 0 otherwise,
with a 64-bit `long`. -/
def Libc.sample : Libc where
  strtol := fun t => (literalValue t).getD 0
  LONG_MAX := 9223372036854775807

/-- Two requests: decimal literals, then a hexadecimal and a negative one. -/
def sampleRequests : List (List Char) := ["1 2 3\n".toList, "0x10 -6\r\n".toList]

/-! ## Reference definitions for the children of the launchers -/

/-- The children forked in a trace, in order. -/
def forkedChildren (tr : List Act) : List (List ChildAct) :=
  tr.filterMap (fun a => match a with | .fork child => some child | _ => none)

/-- How the code of a child ends when `execvp` returns: at its first `exit`, or, if
there is none, by falling through to the code that follows in the launcher. -/
def childEnd : List ChildAct → Outcome
  | [] => .returned
  | .exit code :: _ => .exited code
  | _ :: rest => childEnd rest

/-- The call is a `dup2` or the `execvp`. -/
def isDupOrExec : ChildAct → Bool
  | .dup2 _ _ => true
  | .execvp _ _ => true
  | _ => false

/-- The call is the `execvp`, a `perror` or an `exit`. -/
def isExecOrAfter : ChildAct → Bool
  | .execvp _ _ => true
  | .perror _ => true
  | .exit _ => true
  | _ => false

/-- The runs of the three launchers of the interactive shell. -/
def Bsh.launcherRuns (env : Env) (cmd : List (Option Tok)) (file : Option Tok)
    (std_ioe append bg : Nat) (cmds : List (List (Option Tok))) (n : Nat)
    (bgs : List Nat) : List Run :=
  [Bsh.runcmd env cmd, Bsh.redirect env cmd file std_ioe append bg,
   Bsh.multi_pipe env cmds n bgs]

/-- The runs of the three launchers of the remote service. -/
def Server.launcherRuns (env : Env) (cmd : List (Option Tok)) (file : Option Tok)
    (std_ioe append bg : Nat) (cmds : List (List (Option Tok))) (n : Nat)
    (bgs : List Nat) : List Run :=
  [Server.runcmd env cmd, Server.redirect env cmd file std_ioe append bg,
   Server.multi_pipe env cmds n bgs]

/-! ## Reference descriptor table of a child of `multi_pipe` -/

/-- A descriptor held by a child of `multi_pipe`: the number that `pipe` stored in
`pipes[j]`, or a standard descriptor. The numbers stored in `pipes` are taken to differ
from one another and from the standard descriptors, as they do when the parent has
its descriptors 0, 1 and 2 open. -/
inductive Desc
  | slot (j : Nat)
  | std (d : Nat)
  deriving DecidableEq, Repr

/-- The descriptors of the child at `fork` that refer to a pipe end, each with the
index in `pipes` of the pipe end it refers to: the `2n` entries of `pipes`. -/
def fdTableAtFork (n : Nat) : List (Desc × Nat) :=
  (List.range (n * 2)).map (fun j => (Desc.slot j, j))

/-- The effect of one call on the table: `dup2 (pipes[j], d)` makes `d` refer to the
pipe end of `pipes[j]` (and fails, changing nothing, if `pipes[j]` is closed);
`close (pipes[j])` removes `pipes[j]`; other calls leave the table as it is. -/
def fdStep (tbl : List (Desc × Nat)) : ChildAct → List (Desc × Nat)
  | .dup2 (.pipes j) d =>
    match tbl.lookup (Desc.slot j) with
    | some e => (Desc.std d, e) :: tbl.filter (fun p => p.1 ≠ Desc.std d)
    | none => tbl
  | .close (.pipes j) => tbl.filter (fun p => p.1 ≠ Desc.slot j)
  | _ => tbl

/-- The table at the moment the child calls `execvp`. -/
def heldAtExec (tbl : List (Desc × Nat)) : List ChildAct → List (Desc × Nat)
  | [] => tbl
  | .execvp _ _ :: _ => tbl
  | a :: rest => heldAtExec (fdStep tbl a) rest

/-- The pipe ends that stage `i` of `n + 1` stages is to hold when its program starts:
the read end of pipe `i - 1` as descriptor 0 unless it is the first stage, the
write end of pipe `i` as descriptor 1 unless it is the last one. -/
def stageEnds (n i : Nat) : List (Desc × Nat) :=
  (if i ≠ 0 then [(Desc.std 0, i * 2 - 2)] else []) ++
  (if i ≠ n then [(Desc.std 1, i * 2 + 1)] else [])

/-- The call is a `close` or the `execvp`. -/
def isCloseOrExec : ChildAct → Bool
  | .close _ => true
  | .execvp _ _ => true
  | _ => false

/-- The call of the parent is a `close` or a `wait`. -/
def isCloseOrWait : Act → Bool
  | .close _ => true
  | .wait => true
  | _ => false

/-- The descriptor is not one of `pipes[0]` to `pipes[m - 1]`. -/
def notSlotBelow (m : Nat) : Desc → Bool
  | .slot j => decide (m ≤ j)
  | .std _ => true

/-- The command table of the line `ls | wc`. -/
def lsWcTable : List (List (Option Tok)) := tableOf [["ls".toList], ["wc".toList]]

/-! ## The parser of the remote command service (`server.c`, lines 145 to 193) -/

namespace Server

/-- Constant `MAX_ARGS` of `server.c`. -/
def MAX_ARGS : Nat := 32

/-- Constant `MAX_CMDS` of `server.c`. -/
def MAX_CMDS : Nat := 16

/-- Constant `DELIMS` of `server.c`, from `#define DELIMS " \t\r\n"`. -/
def DELIMS : List Char := [' ', '\t', '\r', '\n']

/-- The array `char *special[9]` of `parseBuffer`, line 145. -/
def special : List Tok :=
  ["&".toList, ">".toList, "1>".toList, "2>".toList, ">>".toList, "2>>".toList,
   "&>".toList, "<".toList, "|".toList]

/-- The values of the variables of `parseBuffer` after `= {0}` and `= 0`, lines 146
to 151. -/
def initState : PState where
  stok := List.replicate (MAX_CMDS - 1) none
  cmds := List.replicate MAX_CMDS (List.replicate MAX_ARGS none)
  cmdc := 0
  tokc := 0
  bg := List.replicate MAX_CMDS 0

/-- The detection loop of lines 167 to 180, started at index `ii` with `n` iterations
left: the value of `ii` at the `break`, or `none` when the loop runs to its end. -/
def specialFor (cmd : Tok) : Nat → Nat → Option Nat
  | _, 0 => none
  | ii, n + 1 => if special[ii]? = some cmd then some ii else specialFor cmd (ii + 1) n

/-- The outcome of the detection loop of `parseBuffer` for the token `cmd`. -/
def classify (cmd : Tok) : Kind :=
  match specialFor cmd 0 9 with
  | none => .word
  | some 0 => .background
  | some (ii + 1) => .operator (special.getD (ii + 1) [])

/-- One iteration of the body of `while (cmd != NULL)` of `parseBuffer`, lines 164
to 192, for the token `cmd`. -/
def parseStep (st : PState) (cmd : Tok) : Except Fault PState :=
  match classify cmd with
  | .background =>
    match store st.bg st.cmdc 1 with
    | .error f => .error f
    | .ok bg1 => .ok { st with bg := bg1 }
  | .operator lit =>
    match store st.stok st.cmdc (some lit) with
    | .error f => .error f
    | .ok stok1 =>
      match store2 st.cmds st.cmdc st.tokc none with
      | .error f => .error f
      | .ok cmds1 =>
        match store st.bg (st.cmdc + 1) 0 with
        | .error f => .error f
        | .ok bg1 =>
          .ok { stok := stok1, cmds := cmds1, cmdc := st.cmdc + 1, tokc := 0, bg := bg1 }
  | .word =>
    match store2 st.cmds st.cmdc st.tokc (some cmd) with
    | .error f => .error f
    | .ok cmds1 => .ok { st with cmds := cmds1, tokc := st.tokc + 1 }

/-- The loop of lines 162 to 193 on the text at the scan pointer; `strtok` is called
with the delimiters `" \t\r\n"`, the value of `DELIMS` in both programs. -/
def parseLoop : Nat → PState → List Char → Except Fault PState
  | 0, _, _ => .error .outOfFuel
  | fuel + 1, st, s =>
    match strtok s with
    | none => .ok st
    | some (cmd, rest) =>
      match parseStep st cmd with
      | .error f => .error f
      | .ok st1 => parseLoop fuel st1 rest

/-- The parser block of `parseBuffer` for one line, from freshly initialised
variables; the statement `bg[cmdc] = 0` of line 161 stores 0 into `bg[0]`. -/
def parse (input : List Char) : Except Fault PState :=
  match store initState.bg initState.cmdc 0 with
  | .error f => .error f
  | .ok bg1 => parseLoop (input.length + 1) { initState with bg := bg1 } input

end Server

/-! ## The selection of the launcher -/

/-- A launcher with the arguments it is called with. -/
inductive Launch
  | runcmd (cmd : List (Option Tok))
  | redirect (cmd : List (Option Tok)) (file : Option Tok) (std_ioe append bg : Nat)
  | multi_pipe (cmds : List (List (Option Tok))) (n : Nat) (bg : List Nat)
  deriving DecidableEq, Repr

/-- The call selected by lines 263 to 285 of `bsh.c`, the branches that follow the
`exit` comparison: `runcmd (cmds[0])` when `cmdc` is 0, otherwise the branch of the
first comparison of `stok[0]` that succeeds, the last `else` being `runcmd (cmds[0])`.
A `NULL` in `stok[0]` is a fault of `strcmp`. -/
def Bsh.select (st : PState) : Except Fault Launch :=
  if st.cmdc ≠ 0 then
    match st.stok.head?.join with
    | none => .error .nullDeref
    | some op =>
      let cmd0 := st.cmds.getD 0 []
      let file := ((st.cmds.getD 1 []).head?).join
      let bg0 := st.bg.getD 0 0
      if op = ">".toList then .ok (.redirect cmd0 file 1 0 bg0)
      else if op = "1>".toList then .ok (.redirect cmd0 file 1 0 bg0)
      else if op = "2>".toList then .ok (.redirect cmd0 file 2 0 bg0)
      else if op = ">>".toList then .ok (.redirect cmd0 file 1 1 bg0)
      else if op = "2>>".toList then .ok (.redirect cmd0 file 2 1 bg0)
      else if op = "&>".toList then .ok (.redirect cmd0 file 3 0 bg0)
      else if op = "<".toList then .ok (.redirect cmd0 file 0 0 bg0)
      else if op = "|".toList then .ok (.multi_pipe st.cmds st.cmdc st.bg)
      else .ok (.runcmd cmd0)
  else .ok (.runcmd (st.cmds.getD 0 []))

/-- The call selected by lines 199 to 221 of `server.c`. -/
def Server.select (st : PState) : Except Fault Launch :=
  if st.cmdc ≠ 0 then
    match st.stok.head?.join with
    | none => .error .nullDeref
    | some op =>
      let cmd0 := st.cmds.getD 0 []
      let file := ((st.cmds.getD 1 []).head?).join
      let bg0 := st.bg.getD 0 0
      if op = ">".toList then .ok (.redirect cmd0 file 1 0 bg0)
      else if op = "1>".toList then .ok (.redirect cmd0 file 1 0 bg0)
      else if op = "2>".toList then .ok (.redirect cmd0 file 2 0 bg0)
      else if op = ">>".toList then .ok (.redirect cmd0 file 1 1 bg0)
      else if op = "2>>".toList then .ok (.redirect cmd0 file 2 1 bg0)
      else if op = "&>".toList then .ok (.redirect cmd0 file 3 0 bg0)
      else if op = "<".toList then .ok (.redirect cmd0 file 0 0 bg0)
      else if op = "|".toList then .ok (.multi_pipe st.cmds st.cmdc st.bg)
      else .ok (.runcmd cmd0)
  else .ok (.runcmd (st.cmds.getD 0 []))

/-- The run of a selected launcher of the interactive shell. -/
def Bsh.start (env : Env) : Launch → Run
  | .runcmd cmd => Bsh.runcmd env cmd
  | .redirect cmd file std_ioe append bg => Bsh.redirect env cmd file std_ioe append bg
  | .multi_pipe cmds n bg => Bsh.multi_pipe env cmds n bg

/-- The run of a selected launcher of the remote service. -/
def Server.start (env : Env) : Launch → Run
  | .runcmd cmd => Server.runcmd env cmd
  | .redirect cmd file std_ioe append bg => Server.redirect env cmd file std_ioe append bg
  | .multi_pipe cmds n bg => Server.multi_pipe env cmds n bg

/-- The run that starts the selected launcher, or stops at the fault of the
selection. -/
def startOf (start : Launch → Run) : Except Fault Launch → Run
  | .error f => { trace := [], out := .fault f }
  | .ok l => start l

/-! ## Reference comparison of the two front ends -/

/-- The calls of a child without its `signal` calls. -/
def stripSignals (child : List ChildAct) : List ChildAct :=
  child.filter (fun a => match a with | .signalDfl _ => false | _ => true)

/-- A call of the parent, with the `signal` calls removed from a forked child. -/
def Act.stripSignals : Act → Act
  | .fork child => .fork (Engine.stripSignals child)
  | a => a

/-- A run with the `signal` calls removed from every forked child: the same `open`,
`pipe`, `fork`, `dup2`, `close`, `execvp` and `wait` calls in the same order. -/
def Run.stripSignals (r : Run) : Run :=
  { trace := r.trace.map Act.stripSignals, out := r.out }

/-- The two `dup2` calls of the socket that open `parseBuffer`. -/
def Server.socketDups : Run :=
  { trace := [.dup2 .sockfd 1, .dup2 .sockfd 2], out := .returned }

/-- The line is taken as an exit request: its first byte is not a newline, the parser
ends without fault, and `cmds[0][0]` is the word `exit`. -/
def isExitRequest (input : List Char) : Bool :=
  decide (input.head? ≠ some '\n') &&
  match parse input with
  | .ok st => decide ((st.cmds.getD 0 []).head?.join = some "exit".toList)
  | .error _ => false

/-- The parser state for the line `ls > f`. -/
def lsToFile : PState :=
  stateOf (segments (maximalRuns "ls > f\n".toList)) (opsOf (maximalRuns "ls > f\n".toList))
    (bgFlags (maximalRuns "ls > f\n".toList))

/-- Two token lists differ only in the kind of operator tokens after the first one:
they have the same length, every token of the first that is not an operator stands
unchanged in the second, every operator of the first stands against an operator of
the second, and these are equal as long as no operator was `seen` before them. -/
def laterOpsOnly : Bool → List Tok → List Tok → Bool
  | _, [], [] => true
  | seen, a :: as, b :: bs =>
    if isOperator a then
      isOperator b && (seen || decide (a = b)) && laterOpsOnly true as bs
    else decide (a = b) && laterOpsOnly seen as bs
  | _, _, _ => false

/-! ## The child reaper of the remote service (`sigchld_handler`) -/

/-- The children of the server process as the kernel sees them: the process ids of
those that have exited and are not yet reaped, and of those still running. -/
structure Children where
  /-- The children that have exited and wait to be reaped. -/
  exited : List Nat
  /-- The children that are still running. -/
  running : List Nat
  deriving DecidableEq, Repr

/-- A call of `waitpid` as the handler makes it, with the value it returned. -/
structure WaitCall where
  /-- The first argument. -/
  pid : Int
  /-- Whether the option `WNOHANG` was given. -/
  nohang : Bool
  /-- The value returned. -/
  result : Int
  deriving DecidableEq, Repr

/-- The system call `waitpid (-1, NULL, WNOHANG)`: if a child has exited, one such
child (here the first of the list) is reaped and its process id is returned; if there
are children but none has exited, 0 is returned at once; without any child the call
fails with -1. -/
def waitpidAnyNoHang (k : Children) : Children × Int :=
  match k.exited with
  | pid :: rest => ({ k with exited := rest }, (pid : Int))
  | [] => if k.running = [] then (k, -1) else (k, 0)

/-- The function `sigchld_handler`, the loop `while (waitpid (-1, NULL, WNOHANG) > 0);`
with an iteration bound: the children afterwards and the calls made. -/
def sigchld_handler : Nat → Children → Except Fault (Children × List WaitCall)
  | 0, _ => .error .outOfFuel
  | fuel + 1, k =>
    let call : WaitCall :=
      { pid := -1, nohang := true, result := (waitpidAnyNoHang k).2 }
    if (waitpidAnyNoHang k).2 > 0 then
      match sigchld_handler fuel (waitpidAnyNoHang k).1 with
      | .error f => .error f
      | .ok (k1, calls) => .ok (k1, call :: calls)
    else .ok ((waitpidAnyNoHang k).1, [call])

/-- Three exited children and two running ones. -/
def Children.sample : Children where
  exited := [101, 102, 105]
  running := [103, 104]

/-! ## The summing client (`client.c` of the multithreaded pair) -/

namespace Client

/-- The macro `MAX_TX`. -/
def MAX_TX : Nat := 2048

/-- What `strtol (token, &garbage, 0)` leaves behind: the value, the text at
`garbage` and `errno`. -/
structure Strtol where
  /-- The value returned. -/
  value : Int
  /-- The text that `garbage` points to. -/
  garbage : List Char
  /-- The value of `errno` after the call. -/
  errno : Int
  deriving DecidableEq, Repr

/-- What the client takes from the C library and the platform. -/
structure Lib where
  /-- The call `strtol (token, &garbage, 0)` made with `errno` set to 0. -/
  strtol : List Char → Strtol
  /-- The number of bits of `size_t`, at least the 32 bits of `int`. -/
  SIZE_BITS : Nat

/-- The variables `TxBuff` (its content as a string) and `TxOverflow`. -/
structure State where
  /-- The string held in `char TxBuff[MAX_TX]`. -/
  TxBuff : List Char
  /-- The counter `int TxOverflow`. -/
  TxOverflow : Int
  deriving DecidableEq, Repr

/-- The values before the input loop: an empty buffer and `MAX_TX - 2`. -/
def init : State where
  TxBuff := []
  TxOverflow := (MAX_TX : Int) - 2

/-- Membership of a byte in the delimiters `"\t\r\n"` of line 116. -/
def isLineDelim (c : Char) : Bool := ['\t', '\r', '\n'].contains c

/-- The call `strtok (input, "\t\r\n")` of line 116: the first token of the input,
or `NULL`. -/
def firstToken (input : List Char) : Option Tok :=
  match input.dropWhile isLineDelim with
  | [] => none
  | c :: cs => some ((c :: cs).takeWhile (fun x => !isLineDelim x))

/-- The conversion of an `int` or of a difference to `size_t`: the value modulo
`2 ^ SIZE_BITS`. -/
def toSize (lib : Lib) (v : Int) : Int := v % 2 ^ lib.SIZE_BITS

/-- The conversion of a `size_t` value to `int`: the value modulo `2 ^ 32` in the
range of `int`. -/
def toInt (v : Int) : Int := (v + 2 ^ 31) % 2 ^ 32 - 2 ^ 31

/-- The test `(TxOverflow - strlen (token)) < 0` of line 125: `strlen` returns a
`size_t`, so `TxOverflow` is converted to `size_t` and the difference is a `size_t`. -/
def overflowDetected (lib : Lib) (TxOverflow : Int) (len : Nat) : Bool :=
  decide (toSize lib (toSize lib TxOverflow - (len : Int)) < 0)

/-- The copy of `more` to the end of the string in `TxBuff` by `strncat` or `strcat`;
writing past the `MAX_TX` bytes of the array, terminator included, is a fault. -/
def append (buff more : List Char) : Except Fault (List Char) :=
  if (buff ++ more).length + 1 ≤ MAX_TX then .ok (buff ++ more) else .error .outOfBounds

/-- The assignment `TxBuff[strlen (TxBuff) - 1] = '\0'`, which deletes the last byte of
the string; on an empty string the index is outside the array. -/
def deleteLast (buff : List Char) : Except Fault (List Char) :=
  if buff = [] then .error .outOfBounds else .ok buff.dropLast

/-- How one iteration of the input loop ends. -/
inductive Step
  | next (st : State)
  | buffered (st : State)
  | overflow (st : State)
  deriving DecidableEq, Repr

/-- One iteration of `while (1)`, lines 109 to 158, for the text `input` that `fgets`
stored: `next` is the start of another iteration, `buffered` the `break` of the
termination branch, `overflow` the `break` of the overflow branch. -/
def step (lib : Lib) (st : State) (input : List Char) : Except Fault Step :=
  match firstToken input with
  | none =>
    if st.TxBuff.length = 0 then
      match append st.TxBuff [' '] with
      | .error f => .error f
      | .ok buff => .ok (.buffered { st with TxBuff := buff })
    else
      match deleteLast st.TxBuff with
      | .error f => .error f
      | .ok buff => .ok (.buffered { st with TxBuff := buff })
  | some token =>
    if overflowDetected lib st.TxOverflow token.length then
      match deleteLast st.TxBuff with
      | .error f => .error f
      | .ok buff => .ok (.overflow { st with TxBuff := buff })
    else if (lib.strtol token).errno ≠ 0 then .ok (.next st)
    else if (lib.strtol token).garbage.length > 0 then .ok (.next st)
    else
      match append st.TxBuff token with
      | .error f => .error f
      | .ok buff1 =>
        match append buff1 [' '] with
        | .error f => .error f
        | .ok buff2 =>
          .ok (.next { TxBuff := buff2,
                       TxOverflow := toInt (toSize lib
                         (toSize lib st.TxOverflow - ((token.length : Int) + 1))) })

/-- The input loop over the successive results of `fgets`: the way it is left, or
`none` when `fgets` fails and the client exits with an error. -/
def run (lib : Lib) : State → List (List Char) → Except Fault (Option Step)
  | _, [] => .ok none
  | st, input :: inputs =>
    match step lib st input with
    | .error f => .error f
    | .ok (.next st1) => run lib st1 inputs
    | .ok ending => .ok (some ending)

/-- A library whose `strtol` accepts the valid integer literals, with a `size_t` of
64 bits. -/
def sampleLib : Lib where
  strtol := fun t =>
    match literalValue t with
    | some v => { value := v, garbage := [], errno := 0 }
    | none => { value := 0, garbage := t, errno := 0 }
  SIZE_BITS := 64

/-- A token of 1500 zeros, a valid literal of the value 0. -/
def zeros : List Char := List.replicate 1500 '0'

end Client

/-! ## Tokenizer lemmas -/

theorem runs_dropWhile (s : List Char) :
    maximalRunsFrom true (s.dropWhile isDelim) = maximalRunsFrom true s := by
  induction s with
  | nil => rfl
  | cons c cs ih =>
    by_cases h : isDelim c = true
    · simp [List.dropWhile_cons, h, maximalRunsFrom, ih]
    · simp [List.dropWhile_cons, h]

theorem runs_inside (s : List Char) :
    maximalRunsFrom false s
      = maximalRunsFrom true ((s.dropWhile (fun x => !isDelim x)).drop 1) := by
  induction s with
  | nil => rfl
  | cons c cs ih =>
    by_cases h : isDelim c = true
    · simp [List.dropWhile_cons, h, maximalRunsFrom]
    · simp [List.dropWhile_cons, h, maximalRunsFrom, ih]

theorem dropWhile_head_not_delim {s : List Char} {c : Char} {cs : List Char}
    (h : s.dropWhile isDelim = c :: cs) : isDelim c = false := by
  induction s with
  | nil => simp at h
  | cons d ds ih =>
    by_cases hd : isDelim d = true
    · simp [List.dropWhile_cons, hd] at h
      exact ih h
    · simp [List.dropWhile_cons, hd] at h
      rcases h with ⟨rfl, _⟩
      simpa using hd

theorem strtok_none_runs {s : List Char} (h : strtok s = none) : maximalRuns s = [] := by
  unfold strtok at h
  split at h
  · rename_i hd
    rw [maximalRuns, ← runs_dropWhile, hd]; rfl
  · simp at h

theorem strtok_some_runs {s : List Char} {t : Tok} {rest : List Char}
    (h : strtok s = some (t, rest)) : maximalRuns s = t :: maximalRuns rest := by
  unfold strtok at h
  split at h
  · simp at h
  · rename_i c cs hd
    have hc := dropWhile_head_not_delim hd
    simp only [Option.some.injEq, Prod.mk.injEq] at h
    obtain ⟨ht, hr⟩ := h
    rw [maximalRuns, ← runs_dropWhile, hd, maximalRuns, ← hr, ← ht]
    simp [maximalRunsFrom, hc, List.takeWhile_cons, List.dropWhile_cons, runs_inside cs]

theorem strtok_some_length {s : List Char} {t : Tok} {rest : List Char}
    (h : strtok s = some (t, rest)) : rest.length < s.length := by
  unfold strtok at h
  split at h
  · simp at h
  · rename_i c cs hd
    simp only [Option.some.injEq, Prod.mk.injEq] at h
    obtain ⟨_, hr⟩ := h
    have h1 : ((c :: cs).dropWhile (fun x => !isDelim x)).length ≤ (c :: cs).length :=
      (List.dropWhile_sublist _).length_le
    have h2 : (s.dropWhile isDelim).length ≤ s.length := (List.dropWhile_sublist _).length_le
    have h3 := dropWhile_head_not_delim hd
    rw [hd] at h2
    rw [← hr]
    simp [List.dropWhile_cons, h3] at h1 ⊢
    have h4 : (cs.dropWhile (fun x => !isDelim x)).length ≤ cs.length :=
      (List.dropWhile_sublist _).length_le
    simp at h2
    omega

theorem tokLoop_eq_runs : ∀ (fuel : Nat) (s : List Char), s.length < fuel →
    tokLoop fuel s = some (maximalRuns s)
  | 0, _, h => by omega
  | fuel + 1, s, h => by
    unfold tokLoop
    cases hs : strtok s with
    | none => simp [strtok_none_runs hs]
    | some p =>
      obtain ⟨t, rest⟩ := p
      have hl := strtok_some_length hs
      simp [tokLoop_eq_runs fuel rest (by omega), strtok_some_runs hs]

theorem tokenize_eq_runs (line : List Char) : tokenize line = some (maximalRuns line) :=
  tokLoop_eq_runs _ _ (Nat.lt_succ_self _)

theorem runs_splitOnP_aux (s : List Char) :
    maximalRunsFrom true s = (s.splitOnP isDelim).filter (fun t => !t.isEmpty) ∧
    maximalRunsFrom false s = ((s.splitOnP isDelim).tail).filter (fun t => !t.isEmpty) ∧
    (s.splitOnP isDelim).head? = some (s.takeWhile (fun x => !isDelim x)) := by
  induction s with
  | nil => simp [maximalRunsFrom]
  | cons c cs ih =>
    obtain ⟨ih1, ih2, ih3⟩ := ih
    by_cases h : isDelim c = true
    · simp [maximalRunsFrom, h, ih1, List.takeWhile_cons]
    · cases hsp : cs.splitOnP isDelim with
      | nil => exact absurd hsp (List.splitOnP_ne_nil _ _)
      | cons hd tl =>
        rw [hsp] at ih2 ih3
        simp at ih3
        simp [maximalRunsFrom, h, hsp, List.takeWhile_cons, List.modifyHead, ih2, ih3]

theorem runs_eq_splitOnP (line : List Char) :
    maximalRuns line = (line.splitOnP isDelim).filter (fun t => !t.isEmpty) :=
  (runs_splitOnP_aux line).1

theorem runs_mem (b : Bool) (s : List Char) :
    ∀ t ∈ maximalRunsFrom b s, t ≠ [] ∧ ∀ c ∈ t, isDelim c = false := by
  induction s generalizing b with
  | nil => simp [maximalRunsFrom]
  | cons c cs ih =>
    intro t ht
    by_cases h : isDelim c = true
    · simp [maximalRunsFrom, h] at ht
      exact ih true t ht
    · cases b with
      | false =>
        simp [maximalRunsFrom, h] at ht
        exact ih false t ht
      | true =>
        simp [maximalRunsFrom, h] at ht
        rcases ht with rfl | ht
        · refine ⟨by simp, ?_⟩
          intro x hx
          simp at hx
          rcases hx with rfl | hx
          · simpa using h
          · simpa using List.mem_takeWhile_imp hx
        · exact ih false t ht

theorem runs_flatten (s : List Char) :
    (maximalRunsFrom true s).flatten = s.filter (fun x => !isDelim x) ∧
    (s.takeWhile (fun x => !isDelim x)) ++ (maximalRunsFrom false s).flatten
      = s.filter (fun x => !isDelim x) := by
  induction s with
  | nil => simp [maximalRunsFrom]
  | cons c cs ih =>
    obtain ⟨ih1, ih2⟩ := ih
    by_cases h : isDelim c = true
    · simp [maximalRunsFrom, h, ih1, List.takeWhile_cons, List.filter_cons]
    · simp [maximalRunsFrom, h, List.takeWhile_cons, List.filter_cons, ih2]

theorem runs_all_delim (b : Bool) (s : List Char) (h : ∀ c ∈ s, isDelim c = true) :
    maximalRunsFrom b s = [] := by
  induction s generalizing b with
  | nil => rfl
  | cons c cs ih =>
    have hc := h c (List.mem_cons_self _ _)
    simp [maximalRunsFrom, hc]
    exact ih true (fun x hx => h x (List.mem_cons_of_mem _ hx))

theorem takeWhile_append_delims (s post : List Char) (h : ∀ c ∈ post, isDelim c = true) :
    (s ++ post).takeWhile (fun x => !isDelim x) = s.takeWhile (fun x => !isDelim x) := by
  induction s with
  | nil =>
    cases post with
    | nil => rfl
    | cons d ds => simp [List.takeWhile_cons, h d (List.mem_cons_self _ _)]
  | cons c cs ih =>
    by_cases hc : isDelim c = true
    · simp [List.takeWhile_cons, hc]
    · simp [List.takeWhile_cons, hc, ih]

theorem runs_append_delims (b : Bool) (s post : List Char)
    (h : ∀ c ∈ post, isDelim c = true) :
    maximalRunsFrom b (s ++ post) = maximalRunsFrom b s := by
  induction s generalizing b with
  | nil => simp [runs_all_delim b post h, maximalRunsFrom]
  | cons c cs ih =>
    by_cases hc : isDelim c = true
    · simp [maximalRunsFrom, hc, ih]
    · cases b <;> simp [maximalRunsFrom, hc, ih, takeWhile_append_delims cs post h]

theorem runs_delims_append (pre s : List Char) (h : ∀ c ∈ pre, isDelim c = true) :
    maximalRunsFrom true (pre ++ s) = maximalRunsFrom true s := by
  induction pre with
  | nil => rfl
  | cons c cs ih =>
    have hc := h c (List.mem_cons_self _ _)
    simp [maximalRunsFrom, hc]
    exact ih (fun x hx => h x (List.mem_cons_of_mem _ hx))

theorem dropWhile_head_delim (s : List Char) :
    ∀ d, (s.dropWhile (fun x => !isDelim x)).head? = some d → isDelim d = true := by
  induction s with
  | nil => simp
  | cons c cs ih =>
    by_cases hc : isDelim c = true
    · simp [List.dropWhile_cons, hc]
    · simpa [List.dropWhile_cons, hc] using ih

theorem runs_occurrence (b : Bool) (s : List Char) :
    ∀ t ∈ maximalRunsFrom b s, ∃ pre post, s = pre ++ t ++ post ∧
      ((pre = [] ∧ b = true) ∨ ∃ d, pre.getLast? = some d ∧ isDelim d = true) ∧
      (∀ d, post.head? = some d → isDelim d = true) := by
  induction s generalizing b with
  | nil => simp [maximalRunsFrom]
  | cons c cs ih =>
    intro t ht
    by_cases h : isDelim c = true
    · simp only [maximalRunsFrom, h, if_true] at ht
      obtain ⟨pre, post, hs, hl, hr⟩ := ih true t ht
      refine ⟨c :: pre, post, by simp [hs], Or.inr ?_, hr⟩
      rcases hl with ⟨rfl, _⟩ | ⟨d, hd, hdd⟩
      · exact ⟨c, by simp, h⟩
      · refine ⟨d, ?_, hdd⟩
        cases pre with
        | nil => simp at hd
        | cons p ps => simpa [List.getLast?_cons_cons] using hd
    · have inner : t ∈ maximalRunsFrom false cs →
          ∃ pre post, c :: cs = pre ++ t ++ post ∧
            ((pre = [] ∧ b = true) ∨ ∃ d, pre.getLast? = some d ∧ isDelim d = true) ∧
            (∀ d, post.head? = some d → isDelim d = true) := by
        intro ht2
        obtain ⟨pre, post, hs, hl, hr⟩ := ih false t ht2
        rcases hl with ⟨_, hb⟩ | ⟨d, hd, hdd⟩
        · simp at hb
        · refine ⟨c :: pre, post, by simp [hs], Or.inr ⟨d, ?_, hdd⟩, hr⟩
          cases pre with
          | nil => simp at hd
          | cons p ps => simpa [List.getLast?_cons_cons] using hd
      cases b with
      | false =>
        simp only [maximalRunsFrom, h] at ht
        exact inner (by simpa using ht)
      | true =>
        simp only [maximalRunsFrom, h] at ht
        simp at ht
        rcases ht with rfl | ht
        · refine ⟨[], cs.dropWhile (fun x => !isDelim x), ?_, Or.inl ⟨rfl, rfl⟩,
            dropWhile_head_delim cs⟩
          simp [List.takeWhile_append_dropWhile]
        · exact inner ht

theorem takeWhile_run_append (t post : List Char) (ht : ∀ c ∈ t, isDelim c = false)
    (hp : ∀ d, post.head? = some d → isDelim d = true) :
    (t ++ post).takeWhile (fun x => !isDelim x) = t := by
  induction t with
  | nil =>
    cases post with
    | nil => rfl
    | cons d ds => simp [List.takeWhile_cons, hp d (by simp)]
  | cons c cs ih =>
    have hc := ht c (List.mem_cons_self _ _)
    simp [List.takeWhile_cons, hc]
    exact ih (fun x hx => ht x (List.mem_cons_of_mem _ hx))

theorem occurrence_runs (pre t post : List Char) (b : Bool)
    (hne : t ≠ []) (ht : ∀ c ∈ t, isDelim c = false)
    (hl : (pre = [] ∧ b = true) ∨ ∃ d, pre.getLast? = some d ∧ isDelim d = true)
    (hr : ∀ d, post.head? = some d → isDelim d = true) :
    t ∈ maximalRunsFrom b (pre ++ t ++ post) := by
  induction pre generalizing b with
  | nil =>
    rcases hl with ⟨_, rfl⟩ | ⟨d, hd, _⟩
    · cases t with
      | nil => exact absurd rfl hne
      | cons c cs =>
        have hc := ht c (List.mem_cons_self _ _)
        have hcs := takeWhile_run_append cs post
          (fun x hx => ht x (List.mem_cons_of_mem _ hx)) hr
        simp [maximalRunsFrom, hc, hcs]
    · simp at hd
  | cons p ps ih =>
    have hl2 : ∃ d, (p :: ps).getLast? = some d ∧ isDelim d = true := by
      rcases hl with ⟨h, _⟩ | h
      · simp at h
      · exact h
    obtain ⟨d, hd, hdd⟩ := hl2
    by_cases hp : isDelim p = true
    · have : t ∈ maximalRunsFrom true (ps ++ t ++ post) := by
        apply ih
        cases ps with
        | nil => exact Or.inl ⟨rfl, rfl⟩
        | cons q qs => exact Or.inr ⟨d, by simpa [List.getLast?_cons_cons] using hd, hdd⟩
      simpa [maximalRunsFrom, hp] using this
    · have : t ∈ maximalRunsFrom false (ps ++ t ++ post) := by
        apply ih
        cases ps with
        | nil =>
          simp at hd
          subst hd
          exact absurd hdd hp
        | cons q qs => exact Or.inr ⟨d, by simpa [List.getLast?_cons_cons] using hd, hdd⟩
      cases b <;> simp [maximalRunsFrom, hp] <;> simp at this <;> simp [this]

theorem mem_runs_iff (line t : List Char) : t ∈ maximalRuns line ↔ IsMaximalRun line t := by
  constructor
  · intro h
    obtain ⟨hne, hnd⟩ := runs_mem true line t h
    obtain ⟨pre, post, hs, hl, hr⟩ := runs_occurrence true line t h
    refine ⟨hne, hnd, pre, post, hs, ?_, hr⟩
    intro d hd
    rcases hl with ⟨rfl, _⟩ | ⟨e, he, hee⟩
    · simp at hd
    · rw [he] at hd
      cases hd
      exact hee
  · rintro ⟨hne, hnd, pre, post, hs, hl, hr⟩
    rw [hs]
    apply occurrence_runs pre t post true hne hnd _ hr
    cases hpre : pre.getLast? with
    | none => exact Or.inl ⟨by simpa using hpre, rfl⟩
    | some d => exact Or.inr ⟨d, rfl, hl d hpre⟩


/-! ## Classification lemmas -/

theorem classify_of_mem_special (tok : Tok) (h : tok ∈ special) :
    (tok = "&".toList ∧ classify tok = .background) ∨
    (tok ∈ operators ∧ classify tok = .operator tok) := by
  simp only [special, List.mem_cons, List.mem_singleton, List.not_mem_nil, or_false] at h
  rcases h with rfl | rfl | rfl | rfl | rfl | rfl | rfl | rfl | rfl
  · left; exact ⟨rfl, by decide⟩
  all_goals right; exact ⟨by decide, by decide⟩

theorem classify_of_not_mem_special (tok : Tok) (h : tok ∉ special) :
    classify tok = .word := by
  simp only [special, List.mem_cons, List.mem_singleton, List.not_mem_nil, or_false,
    not_or] at h
  obtain ⟨h0, h1, h2, h3, h4, h5, h6, h7, h8⟩ := h
  have e : specialFor tok 0 9 = none := by
    simp only [specialFor, special]
    simp only [String.toList] at h0 h1 h2 h3 h4 h5 h6 h7 h8
    simp [Ne.symm h0, Ne.symm h1, Ne.symm h2, Ne.symm h3, Ne.symm h4, Ne.symm h5, Ne.symm h6,
      Ne.symm h7, Ne.symm h8]
  simp [classify, e]

theorem classify_cases (tok : Tok) :
    (classify tok = .background ↔ tok = "&".toList) ∧
    (∀ lit, classify tok = .operator lit ↔ (lit = tok ∧ tok ∈ operators)) ∧
    (classify tok = .word ↔ (tok ≠ "&".toList ∧ tok ∉ operators)) := by
  by_cases h : tok ∈ special
  · rcases classify_of_mem_special tok h with ⟨rfl, hc⟩ | ⟨hm, hc⟩
    · refine ⟨iff_of_true hc rfl, ?_, ?_⟩
      · intro lit; rw [hc]
        refine iff_of_false (by simp) ?_
        rintro ⟨_, hm⟩
        revert hm
        decide
      · rw [hc]
        exact iff_of_false (by simp) (fun hw => hw.1 rfl)
    · have hne : tok ≠ "&".toList := by
        rintro rfl
        revert hm
        decide
      refine ⟨iff_of_false (by simp [hc]) hne, ?_, ?_⟩
      · intro lit; rw [hc]; simp [hm]; exact eq_comm
      · rw [hc]
        exact iff_of_false (by simp) (fun hw => hw.2 hm)
  · have hc := classify_of_not_mem_special tok h
    have hne : tok ≠ "&".toList := by
      rintro rfl; exact h (by decide)
    have hno : tok ∉ operators := by
      intro hm
      apply h
      simp only [operators, List.mem_cons, List.mem_singleton, List.not_mem_nil, or_false] at hm
      simp only [special, List.mem_cons, List.mem_singleton, List.not_mem_nil, or_false]
      exact Or.inr hm
    refine ⟨iff_of_false (by simp [hc]) hne, ?_, iff_of_true hc ⟨hne, hno⟩⟩
    intro lit; simp [hc, hno]

/-! ## Array lemmas -/

theorem pad_snoc_default {α : Type} (n : Nat) (d : α) (xs : List α) (h : xs.length < n) :
    pad n d (xs ++ [d]) = pad n d xs := by
  unfold pad
  have : n - xs.length = (n - (xs ++ [d]).length) + 1 := by simp; omega
  rw [this, List.replicate_succ]
  simp

theorem store_pad_snoc {α : Type} (n : Nat) (d : α) (xs : List α) (v : α)
    (h : xs.length < n) : store (pad n d xs) xs.length v = .ok (pad n d (xs ++ [v])) := by
  unfold store pad
  have e : n - xs.length = (n - (xs ++ [v]).length) + 1 := by simp; omega
  rw [if_pos (by simp; omega), e, List.replicate_succ]
  simp

theorem store_pad_last {α : Type} (n : Nat) (d : α) (xs : List α) (x v : α) :
    store (pad n d (xs ++ [x])) xs.length v = .ok (pad n d (xs ++ [v])) := by
  unfold store pad
  rw [if_pos (by simp)]
  simp

theorem getElem?_pad_last {α : Type} (n : Nat) (d : α) (xs : List α) (x : α) :
    (pad n d (xs ++ [x]))[xs.length]? = some x := by
  unfold pad
  rw [List.append_assoc, List.getElem?_append_right (Nat.le_refl _)]
  simp

theorem store2_pad_last {α : Type} (n : Nat) (d : List α) (m : List (List α))
    (row row1 : List α) (j : Nat) (v : α) (h : store row j v = .ok row1) :
    store2 (pad n d (m ++ [row])) m.length j v = .ok (pad n d (m ++ [row1])) := by
  unfold store2
  rw [getElem?_pad_last]
  simp only [h]
  simp [pad]

/-! ## The parse loop as a fold over the token list -/

theorem parseLoop_eq_parseTokens : ∀ (fuel : Nat) (st : PState) (s : List Char),
    s.length < fuel → parseLoop fuel st s = parseTokens st (maximalRuns s)
  | 0, _, _, h => by omega
  | fuel + 1, st, s, h => by
    unfold parseLoop
    cases hs : strtok s with
    | none => simp [strtok_none_runs hs, parseTokens]
    | some p =>
      obtain ⟨t, rest⟩ := p
      have hl := strtok_some_length hs
      rw [strtok_some_runs hs]
      simp only [parseTokens]
      cases parseStep st t with
      | error f => rfl
      | ok st1 => exact parseLoop_eq_parseTokens fuel st1 rest (by omega)

/-! ## Reference split: unfolding lemmas -/

theorem rawSegments_ne_nil (ts : List Tok) : rawSegments ts ≠ [] :=
  List.splitOnP_ne_nil _ _

theorem segments_ne_nil (ts : List Tok) : segments ts ≠ [] := by
  simp [segments, rawSegments_ne_nil]

theorem bgFlags_ne_nil (ts : List Tok) : bgFlags ts ≠ [] := by
  simp [bgFlags, rawSegments_ne_nil]

theorem isWord_of_classify {t : Tok} (h : classify t = .word) : isWord t = true := by
  have := (classify_cases t).2.2.1 h
  simp only [isWord, isOperator, isBackground, Bool.and_eq_true, Bool.not_eq_true',
    decide_eq_false_iff_not]
  exact ⟨this.2, this.1⟩

theorem isOperator_of_classify {t lit : Tok} (h : classify t = .operator lit) :
    lit = t ∧ isOperator t = true := by
  have := ((classify_cases t).2.1 lit).1 h
  exact ⟨this.1, by simp [isOperator, this.2]⟩

theorem isBackground_of_classify {t : Tok} (h : classify t = .background) :
    isBackground t = true ∧ isOperator t = false := by
  have := (classify_cases t).1.1 h
  subst this
  exact ⟨by decide, by decide⟩

theorem segments_cons_operator {t : Tok} (ts : List Tok) (h : isOperator t = true) :
    segments (t :: ts) = [] :: segments ts := by
  simp [segments, rawSegments, h]

theorem bgFlags_cons_operator {t : Tok} (ts : List Tok) (h : isOperator t = true) :
    bgFlags (t :: ts) = 0 :: bgFlags ts := by
  simp [bgFlags, rawSegments, h]

theorem opsOf_cons_operator {t : Tok} (ts : List Tok) (h : isOperator t = true) :
    opsOf (t :: ts) = t :: opsOf ts := by
  simp [opsOf, h]

theorem opsOf_cons_other {t : Tok} (ts : List Tok) (h : isOperator t = false) :
    opsOf (t :: ts) = opsOf ts := by
  simp [opsOf, h]

theorem segments_cons_word {t : Tok} (ts : List Tok) (h : isWord t = true) :
    segments (t :: ts) = (segments ts).modifyHead (fun seg => t :: seg) := by
  have ho : isOperator t = false := by
    simp [isWord] at h; exact h.1
  simp only [segments, rawSegments, List.splitOnP_cons, ho]
  cases hs : List.splitOnP isOperator ts with
  | nil => exact absurd hs (List.splitOnP_ne_nil _ _)
  | cons hd tl => simp [List.modifyHead, h]

theorem bgFlags_cons_word {t : Tok} (ts : List Tok) (h : isWord t = true) :
    bgFlags (t :: ts) = bgFlags ts := by
  have ho : isOperator t = false := by
    simp [isWord] at h; exact h.1
  have hb : isBackground t = false := by
    simp [isWord] at h; exact h.2
  simp only [bgFlags, rawSegments, List.splitOnP_cons, ho]
  cases hs : List.splitOnP isOperator ts with
  | nil => exact absurd hs (List.splitOnP_ne_nil _ _)
  | cons hd tl => simp [List.modifyHead, hb]

theorem segments_cons_background {t : Tok} (ts : List Tok)
    (h : isBackground t = true) (ho : isOperator t = false) :
    segments (t :: ts) = segments ts := by
  have hw : isWord t = false := by simp [isWord, h]
  simp only [segments, rawSegments, List.splitOnP_cons, ho]
  cases hs : List.splitOnP isOperator ts with
  | nil => exact absurd hs (List.splitOnP_ne_nil _ _)
  | cons hd tl => simp [List.modifyHead, hw]

theorem bgFlags_cons_background {t : Tok} (ts : List Tok)
    (h : isBackground t = true) (ho : isOperator t = false) :
    bgFlags (t :: ts) = (bgFlags ts).modifyHead (fun _ => 1) := by
  simp only [bgFlags, rawSegments, List.splitOnP_cons, ho]
  cases hs : List.splitOnP isOperator ts with
  | nil => exact absurd hs (List.splitOnP_ne_nil _ _)
  | cons hd tl => simp [List.modifyHead, h]

theorem bgFlags_le_one (ts : List Tok) : ∀ b ∈ bgFlags ts, b ≤ 1 := by
  intro b hb
  simp only [bgFlags, List.mem_map] at hb
  obtain ⟨seg, _, rfl⟩ := hb
  split <;> omega

theorem glueSegs_nil {S : List (List Tok)} (h : S ≠ []) : glueSegs [] S = S := by
  cases S with
  | nil => exact absurd rfl h
  | cons hd tl => simp [glueSegs]

theorem glueSegs_modifyHead (cur : List Tok) (t : Tok) {S : List (List Tok)} (h : S ≠ []) :
    glueSegs cur (S.modifyHead (fun seg => t :: seg)) = glueSegs (cur ++ [t]) S := by
  cases S with
  | nil => exact absurd rfl h
  | cons hd tl => simp [glueSegs, List.modifyHead]

theorem glueBg_zero {B : List Nat} (h : B ≠ []) : glueBg 0 B = B := by
  cases B with
  | nil => exact absurd rfl h
  | cons hd tl => simp [glueBg]

theorem glueBg_modifyHead (bgc : Nat) {B : List Nat} (h : B ≠ []) (hb : bgc ≤ 1)
    (hB : ∀ b ∈ B, b ≤ 1) :
    glueBg bgc (B.modifyHead (fun _ => 1)) = glueBg 1 B := by
  cases B with
  | nil => exact absurd rfl h
  | cons hd tl =>
    have := hB hd (List.mem_cons_self _ _)
    simp [glueBg, List.modifyHead]
    omega

/-! ## One parser step on a state in reference layout -/

theorem rowOf_nil : rowOf [] = List.replicate MAX_ARGS none := by
  simp [rowOf, pad]

theorem store_row_word (cur : List Tok) (t : Tok) (h : cur.length < MAX_ARGS) :
    store (rowOf cur) cur.length (some t) = .ok (rowOf (cur ++ [t])) := by
  have := store_pad_snoc MAX_ARGS none (cur.map some) (some t) (by simpa using h)
  simpa [rowOf] using this

theorem store_row_null (cur : List Tok) (h : cur.length < MAX_ARGS) :
    store (rowOf cur) cur.length none = .ok (rowOf cur) := by
  have := store_pad_snoc MAX_ARGS none (cur.map some) none (by simpa using h)
  rw [pad_snoc_default _ _ _ (by simpa using h)] at this
  simpa [rowOf] using this

theorem store2_table (done : List (List Tok)) (cur : List Tok) (row1 : List Tok) (j : Nat)
    (v : Option Tok) (h : store (rowOf cur) j v = .ok (rowOf row1)) :
    store2 (tableOf (done ++ [cur])) done.length j v = .ok (tableOf (done ++ [row1])) := by
  have := store2_pad_last MAX_CMDS (List.replicate MAX_ARGS none) (done.map rowOf)
    (rowOf cur) (rowOf row1) j v h
  simpa [tableOf] using this

theorem tableOf_snoc_nil (segs : List (List Tok)) (h : segs.length < MAX_CMDS) :
    tableOf (segs ++ [[]]) = tableOf segs := by
  have := pad_snoc_default MAX_CMDS (List.replicate MAX_ARGS (none : Option Tok))
    (segs.map rowOf) (by simpa using h)
  simpa [tableOf, rowOf_nil] using this

theorem stateOf_cmdc (done : List (List Tok)) (cur : List Tok) (ops : List Tok)
    (bgs : List Nat) : (stateOf (done ++ [cur]) ops bgs).cmdc = done.length := by
  simp [stateOf]

theorem stateOf_tokc (done : List (List Tok)) (cur : List Tok) (ops : List Tok)
    (bgs : List Nat) : (stateOf (done ++ [cur]) ops bgs).tokc = cur.length := by
  simp [stateOf, List.getLastD_concat]

theorem parseStep_word (done : List (List Tok)) (cur ops : List Tok) (bgs : List Nat)
    (t : Tok) (hk : classify t = .word) (hc : cur.length < MAX_ARGS) :
    parseStep (stateOf (done ++ [cur]) ops bgs) t
      = .ok (stateOf (done ++ [cur ++ [t]]) ops bgs) := by
  unfold parseStep
  rw [hk]
  simp only [stateOf_cmdc, stateOf_tokc]
  have h1 : (stateOf (done ++ [cur]) ops bgs).cmds = tableOf (done ++ [cur]) := rfl
  rw [h1, store2_table done cur (cur ++ [t]) _ _ (store_row_word cur t hc)]
  simp [stateOf, List.getLastD_concat]

theorem parseStep_background (done : List (List Tok)) (cur ops : List Tok)
    (bgd : List Nat) (bgc : Nat) (t : Tok) (hk : classify t = .background)
    (hb : bgd.length = done.length) :
    parseStep (stateOf (done ++ [cur]) ops (bgd ++ [bgc])) t
      = .ok (stateOf (done ++ [cur]) ops (bgd ++ [1])) := by
  unfold parseStep
  rw [hk]
  simp only [stateOf_cmdc]
  have h1 : (stateOf (done ++ [cur]) ops (bgd ++ [bgc])).bg = pad MAX_CMDS 0 (bgd ++ [bgc]) :=
    rfl
  rw [h1, ← hb, store_pad_last]
  simp [stateOf, hb]

theorem parseStep_operator (done : List (List Tok)) (cur ops : List Tok)
    (bgd : List Nat) (bgc : Nat) (t lit : Tok) (hk : classify t = .operator lit)
    (hb : bgd.length = done.length) (ho : ops.length = done.length)
    (hn : ops.length < MAX_CMDS - 1) (hc : cur.length < MAX_ARGS) :
    parseStep (stateOf (done ++ [cur]) ops (bgd ++ [bgc])) t
      = .ok (stateOf ((done ++ [cur]) ++ [[]]) (ops ++ [lit]) ((bgd ++ [bgc]) ++ [0])) := by
  unfold parseStep
  rw [hk]
  simp only [stateOf_cmdc, stateOf_tokc]
  have h1 : (stateOf (done ++ [cur]) ops (bgd ++ [bgc])).bg = pad MAX_CMDS 0 (bgd ++ [bgc]) :=
    rfl
  have h2 : (stateOf (done ++ [cur]) ops (bgd ++ [bgc])).cmds = tableOf (done ++ [cur]) := rfl
  have h3 : (stateOf (done ++ [cur]) ops (bgd ++ [bgc])).stok
      = pad (MAX_CMDS - 1) none (ops.map some) := rfl
  have e1 : store (pad (MAX_CMDS - 1) none (ops.map some)) done.length (some lit)
      = .ok (pad (MAX_CMDS - 1) none ((ops ++ [lit]).map some)) := by
    have := store_pad_snoc (MAX_CMDS - 1) none (ops.map some) (some lit) (by simpa using hn)
    simpa [ho] using this
  have e2 : store (pad MAX_CMDS 0 (bgd ++ [bgc])) (done.length + 1) 0
      = .ok (pad MAX_CMDS 0 ((bgd ++ [bgc]) ++ [0])) := by
    have := store_pad_snoc MAX_CMDS 0 (bgd ++ [bgc]) 0
      (by simp [MAX_CMDS] at hn ⊢; omega)
    simpa [hb] using this
  rw [h1, h2, h3, e1, store2_table done cur cur _ _ (store_row_null cur hc), e2]
  have e3 : tableOf (done ++ [cur, []]) = tableOf (done ++ [cur]) := by
    have := tableOf_snoc_nil (done ++ [cur]) (by simp [MAX_CMDS] at hn ⊢; omega)
    simpa using this
  simp [stateOf, e3]

/-! ## The parse loop computes the reference split -/

theorem glueSegs_head_length (cur : List Tok) (S : List (List Tok)) (n : Nat)
    (h : ∀ seg ∈ glueSegs cur S, seg.length ≤ n) : cur.length ≤ n := by
  cases S with
  | nil => simpa [glueSegs] using h
  | cons hd tl =>
    have := h (cur ++ hd) (by simp [glueSegs])
    simp at this
    omega

theorem parseTokens_layout (ts : List Tok) :
    ∀ (done : List (List Tok)) (cur ops : List Tok) (bgd : List Nat) (bgc : Nat),
      bgd.length = done.length → ops.length = done.length → bgc ≤ 1 →
      ops.length + (opsOf ts).length ≤ MAX_CMDS - 1 →
      (∀ seg ∈ glueSegs cur (segments ts), seg.length ≤ MAX_ARGS - 1) →
      parseTokens (stateOf (done ++ [cur]) ops (bgd ++ [bgc])) ts
        = .ok (stateOf (done ++ glueSegs cur (segments ts)) (ops ++ opsOf ts)
            (bgd ++ glueBg bgc (bgFlags ts))) := by
  induction ts with
  | nil =>
    intro done cur ops bgd bgc _ _ _ _ _
    simp [parseTokens, segments, rawSegments, opsOf, bgFlags, glueSegs, glueBg]
  | cons t ts ih =>
    intro done cur ops bgd bgc hb ho hbg hops hsegs
    have hcur : cur.length < MAX_ARGS := by
      have := glueSegs_head_length cur _ _ hsegs
      simp [MAX_ARGS] at this ⊢
      omega
    simp only [parseTokens]
    cases hk : classify t with
    | background =>
      obtain ⟨h1, h2⟩ := isBackground_of_classify hk
      rw [parseStep_background done cur ops bgd bgc t hk hb]
      rw [opsOf_cons_other ts h2] at hops
      rw [segments_cons_background ts h1 h2] at hsegs
      simp only []
      rw [ih done cur ops bgd 1 hb ho (le_refl _) hops hsegs,
        segments_cons_background ts h1 h2, opsOf_cons_other ts h2,
        bgFlags_cons_background ts h1 h2,
        glueBg_modifyHead bgc (bgFlags_ne_nil ts) hbg (bgFlags_le_one ts)]
    | operator lit =>
      obtain ⟨rfl, h1⟩ := isOperator_of_classify hk
      rw [opsOf_cons_operator ts h1] at hops
      rw [segments_cons_operator ts h1] at hsegs
      simp only [List.length_cons] at hops
      rw [parseStep_operator done cur ops bgd bgc lit lit hk hb ho (by omega) hcur]
      simp only []
      rw [ih (done ++ [cur]) [] (ops ++ [lit]) (bgd ++ [bgc]) 0 (by simp [hb]) (by simp [ho])
        (by omega) (by simp; omega)
        (by
          rw [glueSegs_nil (segments_ne_nil ts)]
          intro seg hseg
          exact hsegs seg (by simp [glueSegs, hseg]))]
      rw [segments_cons_operator ts h1, opsOf_cons_operator ts h1,
        bgFlags_cons_operator ts h1, glueSegs_nil (segments_ne_nil ts),
        glueBg_zero (bgFlags_ne_nil ts)]
      simp [glueSegs, glueBg]
    | word =>
      have h1 := isWord_of_classify hk
      have h2 : isOperator t = false := by
        simp [isWord] at h1; exact h1.1
      rw [opsOf_cons_other ts h2] at hops
      rw [segments_cons_word ts h1, glueSegs_modifyHead cur t (segments_ne_nil ts)] at hsegs
      rw [parseStep_word done cur ops (bgd ++ [bgc]) t hk hcur]
      simp only []
      rw [ih done (cur ++ [t]) ops bgd bgc hb ho hbg hops hsegs,
        segments_cons_word ts h1, glueSegs_modifyHead cur t (segments_ne_nil ts),
        opsOf_cons_other ts h2, bgFlags_cons_word ts h1]

theorem stateOf_init : stateOf ([] ++ [[]]) [] ([] ++ [0]) = PState.init := by
  simp [stateOf, PState.init, tableOf, rowOf, pad, MAX_CMDS, MAX_ARGS]

theorem parse_layout (line : List Char) (h : WithinCapacity (maximalRuns line)) :
    parse line = .ok (stateOf (segments (maximalRuns line)) (opsOf (maximalRuns line))
      (bgFlags (maximalRuns line))) := by
  have hs : store PState.init.bg PState.init.cmdc 0 = .ok PState.init.bg := by
    simp [store, PState.init, MAX_CMDS]
  unfold parse
  rw [hs]
  simp only []
  rw [parseLoop_eq_parseTokens _ _ _ (Nat.lt_succ_self _)]
  have hinit : ({ PState.init with bg := PState.init.bg } : PState) = PState.init := rfl
  rw [hinit, ← stateOf_init]
  have := parseTokens_layout (maximalRuns line) [] [] [] [] 0 rfl rfl (by omega)
    (by simpa using h.1)
    (by rw [glueSegs_nil (segments_ne_nil _)]; exact h.2)
  rw [this, glueSegs_nil (segments_ne_nil _), glueBg_zero (bgFlags_ne_nil _)]
  simp

/-! ## Reading the reference layout back -/

theorem takeWhile_isSome_pad (ws : List Tok) (k : Nat) :
    (ws.map some ++ List.replicate k (none : Option Tok)).takeWhile Option.isSome
      = ws.map some := by
  induction ws with
  | nil => cases k <;> simp [List.replicate_succ, List.takeWhile_cons]
  | cons w ws ih => simp [List.takeWhile_cons, ih]

theorem argvOf_rowOf (ws : List Tok) : argvOf (rowOf ws) = ws := by
  unfold argvOf rowOf pad
  rw [takeWhile_isSome_pad]
  induction ws with
  | nil => rfl
  | cons w ws ih => simp

theorem head_rowOf (ws : List Tok) : (rowOf ws).head?.join = ws.head? := by
  cases ws with
  | nil => simp [rowOf, pad, MAX_ARGS, List.replicate_succ]
  | cons w ws => simp [rowOf, pad]

theorem tableOf_getD (segs : List (List Tok)) (i : Nat) (h : i < segs.length) :
    (tableOf segs).getD i [] = rowOf (segs.getD i []) := by
  unfold tableOf pad
  simp only [List.getD_eq_getElem?_getD]
  rw [List.getElem?_append_left (by simpa using h)]
  simp [List.getElem?_eq_getElem h]

theorem tableOf_take (segs : List (List Tok)) :
    ((tableOf segs).take segs.length).map argvOf = segs := by
  unfold tableOf pad
  rw [List.take_left' (by simp)]
  simp [Function.comp_def, argvOf_rowOf]

theorem stok_take (ops : List Tok) (n : Nat) :
    (pad n (none : Option Tok) (ops.map some)).take ops.length = ops.map some := by
  unfold pad
  rw [List.take_left' (by simp)]

theorem rawSegments_length (ts : List Tok) :
    (rawSegments ts).length = (opsOf ts).length + 1 := by
  induction ts with
  | nil => simp [rawSegments, opsOf]
  | cons t ts ih =>
    unfold rawSegments opsOf at *
    by_cases h : isOperator t = true
    · simp [h, ih]
    · simp [h, ih]

theorem segments_length (ts : List Tok) : (segments ts).length = (opsOf ts).length + 1 := by
  simp [segments, rawSegments_length]

theorem segments_flatten (ts : List Tok) : (segments ts).flatten = ts.filter isWord := by
  induction ts with
  | nil => simp [segments, rawSegments]
  | cons t ts ih =>
    by_cases ho : isOperator t = true
    · have hw : isWord t = false := by simp [isWord, ho]
      rw [segments_cons_operator ts ho]
      simp [ih, hw]
    · have ho2 : isOperator t = false := by simpa using ho
      by_cases hb : isBackground t = true
      · have hw : isWord t = false := by simp [isWord, hb]
        rw [segments_cons_background ts hb ho2]
        simp [ih, hw]
      · have hw : isWord t = true := by simp [isWord, ho2, hb]
        rw [segments_cons_word ts hw]
        cases hs : segments ts with
        | nil => exact absurd hs (segments_ne_nil ts)
        | cons hd tl =>
          rw [hs] at ih
          simp [List.modifyHead, hw, ← ih]

theorem segments_words (ts : List Tok) : ∀ seg ∈ segments ts, ∀ a ∈ seg, isWord a = true := by
  intro seg hseg a ha
  simp only [segments, List.mem_map] at hseg
  obtain ⟨raw, _, rfl⟩ := hseg
  exact (List.mem_filter.mp ha).2

theorem isWord_iff (a : Tok) :
    isWord a = true ↔ a ∉ operators ∧ a ≠ "&".toList := by
  simp only [isWord, isOperator, isBackground, Bool.and_eq_true, Bool.not_eq_true',
    decide_eq_false_iff_not]

/-! ## The state handed to the run block -/

theorem stateOf_cmd0 (seg0 : List Tok) (rest : List (List Tok)) (ops : List Tok)
    (bgs : List Nat) :
    (stateOf (seg0 :: rest) ops bgs).cmds.getD 0 [] = rowOf seg0 := by
  have := tableOf_getD (seg0 :: rest) 0 (by simp)
  simpa [stateOf] using this

theorem stateOf_cmd1 (seg0 seg1 : List Tok) (rest : List (List Tok)) (ops : List Tok)
    (bgs : List Nat) :
    (stateOf (seg0 :: seg1 :: rest) ops bgs).cmds.getD 1 [] = rowOf seg1 := by
  have := tableOf_getD (seg0 :: seg1 :: rest) 1 (by simp)
  simpa [stateOf] using this

theorem stateOf_stok0 (segs : List (List Tok)) (op : Tok) (ops : List Tok)
    (bgs : List Nat) :
    (stateOf segs (op :: ops) bgs).stok.head?.join = some op := by
  simp [stateOf, pad]

theorem stateOf_cmdc_cons (seg0 seg1 : List Tok) (rest : List (List Tok)) (ops : List Tok)
    (bgs : List Nat) :
    (stateOf (seg0 :: seg1 :: rest) ops bgs).cmdc = rest.length + 1 := by
  simp [stateOf]

theorem execTail_rowOf (ws : List Tok) :
    execTail (rowOf ws) = [.execvp ws.head? ws, .perror "execvp", .exit 1] := by
  unfold execTail
  rw [head_rowOf, argvOf_rowOf]

/-! ## Dispatch on the first operator -/

theorem redirectionTable_of_mem {op : Tok} (h : op ∈ redirections) :
    ∃ r, redirectionTable op = some r := by
  simp only [redirections, List.mem_cons, List.mem_singleton, List.not_mem_nil, or_false] at h
  rcases h with rfl | rfl | rfl | rfl | rfl | rfl | rfl <;>
    exact Option.isSome_iff_exists.mp (by decide)

theorem mem_redirections_of_table {op : Tok} {r : Redirection}
    (h : redirectionTable op = some r) : op ∈ redirections := by
  unfold redirectionTable at h
  simp only [redirections, List.mem_cons, List.mem_singleton, List.not_mem_nil, or_false]
  by_cases h1 : op = ">".toList
  · exact Or.inl h1
  by_cases h2 : op = "1>".toList
  · exact Or.inr (Or.inl h2)
  by_cases h3 : op = "2>".toList
  · exact Or.inr (Or.inr (Or.inl h3))
  by_cases h4 : op = ">>".toList
  · exact Or.inr (Or.inr (Or.inr (Or.inl h4)))
  by_cases h5 : op = "2>>".toList
  · exact Or.inr (Or.inr (Or.inr (Or.inr (Or.inl h5))))
  by_cases h6 : op = "&>".toList
  · exact Or.inr (Or.inr (Or.inr (Or.inr (Or.inr (Or.inl h6)))))
  by_cases h7 : op = "<".toList
  · exact Or.inr (Or.inr (Or.inr (Or.inr (Or.inr (Or.inr h7)))))
  rw [if_neg (not_or.mpr ⟨h1, h2⟩), if_neg h3, if_neg h4, if_neg h5, if_neg h6, if_neg h7] at h
  cases h

theorem dispatchOp_redirection (env : Env) (seg0 seg1 : List Tok) (rest : List (List Tok))
    (op : Tok) (ops : List Tok) (bgs : List Nat) (r : Redirection)
    (hr : redirectionTable op = some r) :
    Bsh.dispatchOp env (stateOf (seg0 :: seg1 :: rest) (op :: ops) bgs)
      = if env.forkOk 0 = true then
          { trace := redirectedLaunch r seg1.head? seg0, out := .returned }
        else
          { trace := [.openFile seg1.head? r.flags r.mode, .forkFailed, .perror "fork",
              .exit 1],
            out := .exited 1 } := by
  have hm := mem_redirections_of_table hr
  unfold Bsh.dispatchOp
  rw [stateOf_stok0]
  simp only [stateOf_cmd0, stateOf_cmd1]
  rw [head_rowOf]
  simp only [redirections, List.mem_cons, List.mem_singleton, List.not_mem_nil, or_false] at hm
  by_cases hf : env.forkOk 0 = true
  · rcases hm with rfl | rfl | rfl | rfl | rfl | rfl | rfl <;>
    · simp [redirectionTable] at hr
      subst hr
      simp [Bsh.redirect, hf, redirectedLaunch, redirectOpen, redirectDups, execTail_rowOf,
        S_IRUSR, S_IWUSR, S_IRGRP, S_IROTH, restoreSignals]
  · rcases hm with rfl | rfl | rfl | rfl | rfl | rfl | rfl <;>
    · simp [redirectionTable] at hr
      subst hr
      simp [Bsh.redirect, hf, redirectOpen, S_IRUSR, S_IWUSR, S_IRGRP, S_IROTH]

/-! ## Counting calls in a trace -/

theorem countPipes_append (a b : List Act) :
    countPipes (a ++ b) = countPipes a + countPipes b := by
  simp [countPipes]

theorem countForks_append (a b : List Act) :
    countForks (a ++ b) = countForks a + countForks b := by
  simp [countForks]

theorem countWaits_append (a b : List Act) :
    countWaits (a ++ b) = countWaits a + countWaits b := by
  simp [countWaits]

theorem counts_pipeCalls (n : Nat) :
    countPipes (pipeCalls n) = n ∧ countForks (pipeCalls n) = 0 ∧
    countWaits (pipeCalls n) = 0 := by
  unfold pipeCalls countPipes countForks countWaits
  refine ⟨?_, ?_, ?_⟩
  · rw [List.filter_eq_self.mpr]
    · simp
    · intro a ha
      simp only [List.mem_map] at ha
      obtain ⟨i, _, rfl⟩ := ha
      rfl
  · rw [List.filter_eq_nil_iff.mpr]
    · rfl
    · intro a ha
      simp only [List.mem_map] at ha
      obtain ⟨i, _, rfl⟩ := ha
      simp
  · rw [List.filter_eq_nil_iff.mpr]
    · rfl
    · intro a ha
      simp only [List.mem_map] at ha
      obtain ⟨i, _, rfl⟩ := ha
      simp

theorem counts_forks (cs : List (List ChildAct)) :
    countPipes (cs.map Act.fork) = 0 ∧ countForks (cs.map Act.fork) = cs.length ∧
    countWaits (cs.map Act.fork) = 0 := by
  unfold countPipes countForks countWaits
  refine ⟨?_, ?_, ?_⟩
  · rw [List.filter_eq_nil_iff.mpr]
    · rfl
    · intro a ha
      simp only [List.mem_map] at ha
      obtain ⟨i, _, rfl⟩ := ha
      simp
  · rw [List.filter_eq_self.mpr]
    · simp
    · intro a ha
      simp only [List.mem_map] at ha
      obtain ⟨i, _, rfl⟩ := ha
      rfl
  · rw [List.filter_eq_nil_iff.mpr]
    · rfl
    · intro a ha
      simp only [List.mem_map] at ha
      obtain ⟨i, _, rfl⟩ := ha
      simp

theorem counts_parentCloses (n : Nat) :
    countPipes (parentCloses n) = 0 ∧ countForks (parentCloses n) = 0 ∧
    countWaits (parentCloses n) = 0 := by
  unfold parentCloses countPipes countForks countWaits
  refine ⟨?_, ?_, ?_⟩ <;>
  · rw [List.filter_eq_nil_iff.mpr]
    · rfl
    · intro a ha
      simp only [List.mem_map] at ha
      obtain ⟨i, _, rfl⟩ := ha
      simp

theorem counts_parentWaits (n : Nat) :
    countPipes (parentWaits n) = 0 ∧ countForks (parentWaits n) = 0 ∧
    countWaits (parentWaits n) = n + 1 := by
  unfold parentWaits countPipes countForks countWaits
  refine ⟨?_, ?_, ?_⟩
  · rw [List.filter_eq_nil_iff.mpr]
    · rfl
    · intro a ha
      rw [List.eq_of_mem_replicate ha]
      simp
  · rw [List.filter_eq_nil_iff.mpr]
    · rfl
    · intro a ha
      rw [List.eq_of_mem_replicate ha]
      simp
  · rw [List.filter_eq_self.mpr]
    · simp
    · intro a ha
      rw [List.eq_of_mem_replicate ha]

/-! ## The launchers when every `pipe` and `fork` succeeds -/

theorem pipeLoop_ok (env : Env) (hp : ∀ i, env.pipeOk i = true) :
    ∀ (m i : Nat), Bsh.pipeLoop env i m
      = { trace := (List.range' i m).map (fun j => Act.pipe (j * 2)), out := .returned }
  | 0, i => by simp [Bsh.pipeLoop]
  | m + 1, i => by
    simp [Bsh.pipeLoop, hp i, pipeLoop_ok env hp m (i + 1), List.range'_succ]

theorem forkLoop_ok (env : Env) (cmds : List (List (Option Tok))) (n : Nat)
    (hf : ∀ i, env.forkOk i = true) :
    ∀ (m i : Nat), Bsh.forkLoop env cmds n i m
      = { trace := (List.range' i m).map (fun j => Act.fork (Bsh.stage cmds n j)),
          out := .returned }
  | 0, i => by simp [Bsh.forkLoop]
  | m + 1, i => by
    simp [Bsh.forkLoop, hf i, forkLoop_ok env cmds n hf m (i + 1), List.range'_succ]

theorem multi_pipe_ok (env : Env) (cmds : List (List (Option Tok))) (n : Nat)
    (bg : List Nat) (hp : ∀ i, env.pipeOk i = true) (hf : ∀ i, env.forkOk i = true) :
    Bsh.multi_pipe env cmds n bg
      = { trace := pipeCalls n ++
            ((List.range (n + 1)).map (fun i => Bsh.stage cmds n i)).map Act.fork ++
            (parentCloses n ++ parentWaits n),
          out := .returned } := by
  unfold Bsh.multi_pipe
  rw [pipeLoop_ok env hp, forkLoop_ok env cmds n hf]
  simp [Run.andThen, pipeCalls, List.range_eq_range']

theorem runcmd_ok (env : Env) (cmd : List (Option Tok)) (hf : env.forkOk 0 = true) :
    Bsh.runcmd env cmd
      = { trace := [.fork (restoreSignals ++ execTail cmd), .wait], out := .returned } := by
  simp [Bsh.runcmd, hf]

theorem redirect_ok (env : Env) (cmd : List (Option Tok)) (file : Option Tok)
    (std_ioe append bg : Nat) (hf : env.forkOk 0 = true) :
    Bsh.redirect env cmd file std_ioe append bg
      = { trace := [redirectOpen file std_ioe append,
            .fork (restoreSignals ++ redirectDups std_ioe ++ [.close .opened] ++ execTail cmd),
            .wait],
          out := .returned } := by
  simp [Bsh.redirect, hf]

/-! ## The run block on a state in reference layout -/

theorem shellLine_eq_runBlock (env : Env) (line : List Char)
    (hg : line.head? ≠ some '\n') (hc : WithinCapacity (maximalRuns line)) :
    Bsh.shellLine env line
      = Bsh.runBlock env (stateOf (segments (maximalRuns line)) (opsOf (maximalRuns line))
          (bgFlags (maximalRuns line))) := by
  unfold Bsh.shellLine
  rw [if_pos hg, parse_layout line hc]

theorem parseBuffer_eq_runBlock (env : Env) (line : List Char)
    (hg : line.head? ≠ some '\n') (hc : WithinCapacity (maximalRuns line)) :
    Server.parseBuffer env line
      = Run.andThen { trace := [.dup2 .sockfd 1, .dup2 .sockfd 2], out := .returned }
          (Server.runBlock env (stateOf (segments (maximalRuns line))
            (opsOf (maximalRuns line)) (bgFlags (maximalRuns line)))) := by
  unfold Server.parseBuffer
  rw [if_pos hg, parse_layout line hc]

theorem runBlock_exit (env : Env) (seg0 : List Tok) (rest : List (List Tok))
    (ops : List Tok) (bgs : List Nat) (h : seg0.head? = some "exit".toList) :
    Bsh.runBlock env (stateOf (seg0 :: rest) ops bgs) = Bsh.exitRun := by
  unfold Bsh.runBlock
  rw [stateOf_cmd0, head_rowOf, h]
  simp [Bsh.exitRun]

theorem server_runBlock_exit (env : Env) (seg0 : List Tok) (rest : List (List Tok))
    (ops : List Tok) (bgs : List Nat) (h : seg0.head? = some "exit".toList) :
    Server.runBlock env (stateOf (seg0 :: rest) ops bgs)
      = { trace := [], out := .returned } := by
  unfold Server.runBlock
  rw [stateOf_cmd0, head_rowOf, h]
  simp

theorem runBlock_launch (env : Env) (seg0 : List Tok) (rest : List (List Tok))
    (ops : List Tok) (w : Tok) (bgs : List Nat)
    (h : seg0.head? = some w) (hw : w ≠ "exit".toList) :
    Bsh.runBlock env (stateOf (seg0 :: rest) ops bgs)
      = Bsh.launch env (stateOf (seg0 :: rest) ops bgs) := by
  unfold Bsh.runBlock
  rw [stateOf_cmd0, head_rowOf, h]
  simp only []
  rw [if_neg hw]

theorem launch_single (env : Env) (seg0 : List Tok) (ops : List Tok) (bgs : List Nat) :
    Bsh.launch env (stateOf [seg0] ops bgs) = Bsh.runcmd env (rowOf seg0) := by
  unfold Bsh.launch
  have h0 := stateOf_cmd0 seg0 [] ops bgs
  simp only [] at h0
  rw [h0]
  simp [stateOf]

theorem launch_ops (env : Env) (seg0 seg1 : List Tok) (rest : List (List Tok))
    (ops : List Tok) (bgs : List Nat) :
    Bsh.launch env (stateOf (seg0 :: seg1 :: rest) ops bgs)
      = Bsh.dispatchOp env (stateOf (seg0 :: seg1 :: rest) ops bgs) := by
  unfold Bsh.launch
  rw [stateOf_cmdc_cons]
  simp

theorem shellLine_eq_launch (env : Env) (line : List Char) (seg0 : List Tok)
    (rest : List (List Tok)) (w : Tok)
    (hg : line.head? ≠ some '\n') (hc : WithinCapacity (maximalRuns line))
    (hs : segments (maximalRuns line) = seg0 :: rest)
    (h : seg0.head? = some w) (hw : w ≠ "exit".toList) :
    Bsh.shellLine env line
      = Bsh.launch env (stateOf (segments (maximalRuns line)) (opsOf (maximalRuns line))
          (bgFlags (maximalRuns line))) := by
  rw [shellLine_eq_runBlock env line hg hc, hs]
  exact runBlock_launch env seg0 rest _ w _ h hw

theorem dispatchOp_pipe (env : Env) (segs : List (List Tok)) (ops : List Tok)
    (bgs : List Nat) :
    Bsh.dispatchOp env (stateOf segs ("|".toList :: ops) bgs)
      = Bsh.multi_pipe env (tableOf segs) (segs.length - 1) (pad MAX_CMDS 0 bgs) := by
  unfold Bsh.dispatchOp
  rw [stateOf_stok0]
  simp [stateOf]

/-! ## Lines made of commands separated by pipe tokens -/

theorem bar_isOperator : isOperator "|".toList = true := by decide

theorem rawSegments_intercalate : ∀ (stages : List (List Tok)), stages ≠ [] →
    (∀ c ∈ stages, ∀ w ∈ c, isOperator w = false) →
    rawSegments (List.intercalate ["|".toList] stages) = stages
  | [], h, _ => absurd rfl h
  | [c], _, hw => by
    have : List.intercalate ["|".toList] [c] = c := by
      simp [List.intercalate, List.intersperse]
    rw [this]
    exact List.splitOnP_eq_single _ _ (fun x hx => by simp [hw c (by simp) x hx])
  | c :: c1 :: cs, _, hw => by
    have : List.intercalate ["|".toList] (c :: c1 :: cs)
        = c ++ "|".toList :: List.intercalate ["|".toList] (c1 :: cs) := by
      simp [List.intercalate, List.intersperse]
    rw [this]
    unfold rawSegments
    rw [List.splitOnP_first _ _ (fun x hx => by simp [hw c (by simp) x hx]) _ bar_isOperator]
    have ih := rawSegments_intercalate (c1 :: cs) (by simp)
      (fun c2 hc2 => hw c2 (List.mem_cons_of_mem _ hc2))
    unfold rawSegments at ih
    rw [ih]

theorem opsOf_intercalate : ∀ (stages : List (List Tok)), stages ≠ [] →
    (∀ c ∈ stages, ∀ w ∈ c, isOperator w = false) →
    opsOf (List.intercalate ["|".toList] stages)
      = List.replicate (stages.length - 1) "|".toList
  | [], h, _ => absurd rfl h
  | [c], _, hw => by
    have : List.intercalate ["|".toList] [c] = c := by
      simp [List.intercalate, List.intersperse]
    rw [this]
    simp only [opsOf, List.length_singleton, Nat.sub_self, List.replicate_zero,
      List.filter_eq_nil_iff]
    intro x hx
    simp [hw c (by simp) x hx]
  | c :: c1 :: cs, _, hw => by
    have : List.intercalate ["|".toList] (c :: c1 :: cs)
        = c ++ "|".toList :: List.intercalate ["|".toList] (c1 :: cs) := by
      simp [List.intercalate, List.intersperse]
    rw [this]
    have ih := opsOf_intercalate (c1 :: cs) (by simp)
      (fun c2 hc2 => hw c2 (List.mem_cons_of_mem _ hc2))
    have hc : c.filter isOperator = [] := by
      rw [List.filter_eq_nil_iff]
      intro x hx
      simp [hw c (by simp) x hx]
    unfold opsOf at ih ⊢
    rw [List.filter_append, hc, List.filter_cons_of_pos bar_isOperator, ih]
    simp [List.replicate_succ]

theorem isOperator_of_isWord {w : Tok} (h : isWord w = true) : isOperator w = false := by
  simp [isWord] at h
  exact h.1

theorem segments_intercalate (stages : List (List Tok)) (hne : stages ≠ [])
    (hw : ∀ c ∈ stages, ∀ w ∈ c, isWord w = true) :
    segments (List.intercalate ["|".toList] stages) = stages := by
  unfold segments
  rw [rawSegments_intercalate stages hne
    (fun c hc w hwc => isOperator_of_isWord (hw c hc w hwc))]
  conv => rhs; rw [← List.map_id stages]
  apply List.map_congr_left
  intro c hc
  simp only [id]
  rw [List.filter_eq_self]
  exact hw c hc

/-! ## Forks and waits of the launchers -/

theorem balanced_nil : Balanced [] :=
  ⟨rfl, [], [], rfl, rfl, rfl⟩

theorem balanced_runcmd (env : Env) (cmd : List (Option Tok)) (hf : env.forkOk 0 = true) :
    countForks (Bsh.runcmd env cmd).trace = 1 ∧ countWaits (Bsh.runcmd env cmd).trace = 1 ∧
    WaitsAfterForks (Bsh.runcmd env cmd).trace := by
  rw [runcmd_ok env cmd hf]
  exact ⟨rfl, rfl, [.fork (restoreSignals ++ execTail cmd)], [.wait], rfl, rfl, rfl⟩

theorem balanced_redirect (env : Env) (cmd : List (Option Tok)) (file : Option Tok)
    (std_ioe append bg : Nat) (hf : env.forkOk 0 = true) :
    countForks (Bsh.redirect env cmd file std_ioe append bg).trace = 1 ∧
    countWaits (Bsh.redirect env cmd file std_ioe append bg).trace = 1 ∧
    WaitsAfterForks (Bsh.redirect env cmd file std_ioe append bg).trace := by
  rw [redirect_ok env cmd file std_ioe append bg hf]
  have ho : countForks [redirectOpen file std_ioe append] = 0 ∧
      countWaits [redirectOpen file std_ioe append] = 0 := by
    unfold redirectOpen
    split_ifs <;> exact ⟨rfl, rfl⟩
  refine ⟨?_, ?_, [redirectOpen file std_ioe append, .fork (restoreSignals ++
    redirectDups std_ioe ++ [ChildAct.close Fd.opened] ++ execTail cmd)], [Act.wait], rfl, ?_, rfl⟩
  · exact (countForks_append [redirectOpen file std_ioe append] _).trans (by rw [ho.1]; rfl)
  · exact (countWaits_append [redirectOpen file std_ioe append] _).trans (by rw [ho.2]; rfl)
  · exact (countWaits_append [redirectOpen file std_ioe append] _).trans (by rw [ho.2]; rfl)

theorem balanced_multi_pipe (env : Env) (cmds : List (List (Option Tok))) (n : Nat)
    (bg : List Nat) (hp : ∀ i, env.pipeOk i = true) (hf : ∀ i, env.forkOk i = true) :
    countForks (Bsh.multi_pipe env cmds n bg).trace = n + 1 ∧
    countWaits (Bsh.multi_pipe env cmds n bg).trace = n + 1 ∧
    WaitsAfterForks (Bsh.multi_pipe env cmds n bg).trace := by
  rw [multi_pipe_ok env cmds n bg hp hf]
  obtain ⟨_, p2, p3⟩ := counts_pipeCalls n
  obtain ⟨_, f2, f3⟩ := counts_forks ((List.range (n + 1)).map (fun i => Bsh.stage cmds n i))
  obtain ⟨_, c2, c3⟩ := counts_parentCloses n
  obtain ⟨_, w2, w3⟩ := counts_parentWaits n
  refine ⟨?_, ?_, _, _, rfl, ?_, ?_⟩
  · simp only [countForks_append, p2, f2, c2, w2]
    simp
  · simp only [countWaits_append, p3, f3, c3, w3]
    simp
  · simp only [countWaits_append, p3, f3]
  · simp only [countForks_append, c2, w2]

theorem balanced_dispatchOp (env : Env) (st : PState)
    (hp : ∀ i, env.pipeOk i = true) (hf : ∀ i, env.forkOk i = true) :
    Balanced (Bsh.dispatchOp env st).trace := by
  have hr : ∀ cmd file s a bg, Balanced (Bsh.redirect env cmd file s a bg).trace := by
    intro cmd file s a bg
    obtain ⟨h1, h2, h3⟩ := balanced_redirect env cmd file s a bg (hf 0)
    exact ⟨h2.trans h1.symm, h3⟩
  have hm : ∀ cmds n bg, Balanced (Bsh.multi_pipe env cmds n bg).trace := by
    intro cmds n bg
    obtain ⟨h1, h2, h3⟩ := balanced_multi_pipe env cmds n bg hp hf
    exact ⟨h2.trans h1.symm, h3⟩
  have hc : ∀ cmd, Balanced (Bsh.runcmd env cmd).trace := by
    intro cmd
    obtain ⟨h1, h2, h3⟩ := balanced_runcmd env cmd (hf 0)
    exact ⟨h2.trans h1.symm, h3⟩
  unfold Bsh.dispatchOp
  split
  · exact balanced_nil
  · simp only []
    split_ifs <;> first | exact hr _ _ _ _ _ | exact hm _ _ _ | exact hc _

theorem balanced_shellLine (env : Env) (line : List Char)
    (hp : ∀ i, env.pipeOk i = true) (hf : ∀ i, env.forkOk i = true) :
    Balanced (Bsh.shellLine env line).trace := by
  unfold Bsh.shellLine
  split_ifs
  · split
    · exact balanced_nil
    · unfold Bsh.runBlock
      split
      · exact balanced_nil
      · split_ifs
        · exact ⟨rfl, [], _, rfl, rfl, rfl⟩
        · unfold Bsh.launch
          split_ifs
          · exact balanced_dispatchOp env _ hp hf
          · obtain ⟨h1, h2, h3⟩ := balanced_runcmd env ((_ : PState).cmds.getD 0 []) (hf 0)
            exact ⟨h2.trans h1.symm, h3⟩
  · exact balanced_nil

theorem countOpens_multi_pipe (env : Env) (cmds : List (List (Option Tok))) (n : Nat)
    (bg : List Nat) (hp : ∀ i, env.pipeOk i = true) (hf : ∀ i, env.forkOk i = true) :
    countOpens (Bsh.multi_pipe env cmds n bg).trace = 0 := by
  rw [multi_pipe_ok env cmds n bg hp hf]
  unfold countOpens
  rw [List.length_eq_zero, List.filter_eq_nil_iff]
  intro a ha
  simp only [List.mem_append, pipeCalls, parentCloses, parentWaits, List.mem_map,
    List.mem_replicate] at ha
  rcases ha with ((⟨i, _, rfl⟩ | ⟨c, _, rfl⟩) | (⟨i, _, rfl⟩ | ⟨_, rfl⟩)) <;> simp

theorem mem_operators_cases {op : Tok} (h : op ∈ operators) :
    op = "|".toList ∨ op ∈ redirections := by
  simp only [operators, List.mem_cons, List.mem_singleton, List.not_mem_nil, or_false] at h
  simp only [redirections, List.mem_cons, List.mem_singleton, List.not_mem_nil, or_false]
  tauto

/-! ## Claims about the tokenizer and the parser -/

/-- C1: for every input line the `strtok` loop hands out, in left-to-right order,
exactly the maximal non-empty substrings of the line that hold none of the four
separators (space, tab, CR, LF). The loop ends with that list (`tokenize`), and
the parse loop applies its body to exactly these tokens in this order; a string
is a token iff it occurs in the line as a maximal separator-free substring; the
list is the split of the line at separators with the empty pieces dropped; its
concatenation is the line without its separators; no token is empty and none
holds a separator; separators added in front of or behind the line change
nothing. -/
theorem tokenize_maximal_runs (line : List Char) :
    tokenize line = some (maximalRuns line) ∧
    (∀ st, parseLoop (line.length + 1) st line = parseTokens st (maximalRuns line)) ∧
    (∀ t, t ∈ maximalRuns line ↔ IsMaximalRun line t) ∧
    maximalRuns line = (line.splitOnP isDelim).filter (fun t => !t.isEmpty) ∧
    (maximalRuns line).flatten = line.filter (fun c => !isDelim c) ∧
    (∀ t ∈ maximalRuns line, t ≠ [] ∧ ∀ c ∈ t, isDelim c = false) ∧
    (∀ pre post, (∀ c ∈ pre, isDelim c = true) → (∀ c ∈ post, isDelim c = true) →
      tokenize (pre ++ line ++ post) = tokenize line) := by
  refine ⟨tokenize_eq_runs line,
    fun st => parseLoop_eq_parseTokens _ st line (Nat.lt_succ_self _),
    mem_runs_iff line, runs_eq_splitOnP line, (runs_flatten line).1, runs_mem true line, ?_⟩
  intro pre post hpre hpost
  rw [tokenize_eq_runs, tokenize_eq_runs, maximalRuns, maximalRuns,
    runs_append_delims true _ post hpost, runs_delims_append pre line hpre]

/-- C2: the detection loop treats a token as the background marker iff it is
exactly `&`, as a command-terminating operator iff it is exactly one of the eight
literals `>`, `1>`, `2>`, `>>`, `2>>`, `&>`, `<`, `|` (and then records that same
literal), and as a Word in every other case; `a>b`, `2>&1`, `||` and `&&` are
Words. -/
theorem classify_exact (tok : Tok) :
    (classify tok = .background ↔ tok = "&".toList) ∧
    (∀ lit, classify tok = .operator lit ↔ (lit = tok ∧ tok ∈ operators)) ∧
    (classify tok = .word ↔ (tok ≠ "&".toList ∧ tok ∉ operators)) ∧
    classify "a>b".toList = .word ∧ classify "2>&1".toList = .word ∧
    classify "||".toList = .word ∧ classify "&&".toList = .word := by
  obtain ⟨h1, h2, h3⟩ := classify_cases tok
  exact ⟨h1, h2, h3, by decide, by decide, by decide, by decide⟩

/-- C3: for every line with at most 15 operator tokens other than `&` and at most
31 words between consecutive operators, the parse loop ends without fault in a
state that equals the reference split of the token list: `cmdc` is the number of
operator tokens, `stok[0 .. cmdc-1]` are these operators in order, and the
argument lists of the rows `cmds[0 .. cmdc]` are the lists of Word tokens between
consecutive operators. Their concatenation is the list of all Word tokens of the
line in order, and no operator and no `&` is an argument in any row. -/
theorem parse_reference_split (line : List Char) (toks : List Tok)
    (ht : tokenize line = some toks)
    (hops : (opsOf toks).length ≤ 15)
    (hwords : ∀ seg ∈ segments toks, seg.length ≤ 31) :
    ∃ st, parse line = .ok st ∧
      st.cmdc = (opsOf toks).length ∧
      st.stok.take st.cmdc = (opsOf toks).map some ∧
      (st.cmds.take (st.cmdc + 1)).map argvOf = segments toks ∧
      ((st.cmds.take (st.cmdc + 1)).map argvOf).flatten = toks.filter isWord ∧
      (∀ row ∈ st.cmds, ∀ a ∈ argvOf row, a ∉ operators ∧ a ≠ "&".toList) := by
  rw [tokenize_eq_runs] at ht
  cases ht
  have hcap : WithinCapacity (maximalRuns line) := ⟨hops, hwords⟩
  refine ⟨_, parse_layout line hcap, ?_, ?_, ?_, ?_, ?_⟩
  · simp [stateOf, segments_length]
  · have : (stateOf (segments (maximalRuns line)) (opsOf (maximalRuns line))
        (bgFlags (maximalRuns line))).cmdc = (opsOf (maximalRuns line)).length := by
      simp [stateOf, segments_length]
    rw [this]
    exact stok_take _ _
  · have : (stateOf (segments (maximalRuns line)) (opsOf (maximalRuns line))
        (bgFlags (maximalRuns line))).cmdc + 1 = (segments (maximalRuns line)).length := by
      simp [stateOf, segments_length]
    rw [this]
    exact tableOf_take _
  · have : (stateOf (segments (maximalRuns line)) (opsOf (maximalRuns line))
        (bgFlags (maximalRuns line))).cmdc + 1 = (segments (maximalRuns line)).length := by
      simp [stateOf, segments_length]
    rw [this]
    have h2 : ((stateOf (segments (maximalRuns line)) (opsOf (maximalRuns line))
        (bgFlags (maximalRuns line))).cmds.take (segments (maximalRuns line)).length).map argvOf
        = segments (maximalRuns line) := tableOf_take _
    rw [h2, segments_flatten]
  · intro row hrow a ha
    have hrow2 : row ∈ tableOf (segments (maximalRuns line)) := hrow
    unfold tableOf pad at hrow2
    rw [List.mem_append] at hrow2
    rcases hrow2 with h | h
    · simp only [List.mem_map] at h
      obtain ⟨seg, hseg, rfl⟩ := h
      rw [argvOf_rowOf] at ha
      exact (isWord_iff a).mp (segments_words _ seg hseg a ha)
    · rw [List.eq_of_mem_replicate h, ← rowOf_nil, argvOf_rowOf] at ha
      simp at ha

/-- Witness for C3 at the line `ls -l | wc > f`. -/
theorem parse_reference_split_witness :
    ∃ st, parse "ls -l | wc > f\n".toList = .ok st ∧
      st.cmdc = (opsOf ["ls".toList, "-l".toList, "|".toList, "wc".toList, ">".toList,
        "f".toList]).length ∧
      st.stok.take st.cmdc = (opsOf ["ls".toList, "-l".toList, "|".toList, "wc".toList,
        ">".toList, "f".toList]).map some ∧
      (st.cmds.take (st.cmdc + 1)).map argvOf = segments ["ls".toList, "-l".toList,
        "|".toList, "wc".toList, ">".toList, "f".toList] ∧
      ((st.cmds.take (st.cmdc + 1)).map argvOf).flatten = ["ls".toList, "-l".toList,
        "|".toList, "wc".toList, ">".toList, "f".toList].filter isWord ∧
      (∀ row ∈ st.cmds, ∀ a ∈ argvOf row, a ∉ operators ∧ a ≠ "&".toList) :=
  parse_reference_split "ls -l | wc > f\n".toList
    ["ls".toList, "-l".toList, "|".toList, "wc".toList, ">".toList, "f".toList]
    (by decide) (by decide) (by decide)

/-! ## Claims about the dispatcher and the launchers -/

/-- C4: for every line `cmd-words OP path ...` within capacity whose first operator
other than `&` is a redirection `OP`, the launching part of the shell, run on the
parsed line, launches command 0 with the file named by the first word after `OP`:
it opens that file with the flags and permission bits of the row of the
redirection table for `OP` and, when `fork` succeeds, forks one child that
redirects the descriptors of that row to the file, closes the file descriptor and
executes command 0, and then waits. The shell's run for the line is this launch
whenever the line passes the newline guard and command 0 starts with a word
other than `exit`. -/
theorem redirection_launch (env : Env) (line : List Char) (toks : List Tok)
    (op path : Tok) (cmd0 more ops : List Tok) (rest : List (List Tok))
    (r : Redirection)
    (ht : tokenize line = some toks)
    (hcap : WithinCapacity toks)
    (hsegs : segments toks = cmd0 :: (path :: more) :: rest)
    (hops : opsOf toks = op :: ops)
    (hr : redirectionTable op = some r) :
    ∃ st, parse line = .ok st ∧
      Bsh.launch env st
        = (if env.forkOk 0 = true then
            { trace := [.openFile (some path) r.flags r.mode,
                        .fork (restoreSignals ++
                          r.fds.map (fun fd => ChildAct.dup2 .opened fd) ++
                          [.close .opened, .execvp cmd0.head? cmd0, .perror "execvp",
                           .exit 1]),
                        .wait],
              out := .returned }
          else
            { trace := [.openFile (some path) r.flags r.mode, .forkFailed, .perror "fork",
                        .exit 1],
              out := .exited 1 }) ∧
      (line.head? ≠ some '\n' → ∀ w, cmd0.head? = some w → w ≠ "exit".toList →
        Bsh.shellLine env line = Bsh.launch env st) := by
  rw [tokenize_eq_runs] at ht
  cases ht
  refine ⟨_, parse_layout line hcap, ?_, ?_⟩
  · rw [hsegs, hops, launch_ops, dispatchOp_redirection env cmd0 (path :: more) rest op ops _ r hr]
    simp [redirectedLaunch]
  · intro hg w hw hne
    exact shellLine_eq_launch env line cmd0 _ w hg hcap hsegs hw hne

/-- Witness for C4 at the line `ls -l 2>> log`. -/
theorem redirection_launch_witness :
    ∃ st, parse "ls -l 2>> log\n".toList = .ok st ∧
      Bsh.launch (Env.allOk 3) st
        = (if (Env.allOk 3).forkOk 0 = true then
            { trace := [.openFile (some "log".toList) [.O_WRONLY, .O_APPEND, .O_CREAT]
                          (some 0o644),
                        .fork (restoreSignals ++
                          [2].map (fun fd => ChildAct.dup2 .opened fd) ++
                          [.close .opened,
                           .execvp ["ls".toList, "-l".toList].head? ["ls".toList, "-l".toList],
                           .perror "execvp", .exit 1]),
                        .wait],
              out := .returned }
          else
            { trace := [.openFile (some "log".toList) [.O_WRONLY, .O_APPEND, .O_CREAT]
                          (some 0o644), .forkFailed, .perror "fork", .exit 1],
              out := .exited 1 }) ∧
      ("ls -l 2>> log\n".toList.head? ≠ some '\n' →
        ∀ w, ["ls".toList, "-l".toList].head? = some w → w ≠ "exit".toList →
        Bsh.shellLine (Env.allOk 3) "ls -l 2>> log\n".toList = Bsh.launch (Env.allOk 3) st) :=
  redirection_launch (Env.allOk 3) "ls -l 2>> log\n".toList
    ["ls".toList, "-l".toList, "2>>".toList, "log".toList]
    "2>>".toList "log".toList ["ls".toList, "-l".toList] [] [] []
    { fds := [2], flags := [.O_WRONLY, .O_APPEND, .O_CREAT], mode := some 0o644 }
    (by decide) (by decide) (by decide) (by decide) (by decide)

/-- C5: for every `k` from 1 to 16 and every line made of `k` non-empty commands
(of at most 31 words each) separated by `k - 1` tokens `|`, when every `pipe` and
`fork` succeeds the launching part of the shell, run on the parsed line, returns
after a trace that starts with exactly `k - 1` `pipe` calls, goes on with exactly
`k` `fork` calls and holds no further `pipe` or `fork`; for `k = 1` it is the run of
`runcmd` on command 0, for `k ≥ 2` the run of `multi_pipe` with `n = k - 1`. The
shell's run for the line is this launch whenever the line passes the newline
guard and command 0 does not start with `exit`. -/
theorem pipeline_launch (env : Env) (line : List Char) (k : Nat)
    (stages : List (List Tok))
    (hk1 : 1 ≤ k) (hk16 : k ≤ 16) (hlen : stages.length = k)
    (ht : tokenize line = some (List.intercalate ["|".toList] stages))
    (hstage : ∀ c ∈ stages, c ≠ [] ∧ c.length ≤ 31 ∧ ∀ w ∈ c, isWord w = true)
    (hp : ∀ i, env.pipeOk i = true) (hf : ∀ i, env.forkOk i = true) :
    ∃ st, parse line = .ok st ∧
      (Bsh.launch env st).out = .returned ∧
      (∃ (children : List (List ChildAct)) (tail : List Act), children.length = k ∧
        (Bsh.launch env st).trace = pipeCalls (k - 1) ++ children.map Act.fork ++ tail ∧
        countPipes tail = 0 ∧ countForks tail = 0) ∧
      countPipes (Bsh.launch env st).trace = k - 1 ∧
      countForks (Bsh.launch env st).trace = k ∧
      (k = 1 → Bsh.launch env st = Bsh.runcmd env (st.cmds.getD 0 [])) ∧
      (2 ≤ k → Bsh.launch env st = Bsh.multi_pipe env st.cmds (k - 1) st.bg) ∧
      (st.cmds.take k).map argvOf = stages ∧
      (line.head? ≠ some '\n' → (stages.headD []).head? ≠ some "exit".toList →
        Bsh.shellLine env line = Bsh.launch env st) := by
  have hne : stages ≠ [] := by
    intro h
    rw [h] at hlen
    simp at hlen
    omega
  have hwords : ∀ c ∈ stages, ∀ w ∈ c, isWord w = true := fun c hc => (hstage c hc).2.2
  have hseg := segments_intercalate stages hne hwords
  have hops := opsOf_intercalate stages hne
    (fun c hc w hwc => isOperator_of_isWord (hwords c hc w hwc))
  rw [tokenize_eq_runs] at ht
  have heq : maximalRuns line = List.intercalate ["|".toList] stages := Option.some.inj ht
  rw [← heq] at hseg hops
  have hcap : WithinCapacity (maximalRuns line) := by
    refine ⟨?_, ?_⟩
    · rw [hops]
      simp [MAX_CMDS]
      omega
    · rw [hseg]
      intro seg hs
      simpa [MAX_ARGS] using (hstage seg hs).2.1
  have htab : ((stateOf (segments (maximalRuns line)) (opsOf (maximalRuns line))
      (bgFlags (maximalRuns line))).cmds.take k).map argvOf = stages := by
    have := tableOf_take (segments (maximalRuns line))
    rw [hseg, hlen] at this
    rw [hseg]
    exact this
  have hshell : line.head? ≠ some '\n' → (stages.headD []).head? ≠ some "exit".toList →
      Bsh.shellLine env line = Bsh.launch env (stateOf (segments (maximalRuns line))
        (opsOf (maximalRuns line)) (bgFlags (maximalRuns line))) := by
    intro hg hexit
    cases hst : stages with
    | nil => exact absurd hst hne
    | cons c0 cs =>
      rw [hst] at hexit hstage hseg
      obtain ⟨w, hw⟩ : ∃ w, c0.head? = some w := by
        cases c0 with
        | nil => exact absurd rfl (hstage [] (by simp)).1
        | cons a as => exact ⟨a, rfl⟩
      have hwe : w ≠ "exit".toList := by
        intro h
        apply hexit
        simp [hw, h]
      exact shellLine_eq_launch env line c0 cs w hg hcap hseg hw hwe
  refine ⟨_, parse_layout line hcap, ?_⟩
  cases hst : stages with
  | nil => exact absurd hst hne
  | cons c0 cs =>
    cases cs with
    | nil =>
      rw [hst] at hlen hseg htab hshell
      have hk : k = 1 := by simpa using hlen.symm
      subst hk
      have hL : Bsh.launch env (stateOf (segments (maximalRuns line))
          (opsOf (maximalRuns line)) (bgFlags (maximalRuns line)))
          = Bsh.runcmd env (rowOf c0) := by
        rw [hseg]
        exact launch_single env c0 _ _
      have hrow : (stateOf (segments (maximalRuns line)) (opsOf (maximalRuns line))
          (bgFlags (maximalRuns line))).cmds.getD 0 [] = rowOf c0 := by
        rw [hseg]
        exact stateOf_cmd0 c0 [] _ _
      have hT := runcmd_ok env (rowOf c0) (hf 0)
      refine ⟨by rw [hL, hT], ⟨[restoreSignals ++ execTail (rowOf c0)], [Act.wait], rfl, ?_,
        ?_, ?_⟩, ?_, ?_, ?_, ?_, htab, hshell⟩
      · rw [hL, hT]
        simp [pipeCalls]
      · decide
      · decide
      · rw [hL, hT]
        simp [countPipes]
      · rw [hL, hT]
        simp [countForks]
      · intro _
        rw [hrow]
        exact hL
      · intro h; omega
    | cons c1 rest =>
      rw [hst] at hlen hseg htab hshell hops
      have hk : k = rest.length + 2 := by simpa using hlen.symm
      have hL : Bsh.launch env (stateOf (segments (maximalRuns line))
          (opsOf (maximalRuns line)) (bgFlags (maximalRuns line)))
          = Bsh.multi_pipe env (stateOf (segments (maximalRuns line))
              (opsOf (maximalRuns line)) (bgFlags (maximalRuns line))).cmds (k - 1)
              (stateOf (segments (maximalRuns line))
              (opsOf (maximalRuns line)) (bgFlags (maximalRuns line))).bg := by
        rw [hseg, hops, launch_ops]
        have : List.replicate ((c0 :: c1 :: rest).length - 1) "|".toList
            = "|".toList :: List.replicate rest.length "|".toList := by
          simp [List.replicate_succ]
        rw [this, dispatchOp_pipe]
        simp [hk, stateOf]
      have hT := multi_pipe_ok env (stateOf (segments (maximalRuns line))
        (opsOf (maximalRuns line)) (bgFlags (maximalRuns line))).cmds (k - 1)
        (stateOf (segments (maximalRuns line))
        (opsOf (maximalRuns line)) (bgFlags (maximalRuns line))).bg hp hf
      have hk' : k - 1 + 1 = k := by omega
      obtain ⟨p1, p2, _⟩ := counts_pipeCalls (k - 1)
      obtain ⟨f1, f2, _⟩ := counts_forks
        ((List.range (k - 1 + 1)).map (fun i => Bsh.stage (stateOf (segments (maximalRuns line))
          (opsOf (maximalRuns line)) (bgFlags (maximalRuns line))).cmds (k - 1) i))
      obtain ⟨c1', c2', _⟩ := counts_parentCloses (k - 1)
      obtain ⟨w1, w2, _⟩ := counts_parentWaits (k - 1)
      refine ⟨by rw [hL, hT], ⟨_, _, ?_, by rw [hL, hT], ?_, ?_⟩, ?_, ?_, ?_, ?_, htab, hshell⟩
      · simp; omega
      · rw [countPipes_append, c1', w1]
      · rw [countForks_append, c2', w2]
      · rw [hL, hT]
        simp only [countPipes_append, p1, f1, c1', w1]
        omega
      · rw [hL, hT]
        simp only [countForks_append, p2, f2, c2', w2]
        simp; omega
      · intro h; omega
      · intro _; exact hL

/-- Witness for C5 at the three-stage line `ls | wc | cat`. -/
theorem pipeline_launch_witness :
    ∃ st, parse "ls | wc | cat\n".toList = .ok st ∧
      (Bsh.launch (Env.allOk 3) st).out = .returned ∧
      (∃ (children : List (List ChildAct)) (tail : List Act), children.length = 3 ∧
        (Bsh.launch (Env.allOk 3) st).trace
          = pipeCalls (3 - 1) ++ children.map Act.fork ++ tail ∧
        countPipes tail = 0 ∧ countForks tail = 0) ∧
      countPipes (Bsh.launch (Env.allOk 3) st).trace = 3 - 1 ∧
      countForks (Bsh.launch (Env.allOk 3) st).trace = 3 ∧
      (3 = 1 → Bsh.launch (Env.allOk 3) st = Bsh.runcmd (Env.allOk 3) (st.cmds.getD 0 [])) ∧
      (2 ≤ 3 → Bsh.launch (Env.allOk 3) st
        = Bsh.multi_pipe (Env.allOk 3) st.cmds (3 - 1) st.bg) ∧
      (st.cmds.take 3).map argvOf = [["ls".toList], ["wc".toList], ["cat".toList]] ∧
      ("ls | wc | cat\n".toList.head? ≠ some '\n' →
        ([["ls".toList], ["wc".toList], ["cat".toList]].headD []).head?
          ≠ some "exit".toList →
        Bsh.shellLine (Env.allOk 3) "ls | wc | cat\n".toList
          = Bsh.launch (Env.allOk 3) st) :=
  pipeline_launch (Env.allOk 3) "ls | wc | cat\n".toList 3
    [["ls".toList], ["wc".toList], ["cat".toList]]
    (by decide) (by decide) (by decide) (by decide) (by decide)
    (fun _ => rfl) (fun _ => rfl)

/-! ## Claims about `exit`, waiting, background lines and second operators -/

/-- C6: for every line whose only token is the word `exit`, nothing is launched:
neither front end opens a file, creates a pipe or forks a process, and
`parseBuffer` of the remote service returns to its caller after its two initial
`dup2` calls; the interactive shell, for which the line is parsed whenever its
first byte is not a newline, prints its message and terminates itself with exit
status 1. -/
theorem exit_alone (env : Env) (line : List Char)
    (ht : tokenize line = some ["exit".toList]) :
    (line.head? ≠ some '\n' →
      Bsh.shellLine env line
        = { trace := [.printf "Exiting shell...\n\n", .exit 1], out := .exited 1 }) ∧
    Server.parseBuffer env line
      = { trace := [.dup2 .sockfd 1, .dup2 .sockfd 2], out := .returned } ∧
    countOpens (Bsh.shellLine env line).trace = 0 ∧
    countPipes (Bsh.shellLine env line).trace = 0 ∧
    countForks (Bsh.shellLine env line).trace = 0 ∧
    countOpens (Server.parseBuffer env line).trace = 0 ∧
    countPipes (Server.parseBuffer env line).trace = 0 ∧
    countForks (Server.parseBuffer env line).trace = 0 := by
  rw [tokenize_eq_runs] at ht
  have heq : maximalRuns line = ["exit".toList] := Option.some.inj ht
  have hcap : WithinCapacity (maximalRuns line) := by
    rw [heq]
    decide
  have hseg : segments ["exit".toList] = [["exit".toList]] := by decide
  have h1 : line.head? ≠ some '\n' → Bsh.shellLine env line
      = { trace := [.printf "Exiting shell...\n\n", .exit 1], out := .exited 1 } := by
    intro hg
    rw [shellLine_eq_runBlock env line hg hcap, heq, hseg]
    exact runBlock_exit env ["exit".toList] [] _ _ rfl
  have h2 : Server.parseBuffer env line
      = { trace := [.dup2 .sockfd 1, .dup2 .sockfd 2], out := .returned } := by
    by_cases hg : line.head? ≠ some '\n'
    · rw [parseBuffer_eq_runBlock env line hg hcap, heq, hseg,
        server_runBlock_exit env ["exit".toList] [] _ _ rfl]
      rfl
    · unfold Server.parseBuffer
      rw [if_neg hg]
      rfl
  have h3 : countOpens (Bsh.shellLine env line).trace = 0 ∧
      countPipes (Bsh.shellLine env line).trace = 0 ∧
      countForks (Bsh.shellLine env line).trace = 0 := by
    by_cases hg : line.head? ≠ some '\n'
    · rw [h1 hg]
      exact ⟨rfl, rfl, rfl⟩
    · unfold Bsh.shellLine
      rw [if_neg hg]
      exact ⟨rfl, rfl, rfl⟩
  rw [h2]
  exact ⟨h1, rfl, h3.1, h3.2.1, h3.2.2, rfl, rfl, rfl⟩

/-- Witness for C6 at the line `exit`. -/
theorem exit_alone_witness :
    ("exit\n".toList.head? ≠ some '\n' →
      Bsh.shellLine (Env.allOk 3) "exit\n".toList
        = { trace := [.printf "Exiting shell...\n\n", .exit 1], out := .exited 1 }) ∧
    Server.parseBuffer (Env.allOk 3) "exit\n".toList
      = { trace := [.dup2 .sockfd 1, .dup2 .sockfd 2], out := .returned } ∧
    countOpens (Bsh.shellLine (Env.allOk 3) "exit\n".toList).trace = 0 ∧
    countPipes (Bsh.shellLine (Env.allOk 3) "exit\n".toList).trace = 0 ∧
    countForks (Bsh.shellLine (Env.allOk 3) "exit\n".toList).trace = 0 ∧
    countOpens (Server.parseBuffer (Env.allOk 3) "exit\n".toList).trace = 0 ∧
    countPipes (Server.parseBuffer (Env.allOk 3) "exit\n".toList).trace = 0 ∧
    countForks (Server.parseBuffer (Env.allOk 3) "exit\n".toList).trace = 0 :=
  exit_alone (Env.allOk 3) "exit\n".toList (by decide)

/-- C7, as stated, fails: the lines `exit > f` and `exit | cat` have `exit` as their
first word and hold an operator, yet both front ends treat them exactly as the
line `exit`: the shell prints its message and exits with status 1, `parseBuffer`
returns, and no file is opened, no pipe created and no process forked. -/
theorem exit_with_operator_is_exit_request :
    Bsh.shellLine (Env.allOk 3) "exit > f\n".toList
      = { trace := [.printf "Exiting shell...\n\n", .exit 1], out := .exited 1 } ∧
    Bsh.shellLine (Env.allOk 3) "exit > f\n".toList
      = Bsh.shellLine (Env.allOk 3) "exit\n".toList ∧
    Bsh.shellLine (Env.allOk 3) "exit | cat\n".toList
      = Bsh.shellLine (Env.allOk 3) "exit\n".toList ∧
    Server.parseBuffer (Env.allOk 3) "exit > f\n".toList
      = Server.parseBuffer (Env.allOk 3) "exit\n".toList ∧
    Server.parseBuffer (Env.allOk 3) "exit | cat\n".toList
      = { trace := [.dup2 .sockfd 1, .dup2 .sockfd 2], out := .returned } := by
  decide

/-- C7, amended: the exit special case applies whenever `exit` is `argv[0]` of
command 0, whether or not an operator is pending. For every line that is parsed
(first byte not a newline, within capacity) and whose command 0 starts with the
word `exit`, also when operators and further commands follow, the shell prints
its message and exits with status 1 and `parseBuffer` returns; nothing is
launched. -/
theorem exit_takes_priority (env : Env) (line : List Char) (toks : List Tok)
    (cmd0 : List Tok) (rest : List (List Tok))
    (hg : line.head? ≠ some '\n')
    (ht : tokenize line = some toks)
    (hcap : WithinCapacity toks)
    (hsegs : segments toks = cmd0 :: rest)
    (hexit : cmd0.head? = some "exit".toList) :
    Bsh.shellLine env line
      = { trace := [.printf "Exiting shell...\n\n", .exit 1], out := .exited 1 } ∧
    Server.parseBuffer env line
      = { trace := [.dup2 .sockfd 1, .dup2 .sockfd 2], out := .returned } := by
  rw [tokenize_eq_runs] at ht
  cases ht
  constructor
  · rw [shellLine_eq_runBlock env line hg hcap, hsegs]
    exact runBlock_exit env _ _ _ _ hexit
  · rw [parseBuffer_eq_runBlock env line hg hcap, hsegs,
      server_runBlock_exit env _ _ _ _ hexit]
    rfl

/-- Witness for the amended C7 at the line `exit | cat`. -/
theorem exit_takes_priority_witness :
    Bsh.shellLine (Env.allOk 3) "exit | cat\n".toList
      = { trace := [.printf "Exiting shell...\n\n", .exit 1], out := .exited 1 } ∧
    Server.parseBuffer (Env.allOk 3) "exit | cat\n".toList
      = { trace := [.dup2 .sockfd 1, .dup2 .sockfd 2], out := .returned } :=
  exit_takes_priority (Env.allOk 3) "exit | cat\n".toList
    ["exit".toList, "|".toList, "cat".toList] ["exit".toList] [["cat".toList]]
    (by decide) (by decide) (by decide) (by decide) (by decide)

/-- C8: when every `pipe` and `fork` succeeds, each launcher of the shell waits
once for every child it forked and only after its last `fork`: `runcmd` and
`redirect` fork once and wait once, `multi_pipe` called with `n` forks `n + 1`
times and waits `n + 1` times; hence for every line the trace of the shell holds
as many `wait` calls as `fork` calls, all of them after the last `fork`. -/
theorem waits_match_forks (env : Env)
    (hp : ∀ i, env.pipeOk i = true) (hf : ∀ i, env.forkOk i = true) :
    (∀ cmd, countForks (Bsh.runcmd env cmd).trace = 1 ∧
      countWaits (Bsh.runcmd env cmd).trace = 1 ∧
      WaitsAfterForks (Bsh.runcmd env cmd).trace) ∧
    (∀ cmd file std_ioe append bg,
      countForks (Bsh.redirect env cmd file std_ioe append bg).trace = 1 ∧
      countWaits (Bsh.redirect env cmd file std_ioe append bg).trace = 1 ∧
      WaitsAfterForks (Bsh.redirect env cmd file std_ioe append bg).trace) ∧
    (∀ cmds n bg, countForks (Bsh.multi_pipe env cmds n bg).trace = n + 1 ∧
      countWaits (Bsh.multi_pipe env cmds n bg).trace = n + 1 ∧
      WaitsAfterForks (Bsh.multi_pipe env cmds n bg).trace) ∧
    (∀ line, countWaits (Bsh.shellLine env line).trace
        = countForks (Bsh.shellLine env line).trace ∧
      WaitsAfterForks (Bsh.shellLine env line).trace) :=
  ⟨fun cmd => balanced_runcmd env cmd (hf 0),
   fun cmd file s a bg => balanced_redirect env cmd file s a bg (hf 0),
   fun cmds n bg => balanced_multi_pipe env cmds n bg hp hf,
   fun line => balanced_shellLine env line hp hf⟩

/-- Witness for C8 in the environment where every call succeeds. -/
theorem waits_match_forks_witness :
    (∀ cmd, countForks (Bsh.runcmd (Env.allOk 3) cmd).trace = 1 ∧
      countWaits (Bsh.runcmd (Env.allOk 3) cmd).trace = 1 ∧
      WaitsAfterForks (Bsh.runcmd (Env.allOk 3) cmd).trace) ∧
    (∀ cmd file std_ioe append bg,
      countForks (Bsh.redirect (Env.allOk 3) cmd file std_ioe append bg).trace = 1 ∧
      countWaits (Bsh.redirect (Env.allOk 3) cmd file std_ioe append bg).trace = 1 ∧
      WaitsAfterForks (Bsh.redirect (Env.allOk 3) cmd file std_ioe append bg).trace) ∧
    (∀ cmds n bg, countForks (Bsh.multi_pipe (Env.allOk 3) cmds n bg).trace = n + 1 ∧
      countWaits (Bsh.multi_pipe (Env.allOk 3) cmds n bg).trace = n + 1 ∧
      WaitsAfterForks (Bsh.multi_pipe (Env.allOk 3) cmds n bg).trace) ∧
    (∀ line, countWaits (Bsh.shellLine (Env.allOk 3) line).trace
        = countForks (Bsh.shellLine (Env.allOk 3) line).trace ∧
      WaitsAfterForks (Bsh.shellLine (Env.allOk 3) line).trace) :=
  waits_match_forks (Env.allOk 3) (fun _ => rfl) (fun _ => rfl)

/-- C9 fails on the code: for the line `sleep 5 &` the parser records `bg[0] = 1`,
but the shell runs the line exactly as `sleep 5`: `runcmd` forks one child and
then calls the blocking `wait` before it returns. -/
theorem background_line_is_waited_for :
    (parse "sleep 5 &\n".toList).toOption.map (fun st => (st.bg.getD 0 0, st.cmdc))
      = some (1, 0) ∧
    Bsh.shellLine (Env.allOk 3) "sleep 5 &\n".toList
      = { trace := [.fork (restoreSignals ++
                      [.execvp (some "sleep".toList) ["sleep".toList, "5".toList],
                       .perror "execvp", .exit 1]),
                    .wait],
          out := .returned } ∧
    Bsh.shellLine (Env.allOk 3) "sleep 5 &\n".toList
      = Bsh.shellLine (Env.allOk 3) "sleep 5\n".toList ∧
    countWaits (Bsh.shellLine (Env.allOk 3) "sleep 5 &\n".toList).trace = 1 := by
  decide

/-- C10, as stated, fails: the lines `a | b | c`, `a | b > f` and `a > f > g` hold a
second operator after the first one, yet the shell reports no error and launches
processes. For `a | b | c` and for `a | b > f` it runs `multi_pipe` with `n = 2`,
which creates two pipes, opens no file and forks three stages (`a`, `b`, `f` in
the second case); for `a > f > g` it opens `f` and forks `a`. All three runs
return to the prompt. -/
theorem second_operator_is_not_rejected :
    Bsh.shellLine (Env.allOk 3) "a | b | c\n".toList
      = Bsh.multi_pipe (Env.allOk 3)
          (tableOf [["a".toList], ["b".toList], ["c".toList]]) 2 (List.replicate 16 0) ∧
    countForks (Bsh.shellLine (Env.allOk 3) "a | b | c\n".toList).trace = 3 ∧
    Bsh.shellLine (Env.allOk 3) "a | b > f\n".toList
      = Bsh.multi_pipe (Env.allOk 3)
          (tableOf [["a".toList], ["b".toList], ["f".toList]]) 2 (List.replicate 16 0) ∧
    (Bsh.shellLine (Env.allOk 3) "a | b > f\n".toList).out = .returned ∧
    countForks (Bsh.shellLine (Env.allOk 3) "a | b > f\n".toList).trace = 3 ∧
    countPipes (Bsh.shellLine (Env.allOk 3) "a | b > f\n".toList).trace = 2 ∧
    countOpens (Bsh.shellLine (Env.allOk 3) "a | b > f\n".toList).trace = 0 ∧
    Bsh.shellLine (Env.allOk 3) "a > f > g\n".toList
      = { trace := [.openFile (some "f".toList) [.O_WRONLY, .O_TRUNC, .O_CREAT] (some 0o644),
                    .fork (restoreSignals ++ [.dup2 .opened 1, .close .opened,
                      .execvp (some "a".toList) ["a".toList], .perror "execvp", .exit 1]),
                    .wait],
          out := .returned } := by
  decide

/-- C10, amended: a second operator token is not rejected. For every line that is
parsed (first byte not a newline, within capacity), whose command 0 starts with a
word other than `exit` and in which a second operator other than `&` follows the
first one, the parser records all operators in `stok` in order, and, when every
`pipe` and `fork` succeeds, the shell launches according to the first operator
alone and returns: if the first operator is `|`, `multi_pipe` is called with
`n` = number of operators, creates no file and forks `n + 1` stages; if it is a
redirection, command 0 is launched with the first word after that operator as
the file, by the row of the redirection table for that operator. At least one
process is forked in either case. -/
theorem second_operator_dispatch (env : Env) (line : List Char) (toks : List Tok)
    (op1 op2 w : Tok) (ops cmd0 seg1 : List Tok) (rest : List (List Tok))
    (hg : line.head? ≠ some '\n')
    (ht : tokenize line = some toks)
    (hcap : WithinCapacity toks)
    (hsegs : segments toks = cmd0 :: seg1 :: rest)
    (hops : opsOf toks = op1 :: op2 :: ops)
    (hw : cmd0.head? = some w) (hne : w ≠ "exit".toList)
    (hp : ∀ i, env.pipeOk i = true) (hf : ∀ i, env.forkOk i = true) :
    (∃ st, parse line = .ok st ∧ st.stok.take st.cmdc = (op1 :: op2 :: ops).map some) ∧
    (Bsh.shellLine env line).out = .returned ∧
    1 ≤ countForks (Bsh.shellLine env line).trace ∧
    (op1 = "|".toList →
      (∃ bg, Bsh.shellLine env line
        = Bsh.multi_pipe env (tableOf (cmd0 :: seg1 :: rest)) (ops.length + 2) bg) ∧
      countForks (Bsh.shellLine env line).trace = ops.length + 3 ∧
      countOpens (Bsh.shellLine env line).trace = 0) ∧
    (∀ r, redirectionTable op1 = some r →
      Bsh.shellLine env line
        = { trace := [.openFile seg1.head? r.flags r.mode,
                      .fork (restoreSignals ++
                        r.fds.map (fun fd => ChildAct.dup2 .opened fd) ++
                        [.close .opened, .execvp (some w) cmd0, .perror "execvp", .exit 1]),
                      .wait],
            out := .returned }) := by
  rw [tokenize_eq_runs] at ht
  cases ht
  have hlen := segments_length (maximalRuns line)
  rw [hsegs, hops] at hlen
  simp only [List.length_cons] at hlen
  have hrest : rest.length = ops.length + 1 := by omega
  have hS := shellLine_eq_launch env line cmd0 (seg1 :: rest) w hg hcap hsegs hw hne
  rw [hsegs, hops, launch_ops] at hS
  have hpipe : op1 = "|".toList →
      Bsh.shellLine env line = Bsh.multi_pipe env (tableOf (cmd0 :: seg1 :: rest))
        (ops.length + 2) (pad MAX_CMDS 0 (bgFlags (maximalRuns line))) := by
    intro h
    rw [hS, h, dispatchOp_pipe]
    simp [hrest]
  have hredir : ∀ r, redirectionTable op1 = some r →
      Bsh.shellLine env line
        = { trace := [.openFile seg1.head? r.flags r.mode,
                      .fork (restoreSignals ++
                        r.fds.map (fun fd => ChildAct.dup2 .opened fd) ++
                        [.close .opened, .execvp (some w) cmd0, .perror "execvp", .exit 1]),
                      .wait],
            out := .returned } := by
    intro r hr
    rw [hS, dispatchOp_redirection env cmd0 seg1 rest op1 _ _ r hr, if_pos (hf 0)]
    simp [redirectedLaunch, hw]
  have hmem : op1 ∈ operators := by
    have : op1 ∈ opsOf (maximalRuns line) := by rw [hops]; simp
    have := (List.mem_filter.mp this).2
    simpa [isOperator] using this
  refine ⟨⟨_, parse_layout line hcap, ?_⟩, ?_, ?_, ?_, hredir⟩
  · have : (stateOf (segments (maximalRuns line)) (opsOf (maximalRuns line))
        (bgFlags (maximalRuns line))).cmdc = (opsOf (maximalRuns line)).length := by
      simp [stateOf, segments_length]
    rw [this, ← hops]
    exact stok_take _ _
  · rcases mem_operators_cases hmem with h | h
    · rw [hpipe h, multi_pipe_ok env _ _ _ hp hf]
    · obtain ⟨r, hr⟩ := redirectionTable_of_mem h
      rw [hredir r hr]
  · rcases mem_operators_cases hmem with h | h
    · rw [hpipe h, (balanced_multi_pipe env _ _ _ hp hf).1]
      omega
    · obtain ⟨r, hr⟩ := redirectionTable_of_mem h
      rw [hredir r hr]
      have : countForks [Act.openFile seg1.head? r.flags r.mode,
          Act.fork (restoreSignals ++ r.fds.map (fun fd => ChildAct.dup2 .opened fd) ++
            [.close .opened, .execvp (some w) cmd0, .perror "execvp", .exit 1]),
          Act.wait] = 1 := rfl
      rw [this]
  · intro h
    refine ⟨⟨_, hpipe h⟩, ?_, ?_⟩
    · rw [hpipe h, (balanced_multi_pipe env _ _ _ hp hf).1]
    · rw [hpipe h]
      exact countOpens_multi_pipe env _ _ _ hp hf

/-- Witness for the amended C10 at the line `a | b > f`. -/
theorem second_operator_dispatch_witness :
    (∃ st, parse "a | b > f\n".toList = .ok st ∧
      st.stok.take st.cmdc = ("|".toList :: ">".toList :: []).map some) ∧
    (Bsh.shellLine (Env.allOk 3) "a | b > f\n".toList).out = .returned ∧
    1 ≤ countForks (Bsh.shellLine (Env.allOk 3) "a | b > f\n".toList).trace ∧
    ("|".toList = "|".toList →
      (∃ bg, Bsh.shellLine (Env.allOk 3) "a | b > f\n".toList
        = Bsh.multi_pipe (Env.allOk 3)
            (tableOf (["a".toList] :: ["b".toList] :: [["f".toList]]))
            (([] : List Tok).length + 2) bg) ∧
      countForks (Bsh.shellLine (Env.allOk 3) "a | b > f\n".toList).trace
        = ([] : List Tok).length + 3 ∧
      countOpens (Bsh.shellLine (Env.allOk 3) "a | b > f\n".toList).trace = 0) ∧
    (∀ r, redirectionTable "|".toList = some r →
      Bsh.shellLine (Env.allOk 3) "a | b > f\n".toList
        = { trace := [.openFile ["b".toList].head? r.flags r.mode,
                      .fork (restoreSignals ++
                        r.fds.map (fun fd => ChildAct.dup2 .opened fd) ++
                        [.close .opened, .execvp (some "a".toList) ["a".toList],
                         .perror "execvp", .exit 1]),
                      .wait],
            out := .returned }) :=
  second_operator_dispatch (Env.allOk 3) "a | b > f\n".toList
    ["a".toList, "|".toList, "b".toList, ">".toList, "f".toList]
    "|".toList ">".toList "a".toList [] ["a".toList] ["b".toList] [["f".toList]]
    (by decide) (by decide) (by decide) (by decide) (by decide) (by decide) (by decide)
    (fun _ => rfl) (fun _ => rfl)

/-! ## Claims about capacity, failed opens, the newline guard and empty commands -/

/-- C11 fails on the code: the parser has no capacity check. On the line of
seventeen commands separated by sixteen `|` tokens the first fifteen operators
fill `stok[0 .. 14]`; at the sixteenth the parser stores into `stok[15]`, outside
the 15-entry operator table, so the shell leaves defined behaviour instead of
reporting an error. On the line of thirty-three one-letter words the parser
stores the thirty-third word into `cmds[0][32]`, outside the 32-entry row. -/
theorem capacity_is_not_checked :
    (parseTokens PState.start ((maximalRuns sixteenPipes).take 31)).toOption.map
        (fun st => (st.cmdc, st.stok.length, faultOf (store st.stok st.cmdc (some "|".toList)),
          faultOf (parseStep st "|".toList)))
      = some (15, 15, some Fault.outOfBounds, some Fault.outOfBounds) ∧
    faultOf (parse sixteenPipes) = some .outOfBounds ∧
    Bsh.shellLine (Env.allOk 3) sixteenPipes = { trace := [], out := .fault .outOfBounds } ∧
    (parseTokens PState.start ((maximalRuns thirtyThreeWords).take 32)).toOption.map
        (fun st => (st.cmdc, st.tokc, (st.cmds.getD 0 []).length,
          faultOf (parseStep st "a".toList)))
      = some (0, 32, 32, some Fault.outOfBounds) ∧
    faultOf (parse thirtyThreeWords) = some .outOfBounds := by
  decide

/-- C12 fails on the code: `redirect` never looks at the value that `open`
returned. When `open` fails with -1 and `fork` succeeds, both front ends still
fork the child, which redirects the failed descriptor and executes the command,
and then wait for it: so for `cat < missing`, and so for `cat <` with no path
(`open` is then called with `NULL`). -/
theorem failed_open_still_forks :
    Env.openFails.openFd < 0 ∧
    Bsh.shellLine Env.openFails "cat < missing\n".toList
      = { trace := [.openFile (some "missing".toList) [.O_RDONLY] none,
                    .fork (restoreSignals ++ [.dup2 .opened 0, .close .opened,
                      .execvp (some "cat".toList) ["cat".toList], .perror "execvp", .exit 1]),
                    .wait],
          out := .returned } ∧
    countForks (Bsh.shellLine Env.openFails "cat < missing\n".toList).trace = 1 ∧
    countForks (Bsh.shellLine Env.openFails "cat <\n".toList).trace = 1 ∧
    countForks (Server.parseBuffer Env.openFails "cat < missing\n".toList).trace = 1 ∧
    (∀ cmd file std_ioe append bg,
      countForks (Bsh.redirect Env.openFails cmd file std_ioe append bg).trace = 1 ∧
      countForks (Server.redirect Env.openFails cmd file std_ioe append bg).trace = 1) := by
  refine ⟨by decide, by decide, by decide, by decide, by decide, ?_⟩
  intro cmd file std_ioe append bg
  have ho : countForks [redirectOpen file std_ioe append] = 0 := by
    unfold redirectOpen
    split_ifs <;> rfl
  constructor
  · have h := redirect_ok Env.openFails cmd file std_ioe append bg rfl
    rw [h]
    exact (countForks_append [redirectOpen file std_ioe append] _).trans (by rw [ho]; rfl)
  · have h : Server.redirect Env.openFails cmd file std_ioe append bg
        = { trace := [redirectOpen file std_ioe append,
              .fork (redirectDups std_ioe ++ [ChildAct.close Fd.opened] ++ Server.execTail cmd),
              .wait],
            out := .returned } := by
      simp [Server.redirect, Env.openFails]
    rw [h]
    exact (countForks_append [redirectOpen file std_ioe append] _).trans (by rw [ho]; rfl)

/-- C13: for every input whose first byte is a newline, whatever follows it, the
shell does nothing with the line and goes on to the next prompt: no call is made
and no fault can arise, so the line is neither tokenized nor compared with
`exit`; no file is opened, no pipe created and no process forked. The remote
service makes only the two initial `dup2` calls that precede its look at the
line, and returns. -/
theorem newline_line_is_skipped (env : Env) (line : List Char)
    (h : line.head? = some '\n') :
    Bsh.shellLine env line = { trace := [], out := .returned } ∧
    Server.parseBuffer env line
      = { trace := [.dup2 .sockfd 1, .dup2 .sockfd 2], out := .returned } ∧
    countOpens (Bsh.shellLine env line).trace = 0 ∧
    countPipes (Bsh.shellLine env line).trace = 0 ∧
    countForks (Bsh.shellLine env line).trace = 0 := by
  have h1 : Bsh.shellLine env line = { trace := [], out := .returned } := by
    unfold Bsh.shellLine
    rw [if_neg (by simp [h])]
  have h2 : Server.parseBuffer env line
      = { trace := [.dup2 .sockfd 1, .dup2 .sockfd 2], out := .returned } := by
    unfold Server.parseBuffer
    rw [if_neg (by simp [h])]
    rfl
  rw [h1, h2]
  exact ⟨rfl, rfl, rfl, rfl, rfl⟩

/-- Witness for C13 at the line that holds a newline followed by `exit`. -/
theorem newline_line_is_skipped_witness :
    Bsh.shellLine (Env.allOk 3) "\nexit".toList = { trace := [], out := .returned } ∧
    Server.parseBuffer (Env.allOk 3) "\nexit".toList
      = { trace := [.dup2 .sockfd 1, .dup2 .sockfd 2], out := .returned } ∧
    countOpens (Bsh.shellLine (Env.allOk 3) "\nexit".toList).trace = 0 ∧
    countPipes (Bsh.shellLine (Env.allOk 3) "\nexit".toList).trace = 0 ∧
    countForks (Bsh.shellLine (Env.allOk 3) "\nexit".toList).trace = 0 :=
  newline_line_is_skipped (Env.allOk 3) "\nexit".toList (by decide)

/-- C14 fails on the code: a line whose first byte is not a newline can leave
command 0 without any argument. For the line made of one blank and a newline,
for the line `&` and for the line `| ls` the entry `cmds[0][0]` is still `NULL` when
it is passed to `strcmp`, a null pointer dereference in both front ends. For the
line `ls |` the second stage handed to `multi_pipe` has no argument and its child
calls `execvp` with a null `argv[0]`. -/
theorem empty_command_reaches_strcmp :
    (" \n".toList).head? ≠ some '\n' ∧
    (parse " \n".toList).toOption.map (fun st => (st.cmds.getD 0 []).head?.join)
      = some none ∧
    Bsh.shellLine (Env.allOk 3) " \n".toList = { trace := [], out := .fault .nullDeref } ∧
    Bsh.shellLine (Env.allOk 3) "&\n".toList = { trace := [], out := .fault .nullDeref } ∧
    Bsh.shellLine (Env.allOk 3) "| ls\n".toList = { trace := [], out := .fault .nullDeref } ∧
    Server.parseBuffer (Env.allOk 3) " \n".toList
      = { trace := [.dup2 .sockfd 1, .dup2 .sockfd 2], out := .fault .nullDeref } ∧
    Bsh.shellLine (Env.allOk 3) "ls |\n".toList
      = Bsh.multi_pipe (Env.allOk 3) (tableOf [["ls".toList], []]) 1 (List.replicate 16 0) ∧
    Bsh.stage (tableOf [["ls".toList], []]) 1 1
      = restoreSignals ++ [.dup2 (.pipes 0) 0, .close (.pipes 0), .close (.pipes 1),
          .execvp none [], .perror "execvp", .exit 1] := by
  decide

/-! ## Pipe wiring of `multi_pipe` -/

theorem dupsOf_append (a b : List ChildAct) : dupsOf (a ++ b) = dupsOf a ++ dupsOf b := by
  simp [dupsOf]

theorem dupsOf_childCloses (n : Nat) : dupsOf (childCloses n) = [] := by
  unfold dupsOf childCloses
  rw [List.filter_eq_nil_iff]
  intro a ha
  simp only [List.mem_map] at ha
  obtain ⟨j, _, rfl⟩ := ha
  simp

theorem dupsOf_stageDups (n i : Nat) : dupsOf (stageDups n i) = stageDups n i := by
  unfold dupsOf stageDups
  rw [List.filter_eq_self]
  intro a ha
  simp only [List.mem_append] at ha
  rcases ha with ha | ha
  · split_ifs at ha
    · simp at ha
      subst ha
      rfl
    · simp at ha
  · split_ifs at ha
    · simp at ha
      subst ha
      rfl
    · simp at ha

theorem stageDups_eq_wiring (n i : Nat) (hi : i ≤ n) : stageDups n i = wiring n i := by
  unfold stageDups wiring readEnd writeEnd
  have e1 : (i ≠ n) ↔ (i < n) := by omega
  have e2 : (i ≠ 0) ↔ (0 < i) := by omega
  by_cases h1 : i < n <;> by_cases h2 : 0 < i
  · have : i * 2 - 2 = (i - 1) * 2 := by omega
    simp [e1.mpr h1, e2.mpr h2, h1, h2, this]
  · have : i = 0 := by omega
    subst this
    simp [e1.mpr h1, h1]
  · have : i = n := by omega
    subst this
    have : i * 2 - 2 = (i - 1) * 2 := by omega
    simp [e2.mpr h2, h2, this]
  · have : i = 0 := by omega
    subst this
    have : n = 0 := by omega
    subst this
    simp

/-- C20: in `multi_pipe` called with `n` pipes, for every stage `i` from 0 to `n` of
either front end, the `dup2` calls of the child are exactly those of the
reference wiring, in this order: the write end of pipe `i`, `pipes[2i+1]`, onto
descriptor 1 iff `i < n`, then the read end of pipe `i - 1`, `pipes[2i-2]`, onto
descriptor 0 iff `i > 0`. Every index used is below `2n`; stage 0 has no `dup2` onto
descriptor 0, stage `n` none onto descriptor 1, and no stage has a `dup2` onto any
other descriptor or from any other source. -/
theorem pipe_wiring (cmds : List (List (Option Tok))) (n i : Nat) (hi : i ≤ n) :
    dupsOf (Bsh.stage cmds n i) = wiring n i ∧
    dupsOf (Server.stage cmds n i) = wiring n i ∧
    (ChildAct.dup2 (.pipes (2 * i - 2)) 0 ∈ Bsh.stage cmds n i ↔ 0 < i) ∧
    (ChildAct.dup2 (.pipes (2 * i + 1)) 1 ∈ Bsh.stage cmds n i ↔ i < n) ∧
    (∀ src dst, ChildAct.dup2 src dst ∈ Bsh.stage cmds n i →
      (src = .pipes (2 * i - 2) ∧ dst = 0 ∧ 0 < i ∧ 2 * i - 2 < 2 * n) ∨
      (src = .pipes (2 * i + 1) ∧ dst = 1 ∧ i < n ∧ 2 * i + 1 < 2 * n)) ∧
    (i = 0 → ∀ src, ChildAct.dup2 src 0 ∉ Bsh.stage cmds n i) ∧
    (i = n → ∀ src, ChildAct.dup2 src 1 ∉ Bsh.stage cmds n i) := by
  have hB : dupsOf (Bsh.stage cmds n i) = wiring n i := by
    unfold Bsh.stage
    rw [dupsOf_append, dupsOf_append, dupsOf_append, dupsOf_childCloses, dupsOf_stageDups,
      stageDups_eq_wiring n i hi]
    have h1 : dupsOf restoreSignals = [] := by decide
    have h2 : dupsOf (execTail (cmds.getD i [])) = [] := by
      simp [dupsOf, execTail]
    rw [h1, h2]
    simp
  have hS : dupsOf (Server.stage cmds n i) = wiring n i := by
    unfold Server.stage
    rw [dupsOf_append, dupsOf_append, dupsOf_childCloses, dupsOf_stageDups,
      stageDups_eq_wiring n i hi]
    have h2 : dupsOf (Server.execTail (cmds.getD i [])) = [] := by
      simp [dupsOf, Server.execTail, Server.childError]
    rw [h2]
    simp
  have hmem : ∀ src dst, ChildAct.dup2 src dst ∈ Bsh.stage cmds n i ↔
      ChildAct.dup2 src dst ∈ wiring n i := by
    intro src dst
    rw [← hB]
    unfold dupsOf
    rw [List.mem_filter]
    simp
  have hw : ∀ src dst, ChildAct.dup2 src dst ∈ wiring n i ↔
      (src = .pipes (2 * i - 2) ∧ dst = 0 ∧ 0 < i) ∨
      (src = .pipes (2 * i + 1) ∧ dst = 1 ∧ i < n) := by
    intro src dst
    unfold wiring readEnd writeEnd
    have e1 : (i - 1) * 2 = 2 * i - 2 := by omega
    have e2 : i * 2 + 1 = 2 * i + 1 := by omega
    rw [e1, e2]
    by_cases h1 : i < n <;> by_cases h2 : 0 < i <;> simp [h1, h2]
    all_goals tauto
  refine ⟨hB, hS, ?_, ?_, ?_, ?_, ?_⟩
  · rw [hmem, hw]
    simp
  · rw [hmem, hw]
    simp
  · intro src dst h
    rcases (hw src dst).mp ((hmem src dst).mp h) with ⟨a, b, c⟩ | ⟨a, b, c⟩
    · exact Or.inl ⟨a, b, c, by omega⟩
    · exact Or.inr ⟨a, b, c, by omega⟩
  · intro h0 src h
    rcases (hw src 0).mp ((hmem src 0).mp h) with ⟨_, _, c⟩ | ⟨_, b, _⟩
    · omega
    · omega
  · intro hn src h
    rcases (hw src 1).mp ((hmem src 1).mp h) with ⟨_, b, _⟩ | ⟨_, _, c⟩
    · omega
    · omega

/-- Witness for C20 at the middle stage of three. -/
theorem pipe_wiring_witness :
    dupsOf (Bsh.stage (tableOf [["ls".toList], ["wc".toList], ["cat".toList]]) 2 1)
      = wiring 2 1 ∧
    dupsOf (Server.stage (tableOf [["ls".toList], ["wc".toList], ["cat".toList]]) 2 1)
      = wiring 2 1 ∧
    (ChildAct.dup2 (.pipes (2 * 1 - 2)) 0
      ∈ Bsh.stage (tableOf [["ls".toList], ["wc".toList], ["cat".toList]]) 2 1 ↔ 0 < 1) ∧
    (ChildAct.dup2 (.pipes (2 * 1 + 1)) 1
      ∈ Bsh.stage (tableOf [["ls".toList], ["wc".toList], ["cat".toList]]) 2 1 ↔ 1 < 2) ∧
    (∀ src dst, ChildAct.dup2 src dst
        ∈ Bsh.stage (tableOf [["ls".toList], ["wc".toList], ["cat".toList]]) 2 1 →
      (src = .pipes (2 * 1 - 2) ∧ dst = 0 ∧ 0 < 1 ∧ 2 * 1 - 2 < 2 * 2) ∨
      (src = .pipes (2 * 1 + 1) ∧ dst = 1 ∧ 1 < 2 ∧ 2 * 1 + 1 < 2 * 2)) ∧
    (1 = 0 → ∀ src, ChildAct.dup2 src 0
      ∉ Bsh.stage (tableOf [["ls".toList], ["wc".toList], ["cat".toList]]) 2 1) ∧
    (1 = 2 → ∀ src, ChildAct.dup2 src 1
      ∉ Bsh.stage (tableOf [["ls".toList], ["wc".toList], ["cat".toList]]) 2 1) :=
  pipe_wiring (tableOf [["ls".toList], ["wc".toList], ["cat".toList]]) 2 1 (by decide)

/-! ## The banner device -/

theorem store_append {α : Type} (pre post : List α) (m v : α) :
    store (pre ++ m :: post) pre.length v = .ok (pre ++ v :: post) := by
  simp [store]

theorem storeSeq_ok {α : Type} (cs : List α) : ∀ (pre mid post : List α),
    mid.length = cs.length →
    storeSeq (pre ++ mid ++ post) pre.length cs
      = .ok (pre ++ cs ++ post, pre.length + cs.length) := by
  induction cs with
  | nil =>
    intro pre mid post h
    have : mid = [] := List.length_eq_zero.mp h
    simp [storeSeq, this]
  | cons c cs ih =>
    intro pre mid post h
    cases mid with
    | nil => simp at h
    | cons m mid =>
      simp only [List.length_cons, Nat.add_right_cancel_iff] at h
      have e : pre ++ m :: mid ++ post = pre ++ m :: (mid ++ post) := by simp
      rw [storeSeq, e, store_append]
      have e2 : pre ++ c :: (mid ++ post) = (pre ++ [c]) ++ mid ++ post := by simp
      have e3 : pre.length + 1 = (pre ++ [c]).length := by simp
      simp only []
      rw [e2, e3, ih _ _ _ h]
      simp [Nat.add_assoc, Nat.add_comm 1]

theorem banner_readLoop_ok (s : List Char) (hs : NUL ∉ s) : ∀ (L : Nat) (rest : List Char),
    s.length ≤ L → Banner.readLoop L (s ++ NUL :: rest) = .ok s := by
  induction s with
  | nil =>
    intro L rest _
    cases L <;> simp [Banner.readLoop]
  | cons c s ih =>
    intro L rest h
    simp only [List.mem_cons, not_or] at hs
    cases L with
    | zero => simp at h
    | succ k =>
      simp only [List.length_cons, Nat.add_le_add_iff_right] at h
      have hc : c ≠ NUL := fun e => hs.1 e.symm
      have e : (c :: s) ++ NUL :: rest = c :: (s ++ NUL :: rest) := rfl
      rw [e, Banner.readLoop, if_neg hc, ih hs.2 k rest h]
      rfl

/-- C15: the banner device round trip. From any state in which the device is not
open and `msg` has its 32 bytes, for every string `s` of 1 to 31 non-NUL bytes and
every `L` of at least the length of `s`: open succeeds, `write(s)` returns the length
of `s`, release succeeds and leaves `s` followed by the terminator at the start of
`msg`, the second open succeeds, `read(L)` returns the length of `s` and delivers
exactly `s`, and every further read of the session returns 0 and delivers nothing. -/
theorem banner_round_trip (st : Banner) (s : List Char) (L : Nat)
    (hopen : st.Device_Open = 0) (hlen : st.msg.length = BUFF_LEN)
    (h1 : 1 ≤ s.length) (h31 : s.length ≤ 31) (hnul : NUL ∉ s) (hL : s.length ≤ L) :
    ∃ w r : Banner,
      (Banner.device_open st).2 = 0 ∧
      Banner.device_write (Banner.device_open st).1 s = .ok (w, (s.length : Int)) ∧
      (Banner.device_release w).2 = 0 ∧
      (Banner.device_release w).1.msg.take (s.length + 1) = s ++ [NUL] ∧
      (Banner.device_open (Banner.device_release w).1).2 = 0 ∧
      Banner.device_read (Banner.device_open (Banner.device_release w).1).1 L
        = .ok (r, s, (s.length : Int)) ∧
      ∀ L2, Banner.device_read r L2 = .ok (r, [], 0) := by
  obtain ⟨d, msg, ptr⟩ := st
  simp only at hopen hlen
  subst hopen
  obtain ⟨c, s1, rfl⟩ : ∃ c s1, s = c :: s1 := by
    cases s with
    | nil => simp at h1
    | cons c s1 => exact ⟨c, s1, rfl⟩
  have hc : c ≠ NUL := fun e => hnul (by simp [e])
  -- split the old contents of msg around the bytes that the write replaces
  obtain ⟨mid, post, hmsg, hmid⟩ : ∃ mid post : List Char,
      msg = mid ++ post ∧ mid.length = (c :: s1).length + 1 := by
    refine ⟨msg.take ((c :: s1).length + 1), msg.drop ((c :: s1).length + 1),
      (List.take_append_drop _ _).symm, ?_⟩
    rw [List.length_take, hlen]
    simp only [BUFF_LEN]
    omega
  obtain ⟨mid1, m, rfl⟩ : ∃ mid1 m, mid = mid1 ++ [m] := by
    rcases List.eq_nil_or_concat mid with h | ⟨l, a, h⟩
    · rw [h] at hmid
      simp at hmid
    · exact ⟨l, a, by simpa using h⟩
  have hmid1 : mid1.length = (c :: s1).length := by simpa using hmid
  have hmsg2 : msg = mid1 ++ m :: post := by simp [hmsg]
  subst hmsg2
  have htake : List.take (BUFF_LEN - 1) (c :: s1) = c :: s1 :=
    List.take_of_length_le (by simp only [BUFF_LEN]; omega)
  have hw0 : storeSeq (mid1 ++ m :: post) 0 (c :: s1)
      = .ok ((c :: s1) ++ m :: post, (c :: s1).length) := by
    simpa using storeSeq_ok (c :: s1) [] mid1 (m :: post) hmid1
  have hst : store ((c :: s1) ++ m :: post) (c :: s1).length NUL
      = .ok ((c :: s1) ++ NUL :: post) := store_append _ _ _ _
  have hwrite : Banner.device_write
      (Banner.device_open { Device_Open := 0, msg := mid1 ++ m :: post, msg_ptr := ptr }).1
      (c :: s1)
      = .ok ({ Device_Open := 1, msg := (c :: s1) ++ NUL :: post,
               msg_ptr := some 0 }, ((c :: s1).length : Int)) := by
    simp only [Banner.device_open, ne_eq, not_true_eq_false, if_false,
      Banner.device_write, htake]
    rw [hw0]
    simp only []
    rw [hst]
    rfl
  have hread : Banner.device_read
      { Device_Open := 1, msg := (c :: s1) ++ NUL :: post, msg_ptr := some 0 } L
      = .ok ({ Device_Open := 1, msg := (c :: s1) ++ NUL :: post,
               msg_ptr := some (c :: s1).length }, c :: s1, ((c :: s1).length : Int)) := by
    simp only [Banner.device_read, List.cons_append, List.getElem?_cons_zero, if_neg hc,
      List.drop_zero]
    have := banner_readLoop_ok (c :: s1) hnul L post hL
    simp only [List.cons_append] at this
    rw [this]
    simp
  refine ⟨{ Device_Open := 1, msg := (c :: s1) ++ NUL :: post, msg_ptr := some 0 },
    { Device_Open := 1, msg := (c :: s1) ++ NUL :: post, msg_ptr := some (c :: s1).length },
    ?_, hwrite, rfl, ?_, ?_, ?_, ?_⟩
  · simp [Banner.device_open]
  · simp only [Banner.device_release]
    have : (c :: s1) ++ NUL :: post = ((c :: s1) ++ [NUL]) ++ post := by simp
    rw [this, List.take_left' (by simp)]
  · simp [Banner.device_open, Banner.device_release]
  · simp only [Banner.device_open, Banner.device_release]
    simp only [Int.reduceAdd, Int.reduceSub, ne_eq, not_true_eq_false, if_false]
    exact hread
  · intro L2
    simp only [Banner.device_read]
    have : ((c :: s1) ++ NUL :: post)[(c :: s1).length]? = some NUL := by
      rw [List.getElem?_append_right (Nat.le_refl _)]
      simp
    simp only [List.cons_append] at this
    simp only [List.cons_append, this, if_true]

/-- Witness for C15: the round trip of `hi` from the state left by module
initialisation, read with a buffer of 5 bytes. -/
theorem banner_round_trip_witness :
    ∃ w r : Banner,
      (Banner.device_open Banner.init).2 = 0 ∧
      Banner.device_write (Banner.device_open Banner.init).1 "hi".toList
        = .ok (w, ("hi".toList.length : Int)) ∧
      (Banner.device_release w).2 = 0 ∧
      (Banner.device_release w).1.msg.take ("hi".toList.length + 1) = "hi".toList ++ [NUL] ∧
      (Banner.device_open (Banner.device_release w).1).2 = 0 ∧
      Banner.device_read (Banner.device_open (Banner.device_release w).1).1 5
        = .ok (r, "hi".toList, ("hi".toList.length : Int)) ∧
      ∀ L2, Banner.device_read r L2 = .ok (r, [], 0) :=
  banner_round_trip Banner.init "hi".toList 5 rfl rfl (by decide) (by decide) (by decide)
    (by decide)

/-- C16: the write of `device_write` is not confined to the message buffer. From the
state left by module initialisation, open succeeds and `read(1)` delivers `W` and
leaves `msg_ptr` at `msg + 1`; a `write` of 31 bytes then stores its bytes at
`msg[1]` to `msg[31]` and its terminator at `msg[32]`, one past the 32-byte buffer:
the loop bound `i < BUFF_LEN - 1` counts the bytes taken, not the offset of
`msg_ptr`. -/
theorem banner_write_overflows :
    ∃ (r : Banner) (m : List Char),
      (Banner.device_open Banner.init).2 = 0 ∧
      Banner.device_read (Banner.device_open Banner.init).1 1 = .ok (r, ['W'], 1) ∧
      r.msg_ptr = some 1 ∧ r.msg.length = BUFF_LEN ∧
      (List.replicate 31 'A').length = BUFF_LEN - 1 ∧
      storeSeq r.msg 1 (List.replicate 31 'A') = .ok (m, 32) ∧
      m = 'W' :: List.replicate 31 'A' ∧ m.length = BUFF_LEN ∧
      store m 32 NUL = .error .outOfBounds ∧
      Banner.device_write r (List.replicate 31 'A') = .error .outOfBounds :=
  ⟨_, _, rfl, rfl, rfl, rfl, rfl, rfl, rfl, rfl, rfl, rfl⟩

/-! ## The Morse code device -/

theorem lookup_eq_none_of_not_mem {β : Type} (c : Char) : ∀ (l : List (Char × β)),
    c ∉ l.map Prod.fst → l.lookup c = none := by
  intro l
  induction l with
  | nil => intro _; rfl
  | cons kv l ih =>
    intro h
    obtain ⟨k, v⟩ := kv
    simp only [List.map_cons, List.mem_cons, not_or] at h
    have hk : (c == k) = false := by simpa using h.1
    simp only [List.lookup, hk]
    exact ih h.2

theorem morseCase_of_label : ∀ c ∈ Morse.switchTable.map Prod.fst,
    Morse.morseCase c = (refEncoding c, ((refEncoding c).length : Int)) := by
  decide

theorem lower_case_is_label : ∀ n < 123, 97 ≤ n →
    Char.ofNat n ∈ Morse.switchTable.map Prod.fst := by
  decide

theorem alphabet_key_is_label : ∀ c ∈ morseAlphabet.map Prod.fst,
    c ∈ Morse.switchTable.map Prod.fst := by
  decide

theorem toUpper_of_not_label (c : Char) (h : c ∉ Morse.switchTable.map Prod.fst) :
    c.toUpper = c := by
  unfold Char.toUpper
  by_cases hc : c.toNat ≥ 97 ∧ c.toNat ≤ 122
  · exfalso
    apply h
    have := lower_case_is_label c.toNat (by omega) hc.1
    rwa [Char.ofNat_toNat] at this
  · simp only [hc, if_false]

theorem morseCase_eq (c : Char) :
    Morse.morseCase c = (refEncoding c, ((refEncoding c).length : Int)) := by
  by_cases h : c ∈ Morse.switchTable.map Prod.fst
  · exact morseCase_of_label c h
  · have h1 : Morse.switchTable.lookup c = none := lookup_eq_none_of_not_mem c _ h
    have h2 : morseAlphabet.lookup c = none :=
      lookup_eq_none_of_not_mem c _ (fun hm => h (alphabet_key_is_label c hm))
    unfold Morse.morseCase refEncoding
    rw [h1, toUpper_of_not_label c h, h2]
    rfl

theorem encode_cons (c : Char) (cs : List Char) :
    encode (c :: cs) = refEncoding c ++ encode cs := by
  simp [encode]

theorem morse_writeByte_ok (st : Morse) (c dm : Char)
    (dpre dpost ppre pmid ppost : List Char)
    (hd : st.dbuff = dpre ++ dm :: dpost) (hp : st.dbuff_ptr = some dpre.length)
    (hpu : st.pulse = ppre ++ pmid ++ ppost) (hq : st.pulse_ptr = some ppre.length)
    (hm : pmid.length = (refEncoding c).length) :
    Morse.writeByte st c = .ok { st with
      dbuff := dpre ++ c :: dpost
      dbuff_ptr := some (dpre.length + 1)
      pulse := ppre ++ refEncoding c ++ ppost
      pulse_ptr := some (ppre.length + (refEncoding c).length)
      pulse_len := st.pulse_len + ((refEncoding c).length : Int) } := by
  obtain ⟨o, dbuff, dptr, pulse, pptr, plen, ppos, busy, pend, gpio⟩ := st
  simp only at hd hp hpu hq
  subst hd hp hpu hq
  simp only [Morse.writeByte, store_append, morseCase_eq]
  rw [storeSeq_ok _ _ _ _ hm]

theorem morse_writeLoop_ok (cs : List Char) :
    ∀ (st : Morse) (dpre dmid dpost ppre pmid ppost : List Char),
    st.dbuff = dpre ++ dmid ++ dpost → dmid.length = cs.length →
    st.dbuff_ptr = some dpre.length →
    st.pulse = ppre ++ pmid ++ ppost → pmid.length = (encode cs).length →
    st.pulse_ptr = some ppre.length →
    Morse.writeLoop st cs = .ok { st with
      dbuff := dpre ++ cs ++ dpost
      dbuff_ptr := some (dpre.length + cs.length)
      pulse := ppre ++ encode cs ++ ppost
      pulse_ptr := some (ppre.length + (encode cs).length)
      pulse_len := st.pulse_len + ((encode cs).length : Int) } := by
  induction cs with
  | nil =>
    intro st dpre dmid dpost ppre pmid ppost hd hdm hp hpu hpm hq
    have e1 : dmid = [] := List.length_eq_zero.mp hdm
    have e2 : pmid = [] := List.length_eq_zero.mp (by simpa [encode] using hpm)
    subst e1 e2
    obtain ⟨o, dbuff, dptr, pulse, pptr, plen, ppos, busy, pend, gpio⟩ := st
    simp only at hd hp hpu hq
    subst hd hp hpu hq
    simp [Morse.writeLoop, encode]
  | cons c cs ih =>
    intro st dpre dmid dpost ppre pmid ppost hd hdm hp hpu hpm hq
    cases dmid with
    | nil => simp at hdm
    | cons dm dmid =>
      simp only [List.length_cons, Nat.add_right_cancel_iff] at hdm
      rw [encode_cons, List.length_append] at hpm
      have hsplit : pmid = pmid.take (refEncoding c).length ++ pmid.drop (refEncoding c).length :=
        (List.take_append_drop _ _).symm
      have ht : (pmid.take (refEncoding c).length).length = (refEncoding c).length := by
        rw [List.length_take]; omega
      have hdr : (pmid.drop (refEncoding c).length).length = (encode cs).length := by
        rw [List.length_drop]; omega
      have hb := morse_writeByte_ok st c dm dpre (dmid ++ dpost) ppre
        (pmid.take (refEncoding c).length) (pmid.drop (refEncoding c).length ++ ppost)
        (by simp [hd]) hp
        (by
          rw [hpu]
          simp only [List.append_assoc]
          rw [← List.append_assoc (List.take _ pmid), List.take_append_drop])
        hq ht
      rw [Morse.writeLoop, hb]
      simp only []
      rw [ih _ (dpre ++ [c]) dmid dpost (ppre ++ refEncoding c)
        (pmid.drop (refEncoding c).length) ppost (by simp) hdm (by simp) (by simp) hdr
        (by simp)]
      simp only [encode_cons, List.length_append, List.length_cons, List.length_nil,
        List.append_assoc, List.cons_append, List.nil_append, Nat.cast_add, Nat.add_assoc,
        Nat.add_comm 1, Int.add_assoc]

theorem list_window {α : Type} (xs : List α) (p n : Nat) (h : p + n ≤ xs.length) :
    xs = xs.take p ++ (xs.drop p).take n ++ xs.drop (p + n) ∧
    (xs.take p).length = p ∧ ((xs.drop p).take n).length = n := by
  refine ⟨?_, ?_, ?_⟩
  · rw [List.append_assoc, ← List.drop_drop, List.take_append_drop, List.take_append_drop]
  · rw [List.length_take]; omega
  · rw [List.length_take, List.length_drop]; omega

theorem morse_device_write_ok (st : Morse) (buff bytes : List Char) (dm : Char)
    (dpre dmid dpost ppre pmid ppost : List Char)
    (hb : buff.take (CAP1X - 1) = bytes) (hidle : st.tmrbusy = 0)
    (hd : st.dbuff = dpre ++ dmid ++ dm :: dpost) (hdm : dmid.length = bytes.length)
    (hp : st.dbuff_ptr = some dpre.length)
    (hpu : st.pulse = ppre ++ pmid ++ ppost) (hpm : pmid.length = (encode bytes).length)
    (hq : st.pulse_ptr = some ppre.length) :
    Morse.device_write st buff = .ok ({ st with
      dbuff := dpre ++ bytes ++ NUL :: dpost
      dbuff_ptr := some (dpre.length + bytes.length)
      pulse := ppre ++ encode bytes ++ ppost
      pulse_ptr := some (ppre.length + (encode bytes).length)
      pulse_len := ((encode bytes).length : Int) }, (bytes.length : Int)) := by
  have hl := morse_writeLoop_ok bytes { st with pulse_len := 0 } dpre dmid (dm :: dpost)
    ppre pmid ppost hd hdm hp hpu hpm hq
  have hs : store (dpre ++ bytes ++ dm :: dpost) (dpre.length + bytes.length) NUL
      = .ok (dpre ++ bytes ++ NUL :: dpost) := by
    have := store_append (dpre ++ bytes) dpost dm NUL
    rwa [List.length_append] at this
  unfold Morse.device_write
  rw [if_neg (by simp [hidle]), hb, hl]
  simp only []
  rw [hs]
  simp

theorem morse_readLoop_ok (s : List Char) (hs : NUL ∉ s) (rest : List Char) :
    Morse.readLoop (s ++ NUL :: rest) = .ok s := by
  induction s with
  | nil => simp [Morse.readLoop]
  | cons c s ih =>
    simp only [List.mem_cons, not_or] at hs
    have hc : c ≠ NUL := fun e => hs.1 e.symm
    have e : (c :: s) ++ NUL :: rest = c :: (s ++ NUL :: rest) := rfl
    rw [e, Morse.readLoop, if_neg hc, ih hs.2]
    rfl

theorem morse_timerRun_ok : ∀ (k : Nat) (units : List Char) (e : Morse)
    (ppre ppost : List Char),
    e.pulse = ppre ++ units ++ ppost → e.pulse_ptr = some ppre.length →
    e.pulse_pos = (units.length : Int) → units ≠ [] → e.pending = true → e.tmrbusy = 1 →
    ∃ e1 : Morse, Morse.timerRun k e = .ok (e1, (units.take k).map levelOf) ∧
      e1.tmrbusy = (if k < units.length then 1 else 0) ∧
      e1.pending = decide (k < units.length) := by
  intro k
  induction k with
  | zero =>
    intro units e ppre ppost _ _ _ hne hpend hbusy
    have : 0 < units.length := List.length_pos.mpr hne
    exact ⟨e, by simp [Morse.timerRun], by simp [this, hbusy], by simp [this, hpend]⟩
  | succ k ih =>
    intro units e ppre ppost hpu hq hpos hne hpend hbusy
    obtain ⟨o, dbuff, dptr, pulse, pptr, plen, ppos, busy, pend, gpio⟩ := e
    simp only at hpu hq hpos hpend hbusy
    subst hpu hq hpos hpend hbusy
    cases units with
    | nil => exact absurd rfl hne
    | cons u us =>
      have hget : (ppre ++ u :: us ++ ppost)[ppre.length]? = some u := by
        rw [List.append_assoc, List.getElem?_append_right (Nat.le_refl _)]
        simp
      by_cases hus : us = []
      · subst hus
        refine ⟨{ Device_Open := o, dbuff := dbuff, dbuff_ptr := dptr,
                  pulse := ppre ++ [u] ++ ppost, pulse_ptr := some (ppre.length + 1),
                  pulse_len := plen, pulse_pos := 0, tmrbusy := 0, pending := false,
                  gpio := levelOf u }, ?_, by simp, by simp⟩
        have hx : Morse.expire
            { Device_Open := o, dbuff := dbuff, dbuff_ptr := dptr,
              pulse := ppre ++ [u] ++ ppost, pulse_ptr := some ppre.length,
              pulse_len := plen, pulse_pos := (([u] : List Char).length : Int), tmrbusy := 1,
              pending := true, gpio := gpio }
            = .ok
            { Device_Open := o, dbuff := dbuff, dbuff_ptr := dptr,
              pulse := ppre ++ [u] ++ ppost, pulse_ptr := some (ppre.length + 1),
              pulse_len := plen, pulse_pos := 0, tmrbusy := 0, pending := false,
              gpio := levelOf u } := by
          simp only [Morse.expire, hget, levelOf]
          simp
        simp only [Morse.timerRun, if_true, hx]
        cases k <;> simp [Morse.timerRun]
      · have hx : Morse.expire
            { Device_Open := o, dbuff := dbuff, dbuff_ptr := dptr,
              pulse := ppre ++ u :: us ++ ppost, pulse_ptr := some ppre.length,
              pulse_len := plen, pulse_pos := ((u :: us).length : Int), tmrbusy := 1,
              pending := true, gpio := gpio }
            = .ok
            { Device_Open := o, dbuff := dbuff, dbuff_ptr := dptr,
              pulse := ppre ++ u :: us ++ ppost, pulse_ptr := some (ppre.length + 1),
              pulse_len := plen, pulse_pos := (us.length : Int), tmrbusy := 1,
              pending := true, gpio := levelOf u } := by
          have hl : ¬ ((us.length : Int) = 0) := by
            simpa using hus
          simp only [Morse.expire, hget, levelOf]
          simp [hl]
        obtain ⟨e1, h1, h2, h3⟩ := ih us
          { Device_Open := o, dbuff := dbuff, dbuff_ptr := dptr,
            pulse := ppre ++ u :: us ++ ppost, pulse_ptr := some (ppre.length + 1),
            pulse_len := plen, pulse_pos := (us.length : Int), tmrbusy := 1,
            pending := true, gpio := levelOf u }
          (ppre ++ [u]) ppost (by simp) (by simp) rfl hus rfl rfl
        refine ⟨e1, ?_, ?_, ?_⟩
        · simp only [Morse.timerRun, if_true, hx, h1]
          simp
        · simpa using h2
        · simpa using h3

theorem refEncoding_ne_nil (c : Char) : refEncoding c ≠ [] := by
  unfold refEncoding
  split <;> simp [render]

theorem encode_ne_nil (s : List Char) (h : s ≠ []) : encode s ≠ [] := by
  cases s with
  | nil => exact absurd rfl h
  | cons c cs =>
    rw [encode_cons]
    simp [refEncoding_ne_nil]

/-- C17: the Morse encoding done by `device_write`. For every byte the `switch`
selects exactly the units of the reference encoding (the International Morse pattern
of a letter of either case or of a digit, rendered with `1` for a dot, `111` for a
dash, one `0` between elements and `000` at the end; five `0` for any other byte) and
adds their number to `pulse_len`. For every write with the timer idle whose bytes and
units fit the device buffer and the pulse array, the write takes the first 31 bytes
at most, returns their number, appends at `pulse_ptr` the encodings of these bytes in
order and nothing else, and leaves in `pulse_len` the number of units appended. -/
theorem morse_encoding (st : Morse) (buff : List Char) (p q : Nat)
    (hidle : st.tmrbusy = 0) (hp : st.dbuff_ptr = some p) (hq : st.pulse_ptr = some q)
    (hd : p + (buff.take (CAP1X - 1)).length < st.dbuff.length)
    (hu : q + (encode (buff.take (CAP1X - 1))).length ≤ st.pulse.length) :
    (∀ c, Morse.morseCase c = (refEncoding c, ((refEncoding c).length : Int))) ∧
    ∃ st1 : Morse,
      Morse.device_write st buff = .ok (st1, ((buff.take (CAP1X - 1)).length : Int)) ∧
      st1.pulse = st.pulse.take q ++ encode (buff.take (CAP1X - 1))
        ++ st.pulse.drop (q + (encode (buff.take (CAP1X - 1))).length) ∧
      st1.pulse_ptr = some (q + (encode (buff.take (CAP1X - 1))).length) ∧
      st1.pulse_len = ((encode (buff.take (CAP1X - 1))).length : Int) := by
  refine ⟨morseCase_eq, ?_⟩
  obtain ⟨hd1, hd2, hd3⟩ :=
    list_window st.dbuff p (buff.take (CAP1X - 1)).length (Nat.le_of_lt hd)
  obtain ⟨hu1, hu2, hu3⟩ :=
    list_window st.pulse q (encode (buff.take (CAP1X - 1))).length hu
  obtain ⟨dm, dpost, hdrop⟩ : ∃ dm dpost,
      st.dbuff.drop (p + (buff.take (CAP1X - 1)).length) = dm :: dpost := by
    cases h : st.dbuff.drop (p + (buff.take (CAP1X - 1)).length) with
    | nil =>
      have := congrArg List.length h
      rw [List.length_drop] at this
      simp only [List.length_nil] at this
      omega
    | cons dm dpost => exact ⟨dm, dpost, rfl⟩
  rw [hdrop] at hd1
  have hw := morse_device_write_ok st buff (buff.take (CAP1X - 1)) dm _ _ dpost _ _ _ rfl
    hidle hd1 hd3 (by rw [hd2, hp]) hu1 hu3 (by rw [hu2, hq])
  rw [hd2, hu2] at hw
  exact ⟨_, hw, rfl, rfl, rfl⟩

theorem morse_opened_sizes :
    Morse.opened.dbuff.length = 32 ∧ Morse.opened.pulse.length = 600 :=
  ⟨List.length_replicate _ _, List.length_replicate _ _⟩

/-- Witness for C17: the write of `Sos 1` right after the first open. -/
theorem morse_encoding_witness :
    (∀ c, Morse.morseCase c = (refEncoding c, ((refEncoding c).length : Int))) ∧
    ∃ st1 : Morse,
      Morse.device_write Morse.opened "Sos 1".toList
        = .ok (st1, (("Sos 1".toList.take (CAP1X - 1)).length : Int)) ∧
      st1.pulse = Morse.opened.pulse.take 0 ++ encode ("Sos 1".toList.take (CAP1X - 1))
        ++ Morse.opened.pulse.drop (0 + (encode ("Sos 1".toList.take (CAP1X - 1))).length) ∧
      st1.pulse_ptr = some (0 + (encode ("Sos 1".toList.take (CAP1X - 1))).length) ∧
      st1.pulse_len = ((encode ("Sos 1".toList.take (CAP1X - 1))).length : Int) :=
  morse_encoding Morse.opened "Sos 1".toList 0 0 rfl rfl rfl
    (by rw [morse_opened_sizes.1]; decide) (by rw [morse_opened_sizes.2]; decide)

/-- C18: Morse playback. From any state in which the device is not open, the timer is
idle and the device buffer and the pulse array have their sizes, for every non-empty
string `s` (a sequence of non-NUL bytes) of at most 31 bytes whose encoding has at most
600 units: open succeeds, `write(s)` returns the length of `s` and sets `pulse_len` to
the number of units of the encoding, release and the second open succeed, the read
returns the length of `s`, delivers `s` and starts the timer; the first `k` expirations
then set the pin, one unit each, to the first `k` units of the encoding of `s` in
order, on for `1` and off for `0`; the busy flag is 1 and the timer armed as long as
fewer than `pulse_len` expirations have happened, and after `pulse_len` of them the flag
is 0, the timer is not armed and no further expiration happens. -/
theorem morse_playback (st : Morse) (s : List Char) (len k : Nat)
    (hclosed : st.Device_Open = 0) (hidle : st.tmrbusy = 0)
    (hdb : st.dbuff.length = CAP1X) (hpl : st.pulse.length = MAX_UNIT)
    (hne : s ≠ []) (h31 : s.length ≤ 31) (hnul : NUL ∉ s)
    (h600 : (encode s).length ≤ 600) :
    ∃ w r e : Morse,
      (Morse.device_open st).2 = 0 ∧
      Morse.device_write (Morse.device_open st).1 s = .ok (w, (s.length : Int)) ∧
      w.pulse_len = ((encode s).length : Int) ∧
      (Morse.device_release w).2 = 0 ∧
      (Morse.device_open (Morse.device_release w).1).2 = 0 ∧
      Morse.device_read (Morse.device_open (Morse.device_release w).1).1 len
        = .ok (r, s, (s.length : Int)) ∧
      r.tmrbusy = 1 ∧ r.pending = true ∧
      Morse.timerRun k r = .ok (e, ((encode s).take k).map levelOf) ∧
      e.tmrbusy = (if k < (encode s).length then 1 else 0) ∧
      e.pending = decide (k < (encode s).length) := by
  obtain ⟨o, dbuff, dptr, pulse, pptr, plen, ppos, busy, pend, gpio⟩ := st
  simp only at hclosed hidle hdb hpl
  subst hclosed hidle
  simp only [CAP1X] at hdb
  simp only [MAX_UNIT] at hpl
  obtain ⟨hd1, _, hd3⟩ := list_window dbuff 0 s.length (by omega)
  obtain ⟨hu1, _, hu3⟩ := list_window pulse 0 (encode s).length (by omega)
  obtain ⟨dm, dpost, hdrop⟩ : ∃ dm dpost, dbuff.drop (0 + s.length) = dm :: dpost := by
    cases h : dbuff.drop (0 + s.length) with
    | nil =>
      have := congrArg List.length h
      rw [List.length_drop] at this
      simp only [List.length_nil] at this
      omega
    | cons dm dpost => exact ⟨dm, dpost, rfl⟩
  rw [hdrop] at hd1
  simp only [List.take_zero, List.drop_zero] at hd1 hu1 hd3 hu3
  generalize dbuff.take s.length = dmid at hd1 hd3
  generalize pulse.take (encode s).length = pmid at hu1 hu3
  generalize pulse.drop (0 + (encode s).length) = ppost at hu1
  subst hd1 hu1
  have htake : s.take (CAP1X - 1) = s := List.take_of_length_le (by simp only [CAP1X]; omega)
  have hw := morse_device_write_ok
    { Device_Open := 1, dbuff := [] ++ dmid ++ dm :: dpost, dbuff_ptr := some 0,
      pulse := [] ++ pmid ++ ppost, pulse_ptr := some 0, pulse_len := plen,
      pulse_pos := ppos, tmrbusy := 0, pending := pend, gpio := 0 }
    s s dm [] dmid dpost [] pmid ppost htake rfl rfl hd3 rfl rfl hu3 rfl
  simp only [List.nil_append, List.length_nil, Nat.zero_add] at hw
  obtain ⟨c, s1, rfl⟩ : ∃ c s1, s = c :: s1 := by
    cases s with
    | nil => exact absurd rfl hne
    | cons c s1 => exact ⟨c, s1, rfl⟩
  have hc : c ≠ NUL := fun e => hnul (by simp [e])
  have hrl := morse_readLoop_ok (c :: s1) hnul dpost
  obtain ⟨e, ht1, ht2, ht3⟩ := morse_timerRun_ok k (encode (c :: s1))
    { Device_Open := 1, dbuff := (c :: s1) ++ NUL :: dpost,
      dbuff_ptr := some (c :: s1).length,
      pulse := encode (c :: s1) ++ ppost, pulse_ptr := some 0,
      pulse_len := ((encode (c :: s1)).length : Int),
      pulse_pos := ((encode (c :: s1)).length : Int), tmrbusy := 1, pending := true,
      gpio := 0 }
    [] ppost rfl rfl rfl (encode_ne_nil _ hne) rfl rfl
  refine ⟨
    { Device_Open := 1, dbuff := (c :: s1) ++ NUL :: dpost,
      dbuff_ptr := some (c :: s1).length,
      pulse := encode (c :: s1) ++ ppost, pulse_ptr := some (encode (c :: s1)).length,
      pulse_len := ((encode (c :: s1)).length : Int), pulse_pos := ppos, tmrbusy := 0,
      pending := pend, gpio := 0 },
    { Device_Open := 1, dbuff := (c :: s1) ++ NUL :: dpost,
      dbuff_ptr := some (c :: s1).length,
      pulse := encode (c :: s1) ++ ppost, pulse_ptr := some 0,
      pulse_len := ((encode (c :: s1)).length : Int),
      pulse_pos := ((encode (c :: s1)).length : Int), tmrbusy := 1, pending := true,
      gpio := 0 },
    e, ?_, ?_, ?_, ?_, ?_, ?_, ?_, ?_, ht1, ht2, ht3⟩
  · simp [Morse.device_open]
  · simp only [Morse.device_open, ne_eq, not_true_eq_false, if_false, if_true]
    simpa using hw
  · rfl
  · rfl
  · simp [Morse.device_open, Morse.device_release]
  · simp only [Morse.device_open, Morse.device_release, Int.reduceAdd, Int.reduceSub,
      ne_eq, not_true_eq_false, if_false, if_true, Morse.device_read,
      List.cons_append, List.getElem?_cons_zero, if_neg hc, List.drop_zero]
    simp only [List.cons_append] at hrl
    rw [hrl]
    simp
  · rfl
  · rfl

/-- Witness for C18: `sos` written and read back from the state left by module
initialisation, followed up to the thirtieth expiration, the last unit. -/
theorem morse_playback_witness :
    ∃ w r e : Morse,
      (Morse.device_open Morse.init).2 = 0 ∧
      Morse.device_write (Morse.device_open Morse.init).1 "sos".toList
        = .ok (w, ("sos".toList.length : Int)) ∧
      w.pulse_len = ((encode "sos".toList).length : Int) ∧
      (Morse.device_release w).2 = 0 ∧
      (Morse.device_open (Morse.device_release w).1).2 = 0 ∧
      Morse.device_read (Morse.device_open (Morse.device_release w).1).1 8
        = .ok (r, "sos".toList, ("sos".toList.length : Int)) ∧
      r.tmrbusy = 1 ∧ r.pending = true ∧
      Morse.timerRun 30 r = .ok (e, ((encode "sos".toList).take 30).map levelOf) ∧
      e.tmrbusy = (if 30 < (encode "sos".toList).length then 1 else 0) ∧
      e.pending = decide (30 < (encode "sos".toList).length) :=
  morse_playback Morse.init "sos".toList 8 30 rfl rfl (List.length_replicate _ _)
    (List.length_replicate _ _) (by decide) (by decide) (by decide) (by decide)

/-! ## The summing server -/

theorem sumLoop_ok (libc : Libc) : ∀ (fuel : Nat) (s : List Char) (acc : Int)
    (toks : List Tok), tokLoop fuel s = some toks →
    (∀ n, n ≤ toks.length → libc.inRange (acc + ((toks.take n).map libc.strtol).sum)) →
    sumLoop libc fuel s acc = .ok (acc + (toks.map libc.strtol).sum) := by
  intro fuel
  induction fuel with
  | zero =>
    intro s acc toks h _
    simp [tokLoop] at h
  | succ fuel ih =>
    intro s acc toks h hr
    unfold tokLoop at h
    unfold sumLoop
    cases hs : strtok s with
    | none =>
      rw [hs] at h
      simp only [Option.some.injEq] at h
      subst h
      simp
    | some p =>
      obtain ⟨t, rest⟩ := p
      rw [hs] at h
      simp only [Option.map_eq_some'] at h
      obtain ⟨ts, hts, rfl⟩ := h
      have h1 : libc.inRange (acc + libc.strtol t) := by
        have := hr 1 (by simp)
        simpa using this
      simp only [Libc.add, h1, if_true]
      rw [ih rest (acc + libc.strtol t) ts hts]
      · simp [Int.add_assoc]
      · intro n hn
        have := hr (n + 1) (by simpa using hn)
        simpa [Int.add_assoc] using this

theorem strtol_values (libc : Libc) (r : List Char)
    (hvalid : ∀ t ∈ maximalRuns r, literalValue t = some (libc.strtol t)) :
    (maximalRuns r).map libc.strtol = requestValues r := by
  unfold requestValues
  apply List.map_congr_left
  intro t ht
  rw [hvalid t ht]
  rfl

theorem strtol_values_take (libc : Libc) (r : List Char) (n : Nat)
    (hvalid : ∀ t ∈ maximalRuns r, literalValue t = some (libc.strtol t)) :
    ((maximalRuns r).take n).map libc.strtol = (requestValues r).take n := by
  rw [← strtol_values libc r hvalid, List.map_take]

theorem my_thread_ok (libc : Libc) (st : SumServer) (r : List Char)
    (hvalid : ∀ t ∈ maximalRuns r, literalValue t = some (libc.strtol t))
    (hlocal : ∀ n, n ≤ (requestValues r).length →
      libc.inRange ((requestValues r).take n).sum)
    (hglobal : libc.inRange (st.global_sum + requestTotal r))
    (hcount : libc.inRange (st.client_count + 1)) :
    my_thread libc st r = .ok
      ({ client_count := st.client_count + 1, global_sum := st.global_sum + requestTotal r },
       { local_sum := requestTotal r, local_gbl_sum := st.global_sum + requestTotal r,
         local_c_count := st.client_count + 1 }) := by
  have hloop : sumLoop libc (r.length + 1) r 0 = .ok (requestTotal r) := by
    have := sumLoop_ok libc (r.length + 1) r 0 (maximalRuns r) (tokenize_eq_runs r)
      (by
        intro n hn
        rw [strtol_values_take libc r n hvalid, Int.zero_add]
        apply hlocal
        rw [← strtol_values libc r hvalid]
        simpa using hn)
    rw [this, strtol_values libc r hvalid, Int.zero_add]
    rfl
  unfold my_thread
  rw [hloop]
  simp only [Libc.add, hglobal, hcount, if_true]

theorem serve_ok (libc : Libc) : ∀ (requests : List (List Char)) (st : SumServer),
    (∀ r ∈ requests, ∀ t ∈ maximalRuns r, literalValue t = some (libc.strtol t)) →
    (∀ r ∈ requests, ∀ n, n ≤ (requestValues r).length →
      libc.inRange ((requestValues r).take n).sum) →
    (∀ n, n ≤ requests.length →
      libc.inRange (st.global_sum + ((requests.take n).map requestTotal).sum)) →
    (∀ n, n ≤ requests.length → libc.inRange (st.client_count + (n : Int))) →
    ∃ (st1 : SumServer) (replies : List Reply),
      serve libc st requests = .ok (st1, replies) ∧
      st1.client_count = st.client_count + (requests.length : Int) ∧
      st1.global_sum = st.global_sum + (requests.map requestTotal).sum ∧
      replies.length = requests.length ∧
      ∀ i, i < requests.length → replies[i]? = some
        { local_sum := requestTotal (requests.getD i [])
          local_gbl_sum := st.global_sum + ((requests.take (i + 1)).map requestTotal).sum
          local_c_count := st.client_count + ((i : Int) + 1) } := by
  intro requests
  induction requests with
  | nil =>
    intro st _ _ _ _
    exact ⟨st, [], rfl, by simp, by simp, rfl, by simp⟩
  | cons r rs ih =>
    intro st hvalid hlocal hglobal hcount
    have hg1 : libc.inRange (st.global_sum + requestTotal r) := by
      simpa using hglobal 1 (by simp)
    have hc1 : libc.inRange (st.client_count + 1) := by
      simpa using hcount 1 (by simp)
    have hthread := my_thread_ok libc st r (hvalid r (by simp)) (hlocal r (by simp)) hg1 hc1
    obtain ⟨st1, replies, hs, hcc, hgs, hlen, hrep⟩ := ih
      { client_count := st.client_count + 1, global_sum := st.global_sum + requestTotal r }
      (fun r1 h1 => hvalid r1 (by simp [h1]))
      (fun r1 h1 => hlocal r1 (by simp [h1]))
      (by
        intro n hn
        have := hglobal (n + 1) (by simpa using hn)
        simpa [Int.add_assoc] using this)
      (by
        intro n hn
        have := hcount (n + 1) (by simpa using hn)
        simp only [Nat.cast_add, Nat.cast_one] at this
        have e : st.client_count + 1 + (n : Int) = st.client_count + ((n : Int) + 1) := by
          omega
        simpa [e] using this)
    refine ⟨st1,
      { local_sum := requestTotal r, local_gbl_sum := st.global_sum + requestTotal r,
        local_c_count := st.client_count + 1 } :: replies, ?_, ?_, ?_, ?_, ?_⟩
    · unfold serve
      rw [hthread]
      simp only []
      rw [hs]
    · rw [hcc]
      simp only [List.length_cons, Nat.cast_add, Nat.cast_one]
      omega
    · rw [hgs]
      simp [Int.add_assoc]
    · simp [hlen]
    · intro i hi
      cases i with
      | zero => simp
      | succ j =>
        have hj : j < rs.length := by simpa using hi
        have := hrep j hj
        simp only [List.getElem?_cons_succ, this, List.getD_cons_succ, List.take_succ_cons,
          List.map_cons, List.sum_cons, Nat.cast_add, Nat.cast_one]
        simp only [Option.some.injEq, Reply.mk.injEq, true_and]
        constructor
        · omega
        · omega

/-- C19: the summing server. From the initial globals, for every sequence of requests
handled one at a time in which every token (a maximal substring without space, tab, CR
or LF) is a valid integer literal whose value `strtol` returns, and in which no
running sum within a request, no running grand total and no client count leaves the
range of a `long`: every request is answered; the total reported to a client is the
sum of the integers of its own request, the grand total reported to it is the sum of
the totals up to and including its own, and the count reported to it is its position
in the sequence; at the end `client_count` is the number of requests and `global_sum`
the sum of all per-client totals. -/
theorem summing_server (libc : Libc) (requests : List (List Char))
    (hvalid : ∀ r ∈ requests, ∀ t ∈ maximalRuns r, literalValue t = some (libc.strtol t))
    (hlocal : ∀ r ∈ requests, ∀ n, n ≤ (requestValues r).length →
      libc.inRange ((requestValues r).take n).sum)
    (hglobal : ∀ n, n ≤ requests.length →
      libc.inRange ((requests.take n).map requestTotal).sum)
    (hcount : ∀ n, n ≤ requests.length → libc.inRange (n : Int)) :
    ∃ (st : SumServer) (replies : List Reply),
      serve libc SumServer.init requests = .ok (st, replies) ∧
      st.client_count = (requests.length : Int) ∧
      st.global_sum = (requests.map requestTotal).sum ∧
      replies.length = requests.length ∧
      ∀ i, i < requests.length → replies[i]? = some
        { local_sum := requestTotal (requests.getD i [])
          local_gbl_sum := ((requests.take (i + 1)).map requestTotal).sum
          local_c_count := (i : Int) + 1 } := by
  obtain ⟨st, replies, hs, hcc, hgs, hlen, hrep⟩ :=
    serve_ok libc requests SumServer.init hvalid hlocal
      (by simpa [SumServer.init] using hglobal)
      (by simpa [SumServer.init] using hcount)
  refine ⟨st, replies, hs, ?_, ?_, hlen, ?_⟩
  · simpa [SumServer.init] using hcc
  · simpa [SumServer.init] using hgs
  · intro i hi
    simpa [SumServer.init] using hrep i hi

/-- Witness for C19: two requests, `1 2 3` and `0x10 -6`, served by a library with a
64-bit `long`. -/
theorem summing_server_witness :
    ∃ (st : SumServer) (replies : List Reply),
      serve Libc.sample SumServer.init sampleRequests = .ok (st, replies) ∧
      st.client_count = (sampleRequests.length : Int) ∧
      st.global_sum = (sampleRequests.map requestTotal).sum ∧
      replies.length = sampleRequests.length ∧
      ∀ i, i < sampleRequests.length → replies[i]? = some
        { local_sum := requestTotal (sampleRequests.getD i [])
          local_gbl_sum := ((sampleRequests.take (i + 1)).map requestTotal).sum
          local_c_count := (i : Int) + 1 } :=
  summing_server Libc.sample sampleRequests (by decide) (by decide) (by decide) (by decide)

theorem sample_requests_served :
    (serve Libc.sample SumServer.init sampleRequests).toOption
      = some ({ client_count := 2, global_sum := 16 },
              [{ local_sum := 6, local_gbl_sum := 6, local_c_count := 1 },
               { local_sum := 10, local_gbl_sum := 16, local_c_count := 2 }]) := by
  decide

/-! ## The children of the launchers -/

theorem forkedChildren_append (a b : List Act) :
    forkedChildren (a ++ b) = forkedChildren a ++ forkedChildren b := by
  simp [forkedChildren, List.filterMap_append]

theorem forkedChildren_andThen (r k : Run) :
    ∀ child ∈ forkedChildren (Run.andThen r k).trace,
      child ∈ forkedChildren r.trace ∨ child ∈ forkedChildren k.trace := by
  intro child h
  unfold Run.andThen at h
  cases hr : r.out with
  | returned =>
    rw [hr] at h
    simp only [forkedChildren_append, List.mem_append] at h
    exact h
  | exited c =>
    rw [hr] at h
    exact Or.inl h
  | fault f =>
    rw [hr] at h
    exact Or.inl h

theorem forkedChildren_bsh_pipeLoop (env : Env) : ∀ (m i : Nat),
    forkedChildren (Bsh.pipeLoop env i m).trace = [] := by
  intro m
  induction m with
  | zero => intro i; rfl
  | succ m ih =>
    intro i
    unfold Bsh.pipeLoop
    split
    · simpa [forkedChildren] using ih (i + 1)
    · rfl

theorem forkedChildren_server_pipeLoop (env : Env) : ∀ (m i : Nat),
    forkedChildren (Server.pipeLoop env i m).trace = [] := by
  intro m
  induction m with
  | zero => intro i; rfl
  | succ m ih =>
    intro i
    unfold Server.pipeLoop
    split
    · simpa [forkedChildren] using ih (i + 1)
    · rfl

theorem forkedChildren_bsh_forkLoop (env : Env) (cmds : List (List (Option Tok)))
    (n : Nat) : ∀ (m i : Nat), ∀ child ∈ forkedChildren (Bsh.forkLoop env cmds n i m).trace,
      ∃ j, i ≤ j ∧ j < i + m ∧ child = Bsh.stage cmds n j := by
  intro m
  induction m with
  | zero =>
    intro i child h
    simp [Bsh.forkLoop, forkedChildren] at h
  | succ m ih =>
    intro i child h
    unfold Bsh.forkLoop at h
    split at h
    · simp only [forkedChildren, List.filterMap_cons, List.mem_cons] at h
      rcases h with h | h
      · exact ⟨i, Nat.le_refl _, by omega, h⟩
      · obtain ⟨j, h1, h2, h3⟩ := ih (i + 1) child h
        exact ⟨j, by omega, by omega, h3⟩
    · simp [forkedChildren] at h

theorem forkedChildren_server_forkLoop (env : Env) (cmds : List (List (Option Tok)))
    (n : Nat) : ∀ (m i : Nat),
    ∀ child ∈ forkedChildren (Server.forkLoop env cmds n i m).trace,
      ∃ j, i ≤ j ∧ j < i + m ∧ child = Server.stage cmds n j := by
  intro m
  induction m with
  | zero =>
    intro i child h
    simp [Server.forkLoop, forkedChildren] at h
  | succ m ih =>
    intro i child h
    unfold Server.forkLoop at h
    split at h
    · simp only [forkedChildren, List.filterMap_cons, List.mem_cons] at h
      rcases h with h | h
      · exact ⟨i, Nat.le_refl _, by omega, h⟩
      · obtain ⟨j, h1, h2, h3⟩ := ih (i + 1) child h
        exact ⟨j, by omega, by omega, h3⟩
    · simp [forkedChildren, Server.error] at h

theorem forkedChildren_parent_tail (n : Nat) :
    forkedChildren (parentCloses n ++ parentWaits n) = [] := by
  simp only [forkedChildren, List.filterMap_eq_nil_iff]
  intro a ha
  simp only [List.mem_append, parentCloses, parentWaits, List.mem_map, List.mem_replicate] at ha
  rcases ha with ⟨j, _, rfl⟩ | ⟨_, rfl⟩ <;> rfl

theorem forkedChildren_bsh_multi_pipe (env : Env) (cmds : List (List (Option Tok)))
    (n : Nat) (bgs : List Nat) :
    ∀ child ∈ forkedChildren (Bsh.multi_pipe env cmds n bgs).trace,
      ∃ j, j ≤ n ∧ child = Bsh.stage cmds n j := by
  intro child h
  unfold Bsh.multi_pipe at h
  rcases forkedChildren_andThen _ _ child h with h | h
  · rcases forkedChildren_andThen _ _ child h with h | h
    · rw [forkedChildren_bsh_pipeLoop] at h
      simp at h
    · obtain ⟨j, _, h2, h3⟩ := forkedChildren_bsh_forkLoop env cmds n (n + 1) 0 child h
      exact ⟨j, by omega, h3⟩
  · rw [forkedChildren_parent_tail] at h
    simp at h

theorem forkedChildren_server_multi_pipe (env : Env) (cmds : List (List (Option Tok)))
    (n : Nat) (bgs : List Nat) :
    ∀ child ∈ forkedChildren (Server.multi_pipe env cmds n bgs).trace,
      ∃ j, j ≤ n ∧ child = Server.stage cmds n j := by
  intro child h
  unfold Server.multi_pipe at h
  rcases forkedChildren_andThen _ _ child h with h | h
  · rcases forkedChildren_andThen _ _ child h with h | h
    · rw [forkedChildren_server_pipeLoop] at h
      simp at h
    · obtain ⟨j, _, h2, h3⟩ := forkedChildren_server_forkLoop env cmds n (n + 1) 0 child h
      exact ⟨j, by omega, h3⟩
  · rw [forkedChildren_parent_tail] at h
    simp at h

theorem forkedChildren_bsh_runcmd (env : Env) (cmd : List (Option Tok)) :
    ∀ child ∈ forkedChildren (Bsh.runcmd env cmd).trace,
      child = restoreSignals ++ execTail cmd := by
  intro child h
  unfold Bsh.runcmd at h
  split at h <;> simp [forkedChildren] at h
  exact h

theorem forkedChildren_bsh_redirect (env : Env) (cmd : List (Option Tok))
    (file : Option Tok) (std_ioe append bg : Nat) :
    ∀ child ∈ forkedChildren (Bsh.redirect env cmd file std_ioe append bg).trace,
      child = restoreSignals ++ redirectDups std_ioe ++ [ChildAct.close Fd.opened]
        ++ execTail cmd := by
  intro child h
  have ho : forkedChildren [redirectOpen file std_ioe append] = [] := by
    unfold redirectOpen
    split_ifs <;> rfl
  unfold Bsh.redirect at h
  split at h
  · rw [show ∀ (a b c : Act), [a, b, c] = [a] ++ [b, c] from fun _ _ _ => rfl,
      forkedChildren_append, ho] at h
    simpa [forkedChildren] using h
  · rw [show ∀ (a b c d : Act), [a, b, c, d] = [a] ++ [b, c, d] from fun _ _ _ _ => rfl,
      forkedChildren_append, ho] at h
    simp [forkedChildren] at h

theorem forkedChildren_server_runcmd (env : Env) (cmd : List (Option Tok)) :
    ∀ child ∈ forkedChildren (Server.runcmd env cmd).trace,
      child = Server.execTail cmd := by
  intro child h
  unfold Server.runcmd at h
  split at h <;> simp [forkedChildren, Server.error] at h
  exact h

theorem forkedChildren_server_redirect (env : Env) (cmd : List (Option Tok))
    (file : Option Tok) (std_ioe append bg : Nat) :
    ∀ child ∈ forkedChildren (Server.redirect env cmd file std_ioe append bg).trace,
      child = redirectDups std_ioe ++ [ChildAct.close Fd.opened] ++ Server.execTail cmd := by
  intro child h
  have ho : forkedChildren [redirectOpen file std_ioe append] = [] := by
    unfold redirectOpen
    split_ifs <;> rfl
  unfold Server.redirect at h
  split at h
  · rw [show ∀ (a b c : Act), [a, b, c] = [a] ++ [b, c] from fun _ _ _ => rfl,
      forkedChildren_append, ho] at h
    simpa [forkedChildren] using h
  · rw [show ∀ (a : Act) (l : List Act), a :: l = [a] ++ l from fun _ _ => rfl,
      forkedChildren_append, ho] at h
    simp [forkedChildren, Server.error] at h

theorem restoreSignals_eq : restoreSignals = ignoredAtStartup.map ChildAct.signalDfl := rfl

theorem signals_first (rest : List ChildAct) (k : Nat) (a : ChildAct)
    (h : (restoreSignals ++ rest)[k]? = some a) (hd : isDupOrExec a = true) :
    ignoredAtStartup.length ≤ k := by
  by_contra hk
  have hk6 : k < restoreSignals.length := by
    have : restoreSignals.length = ignoredAtStartup.length := rfl
    omega
  rw [List.getElem?_append_left hk6] at h
  have hm : a ∈ restoreSignals := List.mem_iff_getElem?.mpr ⟨k, h⟩
  have : ∀ b ∈ restoreSignals, isDupOrExec b = false := by decide
  rw [this a hm] at hd
  exact Bool.false_ne_true hd

/-- C22: in the interactive shell, for every result of `fork` and `pipe`, every child
forked by `runcmd`, `redirect` and `multi_pipe` starts with the six calls
`signal (s, SIG_DFL)` for the signals INT, QUIT, TSTP, TTIN, TTOU and CHLD, in this
order: every `dup2` and the `execvp` of the child come after all six. The six are
exactly the signals that the shell sets to ignored at startup, each of them once, and
there is no other signal among those the shell handles. -/
theorem shell_children_restore_signals (env : Env) (cmd : List (Option Tok))
    (file : Option Tok) (std_ioe append bg : Nat) (cmds : List (List (Option Tok)))
    (n : Nat) (bgs : List Nat) :
    (∀ r ∈ Bsh.launcherRuns env cmd file std_ioe append bg cmds n bgs,
      ∀ child ∈ forkedChildren r.trace,
        (∃ rest, child = ignoredAtStartup.map ChildAct.signalDfl ++ rest) ∧
        ∀ k a, child[k]? = some a → isDupOrExec a = true → ignoredAtStartup.length ≤ k) ∧
    ignoredAtStartup = [.SIGINT, .SIGQUIT, .SIGTSTP, .SIGTTIN, .SIGTTOU, .SIGCHLD] ∧
    ignoredAtStartup.Nodup ∧ (∀ s : Sig, s ∈ ignoredAtStartup) ∧
    restoreSignals = ignoredAtStartup.map ChildAct.signalDfl := by
  refine ⟨?_, rfl, by decide, ?_, rfl⟩
  · intro r hr child hc
    have key : ∃ rest, child = restoreSignals ++ rest := by
      simp only [Bsh.launcherRuns, List.mem_cons, List.mem_singleton, List.not_mem_nil,
        or_false] at hr
      rcases hr with rfl | rfl | rfl
      · exact ⟨_, forkedChildren_bsh_runcmd env cmd child hc⟩
      · refine ⟨redirectDups std_ioe ++ [ChildAct.close Fd.opened] ++ execTail cmd, ?_⟩
        rw [forkedChildren_bsh_redirect env cmd file std_ioe append bg child hc]
        simp only [List.append_assoc]
      · obtain ⟨j, _, hj⟩ := forkedChildren_bsh_multi_pipe env cmds n bgs child hc
        refine ⟨stageDups n j ++ childCloses n ++ execTail (cmds.getD j []), ?_⟩
        rw [hj, Bsh.stage]
        simp only [List.append_assoc]
    obtain ⟨rest, rfl⟩ := key
    exact ⟨⟨rest, rfl⟩, fun k a h hd => signals_first rest k a h hd⟩
  · intro s
    cases s <;> decide

theorem childEnd_append (pre tail : List ChildAct)
    (h : ∀ a ∈ pre, isExecOrAfter a = false) : childEnd (pre ++ tail) = childEnd tail := by
  induction pre with
  | nil => rfl
  | cons a pre ih =>
    have ha := h a (by simp)
    have ih1 := ih (fun b hb => h b (by simp [hb]))
    cases a <;> simp_all [childEnd, isExecOrAfter]

theorem not_execOrAfter_restoreSignals : ∀ a ∈ restoreSignals, isExecOrAfter a = false := by
  decide

theorem not_execOrAfter_redirectDups (std_ioe : Nat) :
    ∀ a ∈ redirectDups std_ioe ++ [ChildAct.close Fd.opened], isExecOrAfter a = false := by
  intro a ha
  unfold redirectDups at ha
  split_ifs at ha <;> simp at ha <;> rcases ha with rfl | rfl | rfl <;> rfl

theorem not_execOrAfter_stageDups (n i : Nat) :
    ∀ a ∈ stageDups n i ++ childCloses n, isExecOrAfter a = false := by
  intro a ha
  simp only [List.mem_append] at ha
  rcases ha with ha | ha
  · rw [← dupsOf_stageDups] at ha
    unfold dupsOf at ha
    have := (List.mem_filter.mp ha).2
    cases a <;> simp_all [isExecOrAfter]
  · simp only [childCloses, List.mem_map] at ha
    obtain ⟨j, _, rfl⟩ := ha
    rfl

/-- C23: in every launcher of both front ends, for every result of `fork` and `pipe`,
the calls of every forked child end with `execvp`, `perror ("execvp")`, `exit (1)`,
in the service through `error ("execvp")`: if `execvp` returns, the child reports the
error and terminates with status 1. Nothing follows the `exit`, no call before the
`execvp` is an `exit`, and the code of the child ends at this `exit` and not by
falling through to the code of the launcher, so a child of `multi_pipe` neither
continues the fork loop nor reaches the parent's close and wait loops nor returns. -/
theorem exec_failure_ends_child (env : Env) (cmd : List (Option Tok))
    (file : Option Tok) (std_ioe append bg : Nat) (cmds : List (List (Option Tok)))
    (n : Nat) (bgs : List Nat) :
    ∀ r ∈ Bsh.launcherRuns env cmd file std_ioe append bg cmds n bgs
        ++ Server.launcherRuns env cmd file std_ioe append bg cmds n bgs,
      ∀ child ∈ forkedChildren r.trace,
        (∃ pre f argv, child = pre ++ [.execvp f argv, .perror "execvp", .exit 1] ∧
          ∀ a ∈ pre, isExecOrAfter a = false) ∧
        childEnd child = .exited 1 := by
  intro r hr child hc
  have key : ∃ pre f argv, child = pre ++ [.execvp f argv, .perror "execvp", .exit 1] ∧
      ∀ a ∈ pre, isExecOrAfter a = false := by
    simp only [Bsh.launcherRuns, Server.launcherRuns, List.mem_append, List.mem_cons,
      List.mem_singleton, List.not_mem_nil, or_false] at hr
    rcases hr with (rfl | rfl | rfl) | (rfl | rfl | rfl)
    · exact ⟨restoreSignals, cmd.head?.join, argvOf cmd,
        forkedChildren_bsh_runcmd env cmd child hc, not_execOrAfter_restoreSignals⟩
    · refine ⟨restoreSignals ++ (redirectDups std_ioe ++ [ChildAct.close Fd.opened]),
        cmd.head?.join, argvOf cmd, ?_, ?_⟩
      · rw [forkedChildren_bsh_redirect env cmd file std_ioe append bg child hc]
        simp only [List.append_assoc, execTail]
      · intro a ha
        rcases List.mem_append.mp ha with h | h
        · exact not_execOrAfter_restoreSignals a h
        · exact not_execOrAfter_redirectDups std_ioe a h
    · obtain ⟨j, _, hj⟩ := forkedChildren_bsh_multi_pipe env cmds n bgs child hc
      refine ⟨restoreSignals ++ (stageDups n j ++ childCloses n),
        (cmds.getD j []).head?.join, argvOf (cmds.getD j []), ?_, ?_⟩
      · rw [hj, Bsh.stage]
        simp only [List.append_assoc, execTail]
      · intro a ha
        rcases List.mem_append.mp ha with h | h
        · exact not_execOrAfter_restoreSignals a h
        · exact not_execOrAfter_stageDups n j a h
    · exact ⟨[], cmd.head?.join, argvOf cmd,
        forkedChildren_server_runcmd env cmd child hc, by simp⟩
    · refine ⟨redirectDups std_ioe ++ [ChildAct.close Fd.opened],
        cmd.head?.join, argvOf cmd, ?_, ?_⟩
      · rw [forkedChildren_server_redirect env cmd file std_ioe append bg child hc]
        rfl
      · exact not_execOrAfter_redirectDups std_ioe
    · obtain ⟨j, _, hj⟩ := forkedChildren_server_multi_pipe env cmds n bgs child hc
      refine ⟨stageDups n j ++ childCloses n,
        (cmds.getD j []).head?.join, argvOf (cmds.getD j []), ?_, ?_⟩
      · rw [hj, Server.stage]
        rfl
      · exact not_execOrAfter_stageDups n j
  refine ⟨key, ?_⟩
  obtain ⟨pre, f, argv, rfl, hpre⟩ := key
  rw [childEnd_append pre _ hpre]
  rfl

/-- Witness for C23: the second child of `ls | wc` in the interactive shell. -/
theorem exec_failure_ends_child_witness :
    (∃ pre f argv,
      Bsh.stage lsWcTable 1 1 = pre ++ [.execvp f argv, .perror "execvp", .exit 1] ∧
      ∀ a ∈ pre, isExecOrAfter a = false) ∧
    childEnd (Bsh.stage lsWcTable 1 1) = .exited 1 :=
  exec_failure_ends_child (Env.allOk 3) (rowOf ["ls".toList]) none 1 0 0 lsWcTable 1 []
    (Bsh.multi_pipe (Env.allOk 3) lsWcTable 1 []) (by decide)
    (Bsh.stage lsWcTable 1 1) (by decide)

/-! ## Descriptor cleanup in `multi_pipe` -/

theorem closes_fold (m : Nat) : ∀ (tbl : List (Desc × Nat)),
    ((List.range m).map (fun j => ChildAct.close (.pipes j))).foldl fdStep tbl
      = tbl.filter (fun p => notSlotBelow m p.1) := by
  induction m with
  | zero =>
    intro tbl
    simp only [List.range_zero, List.map_nil, List.foldl_nil]
    symm
    rw [List.filter_eq_self]
    intro p _
    cases p.1 <;> simp [notSlotBelow]
  | succ m ih =>
    intro tbl
    rw [List.range_succ, List.map_append, List.foldl_append, ih]
    simp only [List.map_cons, List.map_nil, List.foldl_cons, List.foldl_nil, fdStep,
      List.filter_filter]
    apply List.filter_congr
    intro p _
    cases hp : p.1 with
    | slot j =>
      simp only [notSlotBelow, ne_eq, Desc.slot.injEq]
      by_cases h1 : j = m
      · subst h1; simp
      · have : (m + 1 ≤ j) ↔ (m ≤ j) := by omega
        simp [h1, this]
    | std d => simp [notSlotBelow]

theorem heldAtExec_append (pre rest : List ChildAct)
    (h : ∀ a ∈ pre, isCloseOrExec a = false ∨ ∃ fd, a = ChildAct.close fd) :
    ∀ tbl, heldAtExec tbl (pre ++ rest) = heldAtExec (pre.foldl fdStep tbl) rest := by
  induction pre with
  | nil => intro tbl; rfl
  | cons a pre ih =>
    intro tbl
    have ha := h a (by simp)
    have ih1 := ih (fun b hb => h b (by simp [hb]))
    cases a with
    | execvp f argv =>
      rcases ha with ha | ⟨fd, ha⟩
      · simp [isCloseOrExec] at ha
      · cases ha
    | signalDfl s => exact ih1 _
    | dup2 src dst => exact ih1 _
    | close fd => exact ih1 _
    | perror msg => exact ih1 _
    | exit code => exact ih1 _

theorem lookup_fdTableAtFork (n j : Nat) (h : j < n * 2) :
    (fdTableAtFork n).lookup (Desc.slot j) = some j := by
  unfold fdTableAtFork
  generalize n * 2 = m at h
  induction m with
  | zero => omega
  | succ m ih =>
    rw [List.range_succ, List.map_append, List.lookup_append]
    by_cases hj : j < m
    · rw [ih hj]
      rfl
    · have hjm : j = m := by omega
      subst hjm
      have hnone : ((List.range j).map (fun k => (Desc.slot k, k))).lookup (Desc.slot j)
          = none := by
        rw [List.lookup_eq_none_iff]
        intro p hp
        simp only [List.mem_map, List.mem_range] at hp
        obtain ⟨k, hk, rfl⟩ := hp
        simp
        omega
      rw [hnone]
      simp [List.lookup]

theorem fdTableAtFork_no_std (n d : Nat) :
    (fdTableAtFork n).filter (fun p => p.1 ≠ Desc.std d) = fdTableAtFork n := by
  rw [List.filter_eq_self]
  intro p hp
  simp only [fdTableAtFork, List.mem_map] at hp
  obtain ⟨k, _, rfl⟩ := hp
  simp

theorem fdTableAtFork_all_closed (n : Nat) :
    (fdTableAtFork n).filter (fun p => notSlotBelow (n * 2) p.1) = [] := by
  rw [List.filter_eq_nil_iff]
  intro p hp
  simp only [fdTableAtFork, List.mem_map, List.mem_range] at hp
  obtain ⟨k, hk, rfl⟩ := hp
  simp [notSlotBelow]
  omega

theorem stageDups_fold (n i : Nat) (hi : i ≤ n) :
    (stageDups n i).foldl fdStep (fdTableAtFork n) = stageEnds n i ++ fdTableAtFork n := by
  unfold stageDups stageEnds
  by_cases h0 : i = 0 <;> by_cases hn : i = n
  · simp [h0, hn]
    subst h0
    simp [← hn]
  · subst h0
    have hn1 : ¬ (0 = n) := hn
    simp only [ne_eq, hn1, not_false_eq_true, if_true, not_true_eq_false, if_false,
      List.append_nil, List.nil_append, List.foldl_cons, List.foldl_nil, fdStep]
    rw [lookup_fdTableAtFork n (0 * 2 + 1) (by omega)]
    simp only [fdTableAtFork_no_std]
    rfl
  · subst hn
    simp only [ne_eq, h0, not_false_eq_true, if_true, not_true_eq_false, if_false,
      List.append_nil, List.nil_append, List.foldl_cons, List.foldl_nil, fdStep]
    rw [lookup_fdTableAtFork i (i * 2 - 2) (by omega)]
    simp only [fdTableAtFork_no_std]
    rfl
  · simp only [ne_eq, h0, hn, not_false_eq_true, if_true, List.foldl_cons, List.foldl_nil,
      List.cons_append, List.nil_append, fdStep]
    rw [lookup_fdTableAtFork n (i * 2 + 1) (by omega)]
    simp only [fdTableAtFork_no_std]
    have hl : ((Desc.std 1, i * 2 + 1) :: fdTableAtFork n).lookup (Desc.slot (i * 2 - 2))
        = some (i * 2 - 2) := by
      have hne : (Desc.slot (i * 2 - 2) == Desc.std 1) = false := by simp
      rw [List.lookup_cons, hne]
      exact lookup_fdTableAtFork n (i * 2 - 2) (by omega)
    rw [hl]
    have hf : ((Desc.std 1, i * 2 + 1) :: fdTableAtFork n).filter
        (fun p => p.1 ≠ Desc.std 0) = (Desc.std 1, i * 2 + 1) :: fdTableAtFork n := by
      rw [List.filter_cons]
      have h1 : decide ((Desc.std 1, i * 2 + 1).1 ≠ Desc.std 0) = true := by simp
      rw [h1, if_pos rfl, fdTableAtFork_no_std]
    simp only [hf]

theorem heldAtExec_stage (n i : Nat) (hi : i ≤ n) (tail : List ChildAct)
    (file : Option Tok) (argv : List Tok) :
    heldAtExec (fdTableAtFork n)
      (restoreSignals ++ stageDups n i ++ childCloses n ++ .execvp file argv :: tail)
      = stageEnds n i ∧
    heldAtExec (fdTableAtFork n)
      (stageDups n i ++ childCloses n ++ .execvp file argv :: tail) = stageEnds n i := by
  have hdup : ∀ a ∈ stageDups n i, isCloseOrExec a = false ∨ ∃ fd, a = ChildAct.close fd := by
    intro a ha
    rw [← dupsOf_stageDups] at ha
    have := (List.mem_filter.mp ha).2
    cases a <;> simp_all [isCloseOrExec]
  have hcl : ∀ a ∈ childCloses n, isCloseOrExec a = false ∨ ∃ fd, a = ChildAct.close fd := by
    intro a ha
    simp only [childCloses, List.mem_map] at ha
    obtain ⟨j, _, rfl⟩ := ha
    exact Or.inr ⟨_, rfl⟩
  have hsig : ∀ a ∈ restoreSignals,
      isCloseOrExec a = false ∨ ∃ fd, a = ChildAct.close fd := by
    intro a ha
    have : ∀ b ∈ restoreSignals, isCloseOrExec b = false := by decide
    exact Or.inl (this a ha)
  have hends : (stageEnds n i ++ fdTableAtFork n).filter (fun p => notSlotBelow (n * 2) p.1)
      = stageEnds n i := by
    rw [List.filter_append, fdTableAtFork_all_closed, List.append_nil, List.filter_eq_self]
    intro p hp
    unfold stageEnds at hp
    simp only [List.mem_append] at hp
    rcases hp with hp | hp <;> split_ifs at hp <;> simp at hp <;> subst hp <;> rfl
  have core : heldAtExec (fdTableAtFork n)
      (stageDups n i ++ childCloses n ++ .execvp file argv :: tail) = stageEnds n i := by
    rw [List.append_assoc, heldAtExec_append _ _ hdup, heldAtExec_append _ _ hcl,
      stageDups_fold n i hi]
    unfold childCloses
    rw [closes_fold, hends]
    rfl
  refine ⟨?_, core⟩
  rw [List.append_assoc, List.append_assoc, heldAtExec_append _ _ hsig]
  have : restoreSignals.foldl fdStep (fdTableAtFork n) = fdTableAtFork n := rfl
  rw [this, ← List.append_assoc]
  exact core

theorem count_range_map {α : Type} [DecidableEq α] (f : Nat → α)
    (hf : Function.Injective f) (m j : Nat) (h : j < m) :
    ((List.range m).map f).count (f j) = 1 := by
  apply List.count_eq_one_of_mem
  · exact (List.nodup_range m).map hf
  · exact List.mem_map.mpr ⟨j, List.mem_range.mpr h, rfl⟩

theorem server_pipeLoop_ok (env : Env) (hp : ∀ i, env.pipeOk i = true) :
    ∀ (m i : Nat), Server.pipeLoop env i m
      = { trace := (List.range' i m).map (fun j => Act.pipe (j * 2)), out := .returned }
  | 0, i => by simp [Server.pipeLoop]
  | m + 1, i => by
    simp [Server.pipeLoop, hp i, server_pipeLoop_ok env hp m (i + 1), List.range'_succ]

theorem server_forkLoop_ok (env : Env) (cmds : List (List (Option Tok))) (n : Nat)
    (hf : ∀ i, env.forkOk i = true) :
    ∀ (m i : Nat), Server.forkLoop env cmds n i m
      = { trace := (List.range' i m).map (fun j => Act.fork (Server.stage cmds n j)),
          out := .returned }
  | 0, i => by simp [Server.forkLoop]
  | m + 1, i => by
    simp [Server.forkLoop, hf i, server_forkLoop_ok env cmds n hf m (i + 1), List.range'_succ]

theorem server_multi_pipe_ok (env : Env) (cmds : List (List (Option Tok))) (n : Nat)
    (bg : List Nat) (hp : ∀ i, env.pipeOk i = true) (hf : ∀ i, env.forkOk i = true) :
    Server.multi_pipe env cmds n bg
      = { trace := pipeCalls n ++
            ((List.range (n + 1)).map (fun i => Server.stage cmds n i)).map Act.fork ++
            (parentCloses n ++ parentWaits n),
          out := .returned } := by
  unfold Server.multi_pipe
  rw [server_pipeLoop_ok env hp, server_forkLoop_ok env cmds n hf]
  simp [Run.andThen, pipeCalls, List.range_eq_range']

theorem before_closes_props (n : Nat) (children : List (List ChildAct))
    (h : children.length = n + 1) :
    (∀ a ∈ pipeCalls n ++ children.map Act.fork, isCloseOrWait a = false) ∧
    countForks (pipeCalls n ++ children.map Act.fork) = n + 1 ∧
    countPipes (pipeCalls n ++ children.map Act.fork) = n ∧
    forkedChildren (pipeCalls n ++ children.map Act.fork) = children := by
  refine ⟨?_, ?_, ?_, ?_⟩
  · intro a ha
    simp only [List.mem_append, pipeCalls, List.mem_map] at ha
    rcases ha with ⟨j, _, rfl⟩ | ⟨c, _, rfl⟩ <;> rfl
  · rw [countForks_append, (counts_pipeCalls n).2.1, (counts_forks children).2.1, h]
    omega
  · rw [countPipes_append, (counts_pipeCalls n).1, (counts_forks children).1]
    omega
  · have hp : forkedChildren (pipeCalls n) = [] := by
      simp only [forkedChildren, List.filterMap_eq_nil_iff]
      intro a ha
      simp only [pipeCalls, List.mem_map] at ha
      obtain ⟨j, _, rfl⟩ := ha
      rfl
    have hc : ∀ cs : List (List ChildAct), forkedChildren (cs.map Act.fork) = cs := by
      intro cs
      induction cs with
      | nil => rfl
      | cons c cs ih =>
        simp only [List.map_cons, forkedChildren, List.filterMap_cons] at ih ⊢
        rw [ih]
    rw [forkedChildren_append, hp, hc]
    rfl

/-- C21: descriptor cleanup in `multi_pipe` called with `n` pipes, in both front ends.
Every one of the `n + 1` children consists of a part without `close` that holds all
its `dup2` calls, then `close (pipes[j])` for `j` from 0 to `2n - 1`, each once, then
`execvp`, with no `close` after it; with the descriptor numbers in `pipes` distinct
from one another and from 0 and 1, the child holds at `execvp` no pipe end except
the read end of pipe `i - 1` as descriptor 0 (if `i > 0`) and the write end of pipe
`i` as descriptor 1 (if `i < n`). When every `pipe` and `fork` succeeds, the calls of
the parent are a part without `close` and `wait` that holds its `n` `pipe` calls and
its `n + 1` forks, of the stages 0 to `n` in this order, then `close (pipes[j])` for
`j` from 0 to `2n - 1`, each once, then the `n + 1` waits and nothing else. -/
theorem pipe_descriptor_cleanup (env : Env) (cmds : List (List (Option Tok))) (n : Nat)
    (bgs : List Nat) (hp : ∀ i, env.pipeOk i = true) (hf : ∀ i, env.forkOk i = true) :
    (∀ i, i ≤ n → ∀ child ∈ [Bsh.stage cmds n i, Server.stage cmds n i],
      (∃ pre tail file argv,
        child = pre ++ childCloses n ++ ChildAct.execvp file argv :: tail ∧
        (∀ a ∈ pre, isCloseOrExec a = false) ∧ dupsOf child = dupsOf pre ∧
        (∀ a ∈ tail, isCloseOrExec a = false)) ∧
      heldAtExec (fdTableAtFork n) child = stageEnds n i) ∧
    (childCloses n).length = n * 2 ∧
    (∀ j, j < n * 2 → (childCloses n).count (ChildAct.close (Fd.pipes j)) = 1) ∧
    (∀ p ∈ [(Bsh.multi_pipe env cmds n bgs, Bsh.stage cmds n),
            (Server.multi_pipe env cmds n bgs, Server.stage cmds n)],
      ∃ before, p.1.trace = before ++ parentCloses n ++ parentWaits n ∧
        (∀ a ∈ before, isCloseOrWait a = false) ∧
        countPipes before = n ∧ countForks before = n + 1 ∧
        forkedChildren before = (List.range (n + 1)).map p.2) ∧
    (parentCloses n).length = n * 2 ∧
    (∀ j, j < n * 2 → (parentCloses n).count (Act.close (Fd.pipes j)) = 1) ∧
    (∀ a ∈ parentCloses n, ∃ j, a = Act.close (Fd.pipes j)) ∧
    parentWaits n = List.replicate (n + 1) Act.wait := by
  refine ⟨?_, by simp [childCloses], ?_, ?_, by simp [parentCloses], ?_, ?_, rfl⟩
  · intro i hi child hc
    have hpre : ∀ a ∈ restoreSignals ++ stageDups n i, isCloseOrExec a = false := by
      intro a ha
      rcases List.mem_append.mp ha with h | h
      · have : ∀ b ∈ restoreSignals, isCloseOrExec b = false := by decide
        exact this a h
      · rw [← dupsOf_stageDups] at h
        have := (List.mem_filter.mp h).2
        cases a <;> simp_all [isCloseOrExec]
    have htail : ∀ a ∈ [ChildAct.perror "execvp", ChildAct.exit 1],
        isCloseOrExec a = false := by decide
    have hd0 : dupsOf (ChildAct.execvp ((cmds.getD i []).head?.join) (argvOf (cmds.getD i []))
        :: [ChildAct.perror "execvp", ChildAct.exit 1]) = [] := rfl
    simp only [List.mem_cons, List.mem_singleton, List.not_mem_nil, or_false] at hc
    rcases hc with rfl | rfl
    · refine ⟨⟨restoreSignals ++ stageDups n i, [ChildAct.perror "execvp", ChildAct.exit 1],
        (cmds.getD i []).head?.join, argvOf (cmds.getD i []), rfl, hpre, ?_, htail⟩, ?_⟩
      · unfold Bsh.stage execTail
        rw [dupsOf_append, dupsOf_append, dupsOf_childCloses, hd0]
        simp
      · exact (heldAtExec_stage n i hi _ _ _).1
    · refine ⟨⟨stageDups n i, [ChildAct.perror "execvp", ChildAct.exit 1],
        (cmds.getD i []).head?.join, argvOf (cmds.getD i []), rfl,
        fun a ha => hpre a (List.mem_append_right _ ha), ?_, htail⟩, ?_⟩
      · unfold Server.stage Server.execTail Server.childError
        rw [dupsOf_append, dupsOf_append, dupsOf_childCloses, hd0]
        simp
      · exact (heldAtExec_stage n i hi _ _ _).2
  · intro j hj
    exact count_range_map (fun j => ChildAct.close (Fd.pipes j))
      (fun a b h => by simpa using h) (n * 2) j hj
  · intro p hr
    simp only [List.mem_cons, List.mem_singleton, List.not_mem_nil, or_false] at hr
    rcases hr with rfl | rfl
    · simp only []
      rw [multi_pipe_ok env cmds n bgs hp hf]
      obtain ⟨h1, h2, h3, h4⟩ := before_closes_props n
        ((List.range (n + 1)).map (fun i => Bsh.stage cmds n i)) (by simp)
      exact ⟨_, by simp only [List.append_assoc], h1, h3, h2, h4⟩
    · simp only []
      rw [server_multi_pipe_ok env cmds n bgs hp hf]
      obtain ⟨h1, h2, h3, h4⟩ := before_closes_props n
        ((List.range (n + 1)).map (fun i => Server.stage cmds n i)) (by simp)
      exact ⟨_, by simp only [List.append_assoc], h1, h3, h2, h4⟩
  · intro j hj
    exact count_range_map (fun j => Act.close (Fd.pipes j))
      (fun a b h => by simpa using h) (n * 2) j hj
  · intro a ha
    simp only [parentCloses, List.mem_map] at ha
    obtain ⟨j, _, rfl⟩ := ha
    exact ⟨j, rfl⟩

/-- Witness for C21: the two stages of `ls | wc`, one pipe. -/
theorem pipe_descriptor_cleanup_witness :
    (∀ i, i ≤ 1 → ∀ child ∈ [Bsh.stage lsWcTable 1 i, Server.stage lsWcTable 1 i],
      (∃ pre tail file argv,
        child = pre ++ childCloses 1 ++ ChildAct.execvp file argv :: tail ∧
        (∀ a ∈ pre, isCloseOrExec a = false) ∧ dupsOf child = dupsOf pre ∧
        (∀ a ∈ tail, isCloseOrExec a = false)) ∧
      heldAtExec (fdTableAtFork 1) child = stageEnds 1 i) ∧
    (childCloses 1).length = 1 * 2 ∧
    (∀ j, j < 1 * 2 → (childCloses 1).count (ChildAct.close (Fd.pipes j)) = 1) ∧
    (∀ p ∈ [(Bsh.multi_pipe (Env.allOk 3) lsWcTable 1 [], Bsh.stage lsWcTable 1),
            (Server.multi_pipe (Env.allOk 3) lsWcTable 1 [], Server.stage lsWcTable 1)],
      ∃ before, p.1.trace = before ++ parentCloses 1 ++ parentWaits 1 ∧
        (∀ a ∈ before, isCloseOrWait a = false) ∧
        countPipes before = 1 ∧ countForks before = 1 + 1 ∧
        forkedChildren before = (List.range (1 + 1)).map p.2) ∧
    (parentCloses 1).length = 1 * 2 ∧
    (∀ j, j < 1 * 2 → (parentCloses 1).count (Act.close (Fd.pipes j)) = 1) ∧
    (∀ a ∈ parentCloses 1, ∃ j, a = Act.close (Fd.pipes j)) ∧
    parentWaits 1 = List.replicate (1 + 1) Act.wait :=
  pipe_descriptor_cleanup (Env.allOk 3) lsWcTable 1 [] (fun _ => rfl) (fun _ => rfl)

/-! ## The two front ends compared -/

theorem server_special_eq : Server.special = special := rfl

theorem server_specialFor_eq (cmd : Tok) : ∀ (n ii : Nat),
    Server.specialFor cmd ii n = specialFor cmd ii n := by
  intro n
  induction n with
  | zero => intro ii; rfl
  | succ n ih =>
    intro ii
    simp only [Server.specialFor, specialFor, server_special_eq, ih]

theorem server_classify_eq (cmd : Tok) : Server.classify cmd = classify cmd := by
  simp only [Server.classify, classify, server_specialFor_eq, server_special_eq]

theorem server_parseStep_eq (st : PState) (cmd : Tok) :
    Server.parseStep st cmd = parseStep st cmd := by
  simp only [Server.parseStep, parseStep, server_classify_eq]

theorem server_parseLoop_eq : ∀ (fuel : Nat) (st : PState) (s : List Char),
    Server.parseLoop fuel st s = parseLoop fuel st s := by
  intro fuel
  induction fuel with
  | zero => intro st s; rfl
  | succ fuel ih =>
    intro st s
    unfold Server.parseLoop parseLoop
    cases strtok s with
    | none => rfl
    | some p =>
      obtain ⟨cmd, rest⟩ := p
      simp only [server_parseStep_eq]
      cases parseStep st cmd with
      | error f => rfl
      | ok st1 => exact ih st1 rest

theorem server_parse_eq (input : List Char) : Server.parse input = parse input := by
  unfold Server.parse parse
  have : Server.initState = PState.init := rfl
  rw [this]
  cases store PState.init.bg PState.init.cmdc 0 with
  | error f => rfl
  | ok bg1 => exact server_parseLoop_eq _ _ _

theorem server_select_eq (st : PState) : Server.select st = Bsh.select st := rfl

theorem bsh_launch_eq_start (env : Env) (st : PState) :
    Bsh.launch env st = startOf (Bsh.start env) (Bsh.select st) := by
  unfold Bsh.launch Bsh.select Bsh.dispatchOp
  by_cases hc : st.cmdc ≠ 0
  · rw [if_pos hc, if_pos hc]
    cases st.stok.head?.join with
    | none => rfl
    | some op =>
      simp only []
      split_ifs <;> rfl
  · rw [if_neg hc, if_neg hc]
    rfl

theorem server_launch_eq_start (env : Env) (st : PState) :
    Server.launch env st = startOf (Server.start env) (Server.select st) := by
  unfold Server.launch Server.select Server.dispatchOp
  by_cases hc : st.cmdc ≠ 0
  · rw [if_pos hc, if_pos hc]
    cases st.stok.head?.join with
    | none => rfl
    | some op =>
      simp only []
      split_ifs <;> rfl
  · rw [if_neg hc, if_neg hc]
    rfl

theorem stripSignals_append (a b : List ChildAct) :
    stripSignals (a ++ b) = stripSignals a ++ stripSignals b := by
  simp [stripSignals]

theorem stripSignals_restore : stripSignals restoreSignals = [] := rfl

theorem stripSignals_execTail (row : List (Option Tok)) :
    stripSignals (execTail row) = Server.execTail row := rfl

theorem stripSignals_redirectDups (std_ioe : Nat) :
    stripSignals (redirectDups std_ioe) = redirectDups std_ioe := by
  unfold redirectDups
  split_ifs <;> rfl

theorem stripSignals_stageDups (n i : Nat) :
    stripSignals (stageDups n i) = stageDups n i := by
  unfold stageDups
  split_ifs <;> rfl

theorem stripSignals_childCloses (n : Nat) :
    stripSignals (childCloses n) = childCloses n := by
  unfold stripSignals childCloses
  rw [List.filter_eq_self]
  intro a ha
  simp only [List.mem_map] at ha
  obtain ⟨j, _, rfl⟩ := ha
  rfl

theorem stripSignals_stage (cmds : List (List (Option Tok))) (n i : Nat) :
    stripSignals (Bsh.stage cmds n i) = Server.stage cmds n i := by
  unfold Bsh.stage Server.stage
  simp only [stripSignals_append, stripSignals_restore, stripSignals_stageDups,
    stripSignals_childCloses, stripSignals_execTail, List.nil_append]

theorem strip_redirectOpen (file : Option Tok) (std_ioe append : Nat) :
    Act.stripSignals (redirectOpen file std_ioe append) = redirectOpen file std_ioe append := by
  unfold redirectOpen
  split_ifs <;> rfl

theorem strip_runcmd (env : Env) (cmd : List (Option Tok)) :
    Server.runcmd env cmd = (Bsh.runcmd env cmd).stripSignals := by
  unfold Server.runcmd Bsh.runcmd
  split <;> rfl

theorem strip_fork (child : List ChildAct) :
    Act.stripSignals (.fork child) = .fork (stripSignals child) := rfl

theorem strip_redirect (env : Env) (cmd : List (Option Tok)) (file : Option Tok)
    (std_ioe append bg : Nat) :
    Server.redirect env cmd file std_ioe append bg
      = (Bsh.redirect env cmd file std_ioe append bg).stripSignals := by
  have ho := strip_redirectOpen file std_ioe append
  have hw : Act.stripSignals .wait = .wait := rfl
  have hc : stripSignals [ChildAct.close Fd.opened] = [ChildAct.close Fd.opened] := rfl
  unfold Server.redirect Bsh.redirect
  split
  · simp only [Run.stripSignals, List.map_cons, List.map_nil, ho, hw, strip_fork,
      stripSignals_append, stripSignals_restore, stripSignals_redirectDups,
      stripSignals_execTail, List.nil_append, hc]
  · simp only [Run.stripSignals, List.map_cons, List.map_nil, ho]
    rfl

theorem strip_pipeLoop (env : Env) : ∀ (m i : Nat),
    Server.pipeLoop env i m = (Bsh.pipeLoop env i m).stripSignals := by
  intro m
  induction m with
  | zero => intro i; rfl
  | succ m ih =>
    intro i
    unfold Server.pipeLoop Bsh.pipeLoop
    split
    · simp only [ih, Run.stripSignals, List.map_cons]
      rfl
    · rfl

theorem strip_forkLoop (env : Env) (cmds : List (List (Option Tok))) (n : Nat) :
    ∀ (m i : Nat),
    Server.forkLoop env cmds n i m = (Bsh.forkLoop env cmds n i m).stripSignals := by
  intro m
  induction m with
  | zero => intro i; rfl
  | succ m ih =>
    intro i
    unfold Server.forkLoop Bsh.forkLoop
    split
    · simp only [ih, Run.stripSignals, List.map_cons, strip_fork, stripSignals_stage]
    · rfl

theorem strip_andThen (r k : Run) :
    (Run.andThen r k).stripSignals = Run.andThen r.stripSignals k.stripSignals := by
  cases h : r.out <;> simp [Run.andThen, Run.stripSignals, h]

theorem strip_parent_tail (n : Nat) :
    Run.stripSignals { trace := parentCloses n ++ parentWaits n, out := .returned }
      = { trace := parentCloses n ++ parentWaits n, out := .returned } := by
  unfold Run.stripSignals
  simp only [Run.mk.injEq, and_true]
  rw [List.map_congr_left, List.map_id]
  intro a ha
  simp only [List.mem_append, parentCloses, parentWaits, List.mem_map, List.mem_replicate] at ha
  rcases ha with ⟨j, _, rfl⟩ | ⟨_, rfl⟩ <;> rfl

theorem strip_multi_pipe (env : Env) (cmds : List (List (Option Tok))) (n : Nat)
    (bg : List Nat) :
    Server.multi_pipe env cmds n bg = (Bsh.multi_pipe env cmds n bg).stripSignals := by
  unfold Server.multi_pipe Bsh.multi_pipe
  rw [strip_andThen, strip_andThen, strip_parent_tail, strip_pipeLoop, strip_forkLoop]

theorem strip_start (env : Env) (l : Launch) :
    Server.start env l = (Bsh.start env l).stripSignals := by
  cases l with
  | runcmd cmd => exact strip_runcmd env cmd
  | redirect cmd file std_ioe append bg => exact strip_redirect env cmd file std_ioe append bg
  | multi_pipe cmds n bg => exact strip_multi_pipe env cmds n bg

theorem strip_launch (env : Env) (st : PState) :
    Server.launch env st = (Bsh.launch env st).stripSignals := by
  rw [server_launch_eq_start, bsh_launch_eq_start, server_select_eq]
  cases Bsh.select st with
  | error f => rfl
  | ok l => exact strip_start env l

theorem parseBuffer_vs_shellLine (env : Env) (input : List Char) :
    Server.parseBuffer env input = Run.andThen Server.socketDups
      (if isExitRequest input = true then { trace := [], out := .returned }
       else (Bsh.shellLine env input).stripSignals) ∧
    (isExitRequest input = true → Bsh.shellLine env input = Bsh.exitRun) := by
  unfold Server.parseBuffer Bsh.shellLine Server.socketDups
  by_cases hg : input.head? ≠ some '\n'
  · rw [if_pos hg, if_pos hg]
    cases hp : parse input with
    | error f =>
      have hx : isExitRequest input = false := by simp [isExitRequest, hp]
      rw [hx]
      exact ⟨rfl, fun h => absurd h (by simp)⟩
    | ok st =>
      simp only []
      unfold Server.runBlock Bsh.runBlock
      cases h0 : (st.cmds.getD 0 []).head?.join with
      | none =>
        have hx : isExitRequest input = false := by
          simp only [isExitRequest, hp, h0, reduceCtorEq, decide_False, Bool.and_false]
        rw [hx]
        exact ⟨rfl, fun h => absurd h (by simp)⟩
      | some arg0 =>
        by_cases he : arg0 = "exit".toList
        · have hx : isExitRequest input = true := by
            simp only [isExitRequest, hp, h0, he, decide_True, Bool.and_true,
              decide_eq_true_eq]
            exact hg
          rw [hx]
          simp only [he, if_true, true_implies]
          exact ⟨trivial, rfl⟩
        · have hx : isExitRequest input = false := by
            simp only [isExitRequest, hp, h0, Option.some.injEq, he, decide_False,
              Bool.and_false]
          rw [hx]
          simp only [he, if_false, strip_launch, Bool.false_eq_true]
          exact ⟨trivial, fun h => absurd h (by simp)⟩
  · rw [if_neg hg, if_neg hg]
    have hx : isExitRequest input = false := by
      simp only [isExitRequest, hg, decide_False, Bool.false_and]
    rw [hx]
    exact ⟨rfl, fun h => absurd h (by simp)⟩

/-- C26: the interactive shell and the remote service implement the same engine. For
every input line the parser of `parseBuffer` ends as the parser of the shell does,
with the same command table, operator table, background flags and command count, or
with the same fault; for every parser state both select the same launcher with the
same arguments; every launcher of the service makes, for every result of `pipe` and
`fork`, the calls of the launcher of the shell without the `signal` calls of the
children, with the same outcome. For the whole line the run of `parseBuffer` is its
two `dup2` calls of the socket followed by the run of the shell's loop body with the
`signal` calls removed, except on an exit request, where the shell prints its message
and exits and `parseBuffer` returns. -/
theorem same_engine (env : Env) (input : List Char) :
    Server.DELIMS = DELIMS ∧ Server.special = special ∧ Server.initState = PState.init ∧
    Server.parse input = parse input ∧
    (∀ st, Server.select st = Bsh.select st) ∧
    (∀ st, Bsh.launch env st = startOf (Bsh.start env) (Bsh.select st)) ∧
    (∀ st, Server.launch env st = startOf (Server.start env) (Server.select st)) ∧
    (∀ l, Server.start env l = (Bsh.start env l).stripSignals) ∧
    Server.parseBuffer env input = Run.andThen Server.socketDups
      (if isExitRequest input = true then { trace := [], out := .returned }
       else (Bsh.shellLine env input).stripSignals) ∧
    (isExitRequest input = true → Bsh.shellLine env input = Bsh.exitRun) :=
  ⟨rfl, rfl, rfl, server_parse_eq input, server_select_eq, bsh_launch_eq_start env,
    server_launch_eq_start env, strip_start env, (parseBuffer_vs_shellLine env input).1,
    (parseBuffer_vs_shellLine env input).2⟩

/-! ## The first operator at dispatch -/

theorem head_set {α : Type} (l : List α) (k : Nat) (v : α) (hk : k < l.length) :
    (l.set k v).head? = if k = 0 then some v else l.head? := by
  cases l with
  | nil => simp at hk
  | cons a l =>
    cases k with
    | zero => simp
    | succ k => simp

theorem parseStep_first_operator (st st1 : PState) (tok : Tok)
    (h : parseStep st tok = .ok st1)
    (hinv : st.cmdc ≠ 0 → ∃ op, op ∈ operators ∧ st.stok.head? = some (some op)) :
    st1.cmdc ≠ 0 → ∃ op, op ∈ operators ∧ st1.stok.head? = some (some op) := by
  unfold parseStep at h
  cases hk : classify tok with
  | background =>
    rw [hk] at h
    simp only [] at h
    cases hs : store st.bg st.cmdc 1 with
    | error f => rw [hs] at h; cases h
    | ok bg1 =>
      rw [hs] at h
      cases h
      exact hinv
  | word =>
    rw [hk] at h
    simp only [] at h
    cases hs : store2 st.cmds st.cmdc st.tokc (some tok) with
    | error f => rw [hs] at h; cases h
    | ok cmds1 =>
      rw [hs] at h
      cases h
      exact hinv
  | operator lit =>
    rw [hk] at h
    simp only [] at h
    have hlit : lit ∈ operators := by
      obtain ⟨h1, h2⟩ := ((classify_cases tok).2.1 lit).mp hk
      rw [h1]
      exact h2
    cases hs : store st.stok st.cmdc (some lit) with
    | error f => rw [hs] at h; cases h
    | ok stok1 =>
      rw [hs] at h
      simp only [] at h
      cases hs2 : store2 st.cmds st.cmdc st.tokc none with
      | error f => rw [hs2] at h; cases h
      | ok cmds1 =>
        rw [hs2] at h
        simp only [] at h
        cases hs3 : store st.bg (st.cmdc + 1) 0 with
        | error f => rw [hs3] at h; cases h
        | ok bg1 =>
          rw [hs3] at h
          cases h
          intro _
          unfold store at hs
          split at hs
          · rename_i hlt
            cases hs
            rw [head_set _ _ _ hlt]
            by_cases h0 : st.cmdc = 0
            · exact ⟨lit, hlit, by simp [h0]⟩
            · simpa [h0] using hinv h0
          · cases hs

theorem parseTokens_first_operator : ∀ (ts : List Tok) (st st1 : PState),
    parseTokens st ts = .ok st1 →
    (st.cmdc ≠ 0 → ∃ op, op ∈ operators ∧ st.stok.head? = some (some op)) →
    st1.cmdc ≠ 0 → ∃ op, op ∈ operators ∧ st1.stok.head? = some (some op) := by
  intro ts
  induction ts with
  | nil =>
    intro st st1 h hinv
    simp only [parseTokens] at h
    cases h
    exact hinv
  | cons t ts ih =>
    intro st st1 h hinv
    unfold parseTokens at h
    cases hs : parseStep st t with
    | error f => rw [hs] at h; cases h
    | ok st2 =>
      rw [hs] at h
      exact ih st2 st1 h (parseStep_first_operator st st2 t hs hinv)

theorem parse_first_operator (input : List Char) (st : PState)
    (hp : parse input = .ok st) (hc : st.cmdc ≠ 0) :
    ∃ op, op ∈ operators ∧ st.stok.head? = some (some op) := by
  unfold parse at hp
  cases hs : store PState.init.bg PState.init.cmdc 0 with
  | error f => rw [hs] at hp; cases hp
  | ok bg1 =>
    rw [hs] at hp
    simp only [] at hp
    rw [parseLoop_eq_parseTokens _ _ _ (Nat.lt_succ_self _)] at hp
    exact parseTokens_first_operator _ _ _ hp (fun h => absurd rfl h) hc

theorem select_of_operator (st : PState) (op : Tok) (hc : st.cmdc ≠ 0)
    (hop : op ∈ operators) (hs : st.stok.head? = some (some op)) :
    (op = "|".toList ∧ Bsh.select st = .ok (.multi_pipe st.cmds st.cmdc st.bg)) ∨
    (op ∈ redirections ∧ ∃ std_ioe append,
      Bsh.select st = .ok (.redirect (st.cmds.getD 0 []) ((st.cmds.getD 1 []).head?).join
        std_ioe append (st.bg.getD 0 0))) := by
  have hj : st.stok.head?.join = some op := by rw [hs]; rfl
  unfold Bsh.select
  rw [if_pos hc, hj]
  simp only [operators, List.mem_cons, List.mem_singleton, List.not_mem_nil, or_false] at hop
  rcases hop with rfl | rfl | rfl | rfl | rfl | rfl | rfl | rfl
  · exact Or.inr ⟨by decide, 1, 0, rfl⟩
  · exact Or.inr ⟨by decide, 1, 0, rfl⟩
  · exact Or.inr ⟨by decide, 2, 0, rfl⟩
  · exact Or.inr ⟨by decide, 1, 1, rfl⟩
  · exact Or.inr ⟨by decide, 2, 1, rfl⟩
  · exact Or.inr ⟨by decide, 3, 0, rfl⟩
  · exact Or.inr ⟨by decide, 0, 0, rfl⟩
  · exact Or.inl ⟨rfl, rfl⟩

/-- C29: for every input line on which the parser ends without fault, if the command
count is not zero then `stok[0]` is present and is one of the eight operators `>`,
`1>`, `2>`, `>>`, `2>>`, `&>`, `<`, `|`; so in both front ends the selection ends
without a null pointer in a comparison and takes one of the eight operator branches:
`multi_pipe` for `|`, `redirect` for the seven others, and never the final `else`
that runs command 0 alone. -/
theorem first_operator_present (input : List Char) (st : PState)
    (hp : parse input = .ok st) (hc : st.cmdc ≠ 0) :
    ∃ op, op ∈ operators ∧ st.stok.head? = some (some op) ∧
      operators = [">".toList, "1>".toList, "2>".toList, ">>".toList, "2>>".toList,
        "&>".toList, "<".toList, "|".toList] ∧
      ∃ l, Bsh.select st = .ok l ∧ Server.select st = .ok l ∧ (∀ cmd, l ≠ .runcmd cmd) ∧
        ((op = "|".toList ∧ l = .multi_pipe st.cmds st.cmdc st.bg) ∨
         (op ∈ redirections ∧ ∃ std_ioe append,
            l = .redirect (st.cmds.getD 0 []) ((st.cmds.getD 1 []).head?).join
              std_ioe append (st.bg.getD 0 0))) := by
  obtain ⟨op, hop, hs⟩ := parse_first_operator input st hp hc
  refine ⟨op, hop, hs, rfl, ?_⟩
  rcases select_of_operator st op hc hop hs with ⟨h1, h2⟩ | ⟨h1, io, ap, h2⟩
  · exact ⟨_, h2, (server_select_eq st).trans h2, fun cmd h => Launch.noConfusion h,
      Or.inl ⟨h1, rfl⟩⟩
  · exact ⟨_, h2, (server_select_eq st).trans h2, fun cmd h => Launch.noConfusion h,
      Or.inr ⟨h1, io, ap, rfl⟩⟩

/-- Witness for C29: the line `ls > f`. -/
theorem first_operator_present_witness :
    ∃ op, op ∈ operators ∧
      lsToFile.stok.head? = some (some op) ∧
      operators = [">".toList, "1>".toList, "2>".toList, ">>".toList, "2>>".toList,
        "&>".toList, "<".toList, "|".toList] ∧
      ∃ l, Bsh.select lsToFile = .ok l ∧ Server.select lsToFile = .ok l ∧
        (∀ cmd, l ≠ .runcmd cmd) ∧
        ((op = "|".toList ∧ l = .multi_pipe lsToFile.cmds lsToFile.cmdc lsToFile.bg) ∨
         (op ∈ redirections ∧ ∃ std_ioe append,
            l = .redirect (lsToFile.cmds.getD 0 []) ((lsToFile.cmds.getD 1 []).head?).join
              std_ioe append (lsToFile.bg.getD 0 0))) :=
  first_operator_present "ls > f\n".toList lsToFile (parse_layout _ (by decide)) (by decide)

/-! ## Background flags -/

theorem getD_pad {α : Type} (n : Nat) (d : α) (xs : List α) (i : Nat) :
    (pad n d xs).getD i d = xs.getD i d := by
  unfold pad
  rw [List.getD_eq_getElem?_getD, List.getD_eq_getElem?_getD]
  by_cases h : i < xs.length
  · rw [List.getElem?_append_left h]
  · have hle : xs.length ≤ i := by omega
    rw [List.getElem?_append_right hle, List.getElem?_eq_none hle]
    cases hr : (List.replicate (n - xs.length) d)[i - xs.length]? with
    | none => rfl
    | some v =>
      have hm : v ∈ List.replicate (n - xs.length) d := List.mem_iff_getElem?.mpr ⟨_, hr⟩
      rw [(List.mem_replicate.mp hm).2]
      rfl

theorem getD_bgFlags (toks : List Tok) (i : Nat) :
    (bgFlags toks).getD i 0
      = match (rawSegments toks)[i]? with
        | some seg => if seg.any isBackground then 1 else 0
        | none => 0 := by
  unfold bgFlags
  rw [List.getD_eq_getElem?_getD, List.getElem?_map]
  cases (rawSegments toks)[i]? <;> rfl

theorem any_isBackground (seg : List Tok) :
    seg.any isBackground = true ↔ "&".toList ∈ seg := by
  simp only [List.any_eq_true, isBackground, decide_eq_true_eq]
  constructor
  · rintro ⟨x, hx, rfl⟩
    exact hx
  · intro h
    exact ⟨_, h, rfl⟩

theorem parseStep_ampersand (s s1 : PState) (h : parseStep s "&".toList = .ok s1) :
    s.cmdc < s.bg.length ∧ s1.bg = s.bg.set s.cmdc 1 ∧ s1.cmdc = s.cmdc ∧
    s1.stok = s.stok ∧ s1.cmds = s.cmds ∧ s1.tokc = s.tokc := by
  have hk : classify "&".toList = .background := by decide
  unfold parseStep at h
  rw [hk] at h
  simp only [] at h
  unfold store at h
  by_cases hlt : s.cmdc < s.bg.length
  · rw [if_pos hlt] at h
    cases h
    exact ⟨hlt, rfl, rfl, rfl, rfl, rfl⟩
  · rw [if_neg hlt] at h
    cases h

theorem parseStep_operator_slot (s s1 : PState) (op : Tok) (hop : op ∈ operators)
    (h : parseStep s op = .ok s1) :
    s1.cmdc = s.cmdc + 1 ∧ s1.tokc = 0 ∧ s.cmdc + 1 < s.bg.length ∧
    s1.bg = s.bg.set (s.cmdc + 1) 0 ∧ s1.bg.getD s1.cmdc 0 = 0 := by
  have hk : classify op = .operator op := ((classify_cases op).2.1 op).mpr ⟨rfl, hop⟩
  unfold parseStep at h
  rw [hk] at h
  simp only [] at h
  cases hs : store s.stok s.cmdc (some op) with
  | error f => rw [hs] at h; cases h
  | ok stok1 =>
    rw [hs] at h
    simp only [] at h
    cases hs2 : store2 s.cmds s.cmdc s.tokc none with
    | error f => rw [hs2] at h; cases h
    | ok cmds1 =>
      rw [hs2] at h
      simp only [] at h
      unfold store at h
      by_cases hlt : s.cmdc + 1 < s.bg.length
      · rw [if_pos hlt] at h
        cases h
        refine ⟨rfl, rfl, hlt, rfl, ?_⟩
        simp [List.getD_eq_getElem?_getD, hlt]
      · rw [if_neg hlt] at h
        cases h

/-- C24: for every line within capacity the parser of either front end ends with
`cmdc + 1` command slots, one for each stretch of tokens between consecutive non-`&`
operator tokens, and for every index `i` of the background table `bg[i]` is 1 exactly
when slot `i` exists and a `&` token occurs among the tokens of its stretch, and is 0
otherwise. In one step of the parser a `&` token stores 1 into `bg[cmdc]` and changes
nothing else, and an operator token moves to slot `cmdc + 1` and stores 0 into its
flag. -/
theorem background_flags (line : List Char) (h : WithinCapacity (maximalRuns line)) :
    ∃ st, parse line = .ok st ∧ Server.parse line = .ok st ∧
      st.cmdc + 1 = (rawSegments (maximalRuns line)).length ∧
      st.bg.length = MAX_CMDS ∧
      (∀ i, (st.bg.getD i 0 = 1 ↔
          ∃ seg, (rawSegments (maximalRuns line))[i]? = some seg ∧ "&".toList ∈ seg) ∧
        (st.bg.getD i 0 = 0 ∨ st.bg.getD i 0 = 1)) ∧
      (∀ s s1, parseStep s "&".toList = .ok s1 →
        s1.bg = s.bg.set s.cmdc 1 ∧ s1.cmdc = s.cmdc ∧ s1.stok = s.stok ∧
        s1.cmds = s.cmds ∧ s1.tokc = s.tokc) ∧
      (∀ s s1 op, op ∈ operators → parseStep s op = .ok s1 →
        s1.cmdc = s.cmdc + 1 ∧ s1.bg = s.bg.set (s.cmdc + 1) 0 ∧
        s1.bg.getD s1.cmdc 0 = 0) := by
  have hp := parse_layout line h
  refine ⟨_, hp, (server_parse_eq line).trans hp, ?_, ?_, ?_, ?_, ?_⟩
  · simp only [stateOf]
    rw [segments_length, rawSegments_length]
    omega
  · have hl : (bgFlags (maximalRuns line)).length ≤ MAX_CMDS := by
      unfold bgFlags
      rw [List.length_map, rawSegments_length]
      have := h.1
      simp only [MAX_CMDS] at this ⊢
      omega
    simp only [stateOf, pad, List.length_append, List.length_replicate]
    omega
  · intro i
    have hb : (stateOf (segments (maximalRuns line)) (opsOf (maximalRuns line))
        (bgFlags (maximalRuns line))).bg.getD i 0
        = match (rawSegments (maximalRuns line))[i]? with
          | some seg => if seg.any isBackground then 1 else 0
          | none => 0 := by
      simp only [stateOf]
      rw [getD_pad, getD_bgFlags]
    rw [hb]
    cases hseg : (rawSegments (maximalRuns line))[i]? with
    | none => simp
    | some seg =>
      simp only [Option.some.injEq, exists_eq_left']
      by_cases ha : seg.any isBackground = true
      · rw [if_pos ha]
        exact ⟨⟨fun _ => (any_isBackground seg).mp ha, fun _ => rfl⟩, Or.inr rfl⟩
      · have hn : "&".toList ∉ seg := fun hm => ha ((any_isBackground seg).mpr hm)
        rw [if_neg ha]
        exact ⟨⟨fun h => absurd h (by decide), fun h => absurd h hn⟩, Or.inl rfl⟩
  · intro s s1 hs
    exact (parseStep_ampersand s s1 hs).2
  · intro s s1 op hop hs
    obtain ⟨h1, _, _, h4, h5⟩ := parseStep_operator_slot s s1 op hop hs
    exact ⟨h1, h4, h5⟩

/-- Witness for C24: the line `a & | b | c &`, whose slots 0 and 2 are flagged. -/
theorem background_flags_witness :
    ∃ st, parse "a & | b | c &\n".toList = .ok st ∧
      Server.parse "a & | b | c &\n".toList = .ok st ∧
      st.cmdc + 1 = (rawSegments (maximalRuns "a & | b | c &\n".toList)).length ∧
      st.bg.length = MAX_CMDS ∧
      (∀ i, (st.bg.getD i 0 = 1 ↔
          ∃ seg, (rawSegments (maximalRuns "a & | b | c &\n".toList))[i]? = some seg ∧
            "&".toList ∈ seg) ∧
        (st.bg.getD i 0 = 0 ∨ st.bg.getD i 0 = 1)) ∧
      (∀ s s1, parseStep s "&".toList = .ok s1 →
        s1.bg = s.bg.set s.cmdc 1 ∧ s1.cmdc = s.cmdc ∧ s1.stok = s.stok ∧
        s1.cmds = s.cmds ∧ s1.tokc = s.tokc) ∧
      (∀ s s1 op, op ∈ operators → parseStep s op = .ok s1 →
        s1.cmdc = s.cmdc + 1 ∧ s1.bg = s.bg.set (s.cmdc + 1) 0 ∧
        s1.bg.getD s1.cmdc 0 = 0) :=
  background_flags "a & | b | c &\n".toList (by decide)

theorem background_flags_sample :
    (parse "a & | b | c &\n".toList).toOption.map (fun st => (st.cmdc, st.bg.take 4))
      = some (2, [1, 0, 1, 0]) := by
  decide

/-! ## Operators after the first one -/

theorem laterOpsOnly_split : ∀ (t1 t2 : List Tok) (seen : Bool),
    laterOpsOnly seen t1 t2 = true →
    rawSegments t1 = rawSegments t2 ∧ (opsOf t1).length = (opsOf t2).length ∧
    (seen = false → (opsOf t1).head? = (opsOf t2).head?) := by
  intro t1
  induction t1 with
  | nil =>
    intro t2 seen h
    cases t2 with
    | nil => exact ⟨rfl, rfl, fun _ => rfl⟩
    | cons b bs => simp [laterOpsOnly] at h
  | cons a as ih =>
    intro t2 seen h
    cases t2 with
    | nil => simp [laterOpsOnly] at h
    | cons b bs =>
      unfold laterOpsOnly at h
      by_cases ha : isOperator a = true
      · rw [if_pos ha] at h
        simp only [Bool.and_eq_true, Bool.or_eq_true, decide_eq_true_eq] at h
        obtain ⟨⟨hb, hab⟩, hrest⟩ := h
        obtain ⟨h1, h2, _⟩ := ih bs true hrest
        refine ⟨?_, ?_, ?_⟩
        · simp only [rawSegments, List.splitOnP_cons, ha, hb, if_true] at h1 ⊢
          rw [h1]
        · simp only [opsOf, List.filter_cons, ha, hb, if_true, List.length_cons] at h2 ⊢
          rw [h2]
        · intro hseen
          rcases hab with hab | hab
          · rw [hseen] at hab
            cases hab
          · subst hab
            simp only [opsOf, List.filter_cons, ha, if_true, List.head?_cons]
      · rw [if_neg ha] at h
        simp only [Bool.and_eq_true, decide_eq_true_eq] at h
        obtain ⟨hab, hrest⟩ := h
        subst hab
        obtain ⟨h1, h2, h3⟩ := ih bs seen hrest
        have ha2 : isOperator a = false := by simpa using ha
        refine ⟨?_, ?_, ?_⟩
        · simp only [rawSegments, List.splitOnP_cons, ha2, Bool.false_eq_true, if_false] at h1 ⊢
          rw [h1]
        · simp only [opsOf, List.filter_cons, ha2, Bool.false_eq_true, if_false] at h2 ⊢
          rw [h2]
        · intro hseen
          simp only [opsOf, List.filter_cons, ha2, Bool.false_eq_true, if_false] at h3 ⊢
          exact h3 hseen

theorem stok_head_stateOf (segs : List (List Tok)) (ops : List Tok) (bgs : List Nat) :
    (stateOf segs ops bgs).stok.head?.join = ops.head? := by
  cases ops with
  | nil => rfl
  | cons op ops => exact stateOf_stok0 segs op ops bgs

theorem select_stateOf_congr (segs : List (List Tok)) (ops1 ops2 : List Tok)
    (bgs : List Nat) (h : ops1.head? = ops2.head?) :
    Bsh.select (stateOf segs ops1 bgs) = Bsh.select (stateOf segs ops2 bgs) := by
  have h1 := stok_head_stateOf segs ops1 bgs
  have h2 := stok_head_stateOf segs ops2 bgs
  unfold Bsh.select
  rw [h1, h2, h]
  rfl

theorem countOpens_append (a b : List Act) :
    countOpens (a ++ b) = countOpens a + countOpens b := by
  simp [countOpens]

theorem countOpens_andThen (r k : Run) (hr : countOpens r.trace = 0)
    (hk : countOpens k.trace = 0) : countOpens (Run.andThen r k).trace = 0 := by
  unfold Run.andThen
  cases r.out with
  | returned => simp only [countOpens_append, hr, hk]
  | exited c => exact hr
  | fault f => exact hr

theorem countOpens_pipeLoop (env : Env) : ∀ (m i : Nat),
    countOpens (Bsh.pipeLoop env i m).trace = 0 := by
  intro m
  induction m with
  | zero => intro i; rfl
  | succ m ih =>
    intro i
    unfold Bsh.pipeLoop
    split
    · simpa [countOpens] using ih (i + 1)
    · rfl

theorem countOpens_forkLoop (env : Env) (cmds : List (List (Option Tok))) (n : Nat) :
    ∀ (m i : Nat), countOpens (Bsh.forkLoop env cmds n i m).trace = 0 := by
  intro m
  induction m with
  | zero => intro i; rfl
  | succ m ih =>
    intro i
    unfold Bsh.forkLoop
    split
    · simpa [countOpens] using ih (i + 1)
    · rfl

theorem countOpens_parent_tail (n : Nat) :
    countOpens (parentCloses n ++ parentWaits n) = 0 := by
  unfold countOpens
  rw [List.length_eq_zero, List.filter_eq_nil_iff]
  intro a ha
  simp only [List.mem_append, parentCloses, parentWaits, List.mem_map, List.mem_replicate] at ha
  rcases ha with ⟨j, _, rfl⟩ | ⟨_, rfl⟩ <;> simp

theorem multi_pipe_opens_nothing (env : Env) (cmds : List (List (Option Tok))) (n : Nat)
    (bg : List Nat) : countOpens (Bsh.multi_pipe env cmds n bg).trace = 0 := by
  unfold Bsh.multi_pipe
  exact countOpens_andThen _ _
    (countOpens_andThen _ _ (countOpens_pipeLoop env n 0) (countOpens_forkLoop env cmds n _ 0))
    (countOpens_parent_tail n)

theorem redirect_pipes_nothing (env : Env) (cmd : List (Option Tok)) (file : Option Tok)
    (std_ioe append bg : Nat) :
    countPipes (Bsh.redirect env cmd file std_ioe append bg).trace = 0 := by
  have ho : countPipes [redirectOpen file std_ioe append] = 0 := by
    unfold redirectOpen
    split_ifs <;> rfl
  unfold Bsh.redirect
  split
  · exact (countPipes_append [redirectOpen file std_ioe append] _).trans (by rw [ho]; rfl)
  · exact (countPipes_append [redirectOpen file std_ioe append] _).trans (by rw [ho]; rfl)

theorem stok_head?_stateOf (segs : List (List Tok)) (ops : List Tok) (bgs : List Nat) :
    (stateOf segs ops bgs).stok.head? = some ops.head? := by
  cases ops with
  | nil => rfl
  | cons op ops => rfl

theorem select_first_operator (toks : List Tok) (op : Tok) (ops : List Tok)
    (hops : opsOf toks = op :: ops) (hop : op ∈ operators) :
    (op = "|".toList ∧
      Bsh.select (stateOf (segments toks) (opsOf toks) (bgFlags toks))
        = .ok (.multi_pipe (tableOf (segments toks)) ((segments toks).length - 1)
            (pad MAX_CMDS 0 (bgFlags toks)))) ∨
    (op ∈ redirections ∧ ∃ std_ioe append,
      Bsh.select (stateOf (segments toks) (opsOf toks) (bgFlags toks))
        = .ok (.redirect (rowOf ((segments toks).getD 0 []))
            ((segments toks).getD 1 []).head? std_ioe append
            ((pad MAX_CMDS 0 (bgFlags toks)).getD 0 0))) := by
  have hlen : (segments toks).length = ops.length + 2 := by
    rw [segments_length, hops]
    rfl
  have hc : (stateOf (segments toks) (opsOf toks) (bgFlags toks)).cmdc ≠ 0 := by
    simp only [stateOf]
    omega
  have hs : (stateOf (segments toks) (opsOf toks) (bgFlags toks)).stok.head?
      = some (some op) := by
    rw [stok_head?_stateOf, hops]
    rfl
  rcases select_of_operator _ op hc hop hs with ⟨h1, h2⟩ | ⟨h1, io, ap, h2⟩
  · exact Or.inl ⟨h1, h2⟩
  · refine Or.inr ⟨h1, io, ap, ?_⟩
    rw [h2]
    have e0 : (stateOf (segments toks) (opsOf toks) (bgFlags toks)).cmds.getD 0 []
        = rowOf ((segments toks).getD 0 []) := tableOf_getD _ 0 (by omega)
    have e1 : (stateOf (segments toks) (opsOf toks) (bgFlags toks)).cmds.getD 1 []
        = rowOf ((segments toks).getD 1 []) := tableOf_getD _ 1 (by omega)
    rw [e0, e1, head_rowOf]
    rfl

/-- C27: what is launched depends on the operators of a line only through the first
one. For every two lines such that the first is within capacity and the second
differs from it only in the kind of non-`&` operator tokens after the first one, the
parser ends on both with the same command table, command count, background flags and
first operator, and both front ends select the same launcher with the same arguments
and make the same calls. When the first operator is `|` the launcher is `multi_pipe`
with one stage for every stretch of words between operators of any kind, and
`multi_pipe` opens no file; when the first operator is a redirection the launcher is
`redirect` with command 0 and the first word of command 1, and `redirect` creates no
pipe. -/
theorem later_operators_ignored (env : Env) (line1 line2 : List Char)
    (hc : WithinCapacity (maximalRuns line1))
    (hd : laterOpsOnly false (maximalRuns line1) (maximalRuns line2) = true) :
    ∃ st1 st2, parse line1 = .ok st1 ∧ parse line2 = .ok st2 ∧
      st1.cmds = st2.cmds ∧ st1.cmdc = st2.cmdc ∧ st1.bg = st2.bg ∧
      st1.stok.head? = st2.stok.head? ∧
      Bsh.select st1 = Bsh.select st2 ∧ Server.select st1 = Server.select st2 ∧
      Bsh.launch env st1 = Bsh.launch env st2 ∧
      Server.launch env st1 = Server.launch env st2 ∧
      Bsh.runBlock env st1 = Bsh.runBlock env st2 ∧
      Server.runBlock env st1 = Server.runBlock env st2 ∧
      (∀ ops, opsOf (maximalRuns line1) = "|".toList :: ops →
        Bsh.select st1 = .ok (.multi_pipe (tableOf (segments (maximalRuns line1)))
          ((segments (maximalRuns line1)).length - 1) st1.bg)) ∧
      (∀ op ops, op ∈ redirections → opsOf (maximalRuns line1) = op :: ops →
        ∃ std_ioe append, Bsh.select st1
          = .ok (.redirect (rowOf ((segments (maximalRuns line1)).getD 0 []))
              ((segments (maximalRuns line1)).getD 1 []).head? std_ioe append
              (st1.bg.getD 0 0))) ∧
      (∀ cmds n bg, countOpens (Bsh.multi_pipe env cmds n bg).trace = 0) ∧
      (∀ cmd file std_ioe append bg,
        countPipes (Bsh.redirect env cmd file std_ioe append bg).trace = 0) := by
  obtain ⟨hraw, hlen, hhead⟩ := laterOpsOnly_split _ _ false hd
  have hhead := hhead rfl
  have hseg : segments (maximalRuns line2) = segments (maximalRuns line1) := by
    unfold segments
    rw [hraw]
  have hbg : bgFlags (maximalRuns line2) = bgFlags (maximalRuns line1) := by
    unfold bgFlags
    rw [hraw]
  have hc2 : WithinCapacity (maximalRuns line2) := by
    unfold WithinCapacity
    rw [hseg, ← hlen]
    exact hc
  have hp1 := parse_layout line1 hc
  have hp2 := parse_layout line2 hc2
  rw [hseg, hbg] at hp2
  have hsel := select_stateOf_congr (segments (maximalRuns line1)) (opsOf (maximalRuns line1))
    (opsOf (maximalRuns line2)) (bgFlags (maximalRuns line1)) hhead
  have hstok : (stateOf (segments (maximalRuns line1)) (opsOf (maximalRuns line1))
        (bgFlags (maximalRuns line1))).stok.head?
      = (stateOf (segments (maximalRuns line1)) (opsOf (maximalRuns line2))
        (bgFlags (maximalRuns line1))).stok.head? := by
    rw [stok_head?_stateOf, stok_head?_stateOf, hhead]
  have hl1 : Bsh.launch env (stateOf (segments (maximalRuns line1)) (opsOf (maximalRuns line1))
        (bgFlags (maximalRuns line1)))
      = Bsh.launch env (stateOf (segments (maximalRuns line1)) (opsOf (maximalRuns line2))
        (bgFlags (maximalRuns line1))) := by
    rw [bsh_launch_eq_start, bsh_launch_eq_start, hsel]
  have hl2 : Server.launch env (stateOf (segments (maximalRuns line1))
        (opsOf (maximalRuns line1)) (bgFlags (maximalRuns line1)))
      = Server.launch env (stateOf (segments (maximalRuns line1)) (opsOf (maximalRuns line2))
        (bgFlags (maximalRuns line1))) := by
    rw [server_launch_eq_start, server_launch_eq_start, server_select_eq, server_select_eq,
      hsel]
  refine ⟨_, _, hp1, hp2, rfl, rfl, rfl, hstok, hsel, ?_, hl1, hl2, ?_, ?_, ?_, ?_,
    multi_pipe_opens_nothing env, redirect_pipes_nothing env⟩
  · rw [server_select_eq, server_select_eq, hsel]
  · unfold Bsh.runBlock
    rw [hl1]
    rfl
  · unfold Server.runBlock
    rw [hl2]
    rfl
  · intro ops hops
    rcases select_first_operator _ _ ops hops (by decide) with ⟨_, h2⟩ | ⟨h1, _⟩
    · exact h2
    · exact absurd h1 (by decide)
  · intro op ops hop hops
    have hmem : op ∈ operators := by
      simp only [redirections, List.mem_cons, List.mem_singleton, List.not_mem_nil,
        or_false] at hop
      rcases hop with rfl | rfl | rfl | rfl | rfl | rfl | rfl <;> decide
    rcases select_first_operator _ _ ops hops hmem with ⟨h1, _⟩ | ⟨_, io, ap, h2⟩
    · subst h1
      exact absurd hop (by decide)
    · exact ⟨io, ap, h2⟩

/-- Witness for C27: `a | b > f` and `a | b | f`. -/
theorem later_operators_ignored_witness :
    ∃ st1 st2, parse "a | b > f\n".toList = .ok st1 ∧ parse "a | b | f\n".toList = .ok st2 ∧
      st1.cmds = st2.cmds ∧ st1.cmdc = st2.cmdc ∧ st1.bg = st2.bg ∧
      st1.stok.head? = st2.stok.head? ∧
      Bsh.select st1 = Bsh.select st2 ∧ Server.select st1 = Server.select st2 ∧
      Bsh.launch (Env.allOk 3) st1 = Bsh.launch (Env.allOk 3) st2 ∧
      Server.launch (Env.allOk 3) st1 = Server.launch (Env.allOk 3) st2 ∧
      Bsh.runBlock (Env.allOk 3) st1 = Bsh.runBlock (Env.allOk 3) st2 ∧
      Server.runBlock (Env.allOk 3) st1 = Server.runBlock (Env.allOk 3) st2 ∧
      (∀ ops, opsOf (maximalRuns "a | b > f\n".toList) = "|".toList :: ops →
        Bsh.select st1 = .ok (.multi_pipe (tableOf (segments (maximalRuns "a | b > f\n".toList)))
          ((segments (maximalRuns "a | b > f\n".toList)).length - 1) st1.bg)) ∧
      (∀ op ops, op ∈ redirections → opsOf (maximalRuns "a | b > f\n".toList) = op :: ops →
        ∃ std_ioe append, Bsh.select st1
          = .ok (.redirect (rowOf ((segments (maximalRuns "a | b > f\n".toList)).getD 0 []))
              ((segments (maximalRuns "a | b > f\n".toList)).getD 1 []).head? std_ioe append
              (st1.bg.getD 0 0))) ∧
      (∀ cmds n bg, countOpens (Bsh.multi_pipe (Env.allOk 3) cmds n bg).trace = 0) ∧
      (∀ cmd file std_ioe append bg,
        countPipes (Bsh.redirect (Env.allOk 3) cmd file std_ioe append bg).trace = 0) :=
  later_operators_ignored (Env.allOk 3) "a | b > f\n".toList "a | b | f\n".toList
    (by decide) (by decide)

theorem pipe_then_redirect_sample :
    Bsh.shellLine (Env.allOk 3) "a | b > f\n".toList
      = { trace := [.pipe 0, .pipe 2,
            .fork (Bsh.stage (tableOf [["a".toList], ["b".toList], ["f".toList]]) 2 0),
            .fork (Bsh.stage (tableOf [["a".toList], ["b".toList], ["f".toList]]) 2 1),
            .fork (Bsh.stage (tableOf [["a".toList], ["b".toList], ["f".toList]]) 2 2),
            .close (.pipes 0), .close (.pipes 1), .close (.pipes 2), .close (.pipes 3),
            .wait, .wait, .wait],
          out := .returned } ∧
    argvOf ((tableOf [["a".toList], ["b".toList], ["f".toList]]).getD 2 []) = ["f".toList] ∧
    Bsh.shellLine (Env.allOk 3) "a > f | b\n".toList
      = Bsh.shellLine (Env.allOk 3) "a > f\n".toList ∧
    countPipes (Bsh.shellLine (Env.allOk 3) "a > f | b\n".toList).trace = 0 := by
  decide

/-! ## The pulse array bound -/

theorem storeSeq_overflow {α : Type} (vs : List α) : ∀ (xs : List α) (p : Nat),
    p ≤ xs.length → xs.length < p + vs.length →
    storeSeq xs p vs = .error .outOfBounds := by
  induction vs with
  | nil =>
    intro xs p h1 h2
    simp only [List.length_nil, Nat.add_zero] at h2
    omega
  | cons v vs ih =>
    intro xs p h1 h2
    simp only [List.length_cons] at h2
    unfold storeSeq store
    by_cases hp : p < xs.length
    · rw [if_pos hp]
      simp only []
      exact ih (xs.set p v) (p + 1) (by simp; omega) (by simp; omega)
    · rw [if_neg hp]

theorem morse_writeLoop_append (pre rest : List Char) : ∀ (st : Morse),
    Morse.writeLoop st (pre ++ rest)
      = match Morse.writeLoop st pre with
        | .error f => .error f
        | .ok st1 => Morse.writeLoop st1 rest := by
  induction pre with
  | nil => intro st; rfl
  | cons c pre ih =>
    intro st
    simp only [List.cons_append, Morse.writeLoop]
    cases Morse.writeByte st c with
    | error f => rfl
    | ok st1 => exact ih st1

theorem encode_replicate (k : Nat) (c : Char) :
    (encode (List.replicate k c)).length = k * (refEncoding c).length := by
  induction k with
  | zero => simp [encode]
  | succ k ih =>
    rw [List.replicate_succ, encode_cons, List.length_append, ih]
    ring

theorem morse_write_overflow (st : Morse) (buff pre post : List Char) (c : Char)
    (hidle : st.tmrbusy = 0) (hp : st.dbuff_ptr = some 0) (hq : st.pulse_ptr = some 0)
    (hb : buff.take (CAP1X - 1) = pre ++ c :: post)
    (hd : pre.length < st.dbuff.length)
    (hfit : (encode pre).length ≤ st.pulse.length)
    (hover : st.pulse.length < (encode pre).length + (refEncoding c).length) :
    ∃ st1, Morse.writeLoop { st with pulse_len := 0 } pre = .ok st1 ∧
      st1.pulse_ptr = some (encode pre).length ∧
      st1.pulse_len = ((encode pre).length : Int) ∧
      st1.pulse.length = st.pulse.length ∧
      Morse.writeByte st1 c = .error .outOfBounds ∧
      Morse.device_write st buff = .error .outOfBounds := by
  obtain ⟨o, dbuff, dptr, pulse, pptr, plen, ppos, busy, pend, gpio⟩ := st
  simp only at hidle hp hq hd hfit hover
  subst hidle hp hq
  obtain ⟨hd1, _, hd3⟩ := list_window dbuff 0 pre.length (by omega)
  obtain ⟨hu1, _, hu3⟩ := list_window pulse 0 (encode pre).length (by omega)
  simp only [List.take_zero, List.drop_zero, Nat.zero_add] at hd1 hd3 hu1 hu3
  obtain ⟨dm, dpost, hdrop⟩ : ∃ dm dpost, dbuff.drop pre.length = dm :: dpost := by
    cases h : dbuff.drop pre.length with
    | nil =>
      have := congrArg List.length h
      rw [List.length_drop] at this
      simp only [List.length_nil] at this
      omega
    | cons dm dpost => exact ⟨dm, dpost, rfl⟩
  rw [hdrop] at hd1
  have hlen2 : (pulse.drop (encode pre).length).length < (refEncoding c).length := by
    rw [List.length_drop]
    omega
  generalize dbuff.take pre.length = dmid at hd1 hd3
  generalize pulse.take (encode pre).length = pmid at hu1 hu3
  generalize pulse.drop (encode pre).length = ppost at hu1 hlen2
  subst hd1 hu1
  have hl := morse_writeLoop_ok pre
    { Device_Open := o, dbuff := [] ++ dmid ++ dm :: dpost, dbuff_ptr := some 0,
      pulse := [] ++ pmid ++ ppost, pulse_ptr := some 0, pulse_len := 0, pulse_pos := ppos,
      tmrbusy := 0, pending := pend, gpio := gpio }
    [] dmid (dm :: dpost) [] pmid ppost rfl hd3 rfl rfl hu3 rfl
  simp only [List.nil_append, List.length_nil, Nat.zero_add, Int.zero_add] at hl
  have hs : store (pre ++ dm :: dpost) pre.length c = .ok (pre ++ c :: dpost) :=
    store_append pre dpost dm c
  have hov : storeSeq (encode pre ++ ppost) (encode pre).length (refEncoding c)
      = .error .outOfBounds :=
    storeSeq_overflow _ _ _ (by simp) (by simp; omega)
  have hbyte : Morse.writeByte
      { Device_Open := o, dbuff := pre ++ dm :: dpost, dbuff_ptr := some pre.length,
        pulse := encode pre ++ ppost, pulse_ptr := some (encode pre).length,
        pulse_len := ((encode pre).length : Int), pulse_pos := ppos,
        tmrbusy := 0, pending := pend, gpio := gpio } c = .error .outOfBounds := by
    simp only [Morse.writeByte, hs, morseCase_eq, hov]
  refine ⟨_, hl, rfl, rfl, ?_, hbyte, ?_⟩
  · simp only [List.nil_append, List.length_append, hu3]
  · unfold Morse.device_write
    rw [if_neg (by simp), hb, morse_writeLoop_append]
    simp only [List.nil_append] at hl ⊢
    rw [hl]
    simp only [Morse.writeLoop, hbyte]

/-- C30 fails on the code: `device_write` has no check of the pulse array. The byte
`0` is encoded in 22 units, so the 28 bytes `0000000000000000000000000000` need 616
units (and 31 such bytes 682), more than `MAX_UNIT` = 600. Written right after an
open, with the timer idle and the pulse pointer at the start of the array, the first
27 bytes fill `pulse[0]` to `pulse[593]`; the units of the 28th byte are then stored
from `pulse[594]` on and the seventh of them goes to `pulse[600]`, outside the
array. -/
theorem morse_pulse_overflow :
    (List.replicate 28 '0').length ≤ CAP1X - 1 ∧
    Morse.opened.tmrbusy = 0 ∧ Morse.opened.pulse_ptr = some 0 ∧
    Morse.opened.pulse.length = MAX_UNIT ∧ MAX_UNIT = 600 ∧
    (refEncoding '0').length = 22 ∧ (Morse.morseCase '0').2 = 22 ∧
    (encode (List.replicate 28 '0')).length = 616 ∧
    (encode (List.replicate 31 '0')).length = 682 ∧
    (∃ st1, Morse.writeLoop { Morse.opened with pulse_len := 0 } (List.replicate 27 '0')
        = .ok st1 ∧
      st1.pulse_ptr = some 594 ∧ st1.pulse_len = 594 ∧ st1.pulse.length = 600 ∧
      Morse.writeByte st1 '0' = .error .outOfBounds) ∧
    Morse.device_write Morse.opened (List.replicate 28 '0') = .error .outOfBounds := by
  have h22 : (refEncoding '0').length = 22 := by decide
  have h27 : (encode (List.replicate 27 '0')).length = 594 := by
    rw [encode_replicate, h22]
  have hsz := morse_opened_sizes
  obtain ⟨st1, h1, h2, h3, h4, h5, h6⟩ := morse_write_overflow Morse.opened
    (List.replicate 28 '0') (List.replicate 27 '0') [] '0' rfl rfl rfl
    (by simp [CAP1X, List.replicate_succ'])
    (by rw [hsz.1]; simp) (by rw [hsz.2, h27]; omega) (by rw [hsz.2, h27, h22]; omega)
  refine ⟨by simp [CAP1X], rfl, rfl, hsz.2, rfl, h22, by decide, ?_, ?_,
    ⟨st1, h1, ?_, ?_, ?_, h5⟩, h6⟩
  · rw [encode_replicate, h22]
  · rw [encode_replicate, h22]
  · rw [h2, h27]
  · rw [h3, h27]
    rfl
  · rw [h4, hsz.2]

/-! ## The child reaper -/

theorem sigchld_handler_ok : ∀ (exited running : List Nat) (fuel : Nat),
    (∀ p ∈ exited, 0 < p) → exited.length < fuel →
    sigchld_handler fuel { exited := exited, running := running }
      = .ok ({ exited := [], running := running },
          exited.map (fun p => { pid := -1, nohang := true, result := (p : Int) }) ++
          [{ pid := -1, nohang := true, result := if running = [] then -1 else 0 }]) := by
  intro exited
  induction exited with
  | nil =>
    intro running fuel _ hf
    cases fuel with
    | zero => simp at hf
    | succ fuel =>
      unfold sigchld_handler
      by_cases hr : running = []
      · simp [waitpidAnyNoHang, hr]
      · simp [waitpidAnyNoHang, hr]
  | cons p ps ih =>
    intro running fuel hpos hf
    cases fuel with
    | zero => simp at hf
    | succ fuel =>
      have hp : (0 : Int) < (p : Int) := by
        have := hpos p (by simp)
        omega
      unfold sigchld_handler
      simp only [waitpidAnyNoHang, gt_iff_lt, hp, if_true]
      rw [ih running fuel (fun q hq => hpos q (by simp [hq])) (by simpa using hf)]
      simp

/-- C25: the child-termination handler of the remote service. For every state with
`m` exited and unreaped children (their process ids positive) and any running
children, one invocation of `sigchld_handler` ends after `m + 1` calls of `waitpid`,
every one made as `waitpid (-1, NULL, WNOHANG)`: the first `m` calls reap the `m`
exited children, each once, and the last one returns 0 (or -1 when no child is left)
and ends the loop; afterwards no exited child is left and the running children are
as before. -/
theorem reaper_reaps_all (k : Children) (fuel : Nat)
    (hpos : ∀ p ∈ k.exited, 0 < p) (hfuel : k.exited.length < fuel) :
    ∃ (k1 : Children) (calls : List WaitCall),
      sigchld_handler fuel k = .ok (k1, calls) ∧
      k1.exited = [] ∧ k1.running = k.running ∧
      calls.length = k.exited.length + 1 ∧
      (∀ c ∈ calls, c.pid = -1 ∧ c.nohang = true) ∧
      (calls.take k.exited.length).map (fun c => c.result)
        = k.exited.map Int.ofNat ∧
      (calls.drop k.exited.length).map (fun c => c.result)
        = [if k.running = [] then -1 else 0] := by
  obtain ⟨exited, running⟩ := k
  simp only at hpos hfuel
  refine ⟨_, _, sigchld_handler_ok exited running fuel hpos hfuel, rfl, rfl, by simp, ?_, ?_, ?_⟩
  · intro c hc
    simp only [List.mem_append, List.mem_map, List.mem_singleton] at hc
    rcases hc with ⟨p, _, rfl⟩ | rfl <;> exact ⟨rfl, rfl⟩
  · rw [List.take_left' (by simp), List.map_map]
    rfl
  · rw [List.drop_left' (by simp)]
    rfl

/-- Witness for C25: three exited children, two running ones. -/
theorem reaper_reaps_all_witness :
    ∃ (k1 : Children) (calls : List WaitCall),
      sigchld_handler 10 Children.sample = .ok (k1, calls) ∧
      k1.exited = [] ∧ k1.running = Children.sample.running ∧
      calls.length = Children.sample.exited.length + 1 ∧
      (∀ c ∈ calls, c.pid = -1 ∧ c.nohang = true) ∧
      (calls.take Children.sample.exited.length).map (fun c => c.result)
        = Children.sample.exited.map Int.ofNat ∧
      (calls.drop Children.sample.exited.length).map (fun c => c.result)
        = [if Children.sample.running = [] then -1 else 0] :=
  reaper_reaps_all Children.sample 10 (by decide) (by decide)

/-! ## The summing client -/

theorem client_overflow_never_detected (lib : Client.Lib) (TxOverflow : Int) (len : Nat) :
    Client.overflowDetected lib TxOverflow len = false := by
  unfold Client.overflowDetected Client.toSize
  have hpos : (0 : Int) < 2 ^ lib.SIZE_BITS := by positivity
  have := Int.emod_nonneg (TxOverflow % 2 ^ lib.SIZE_BITS - (len : Int)) (ne_of_gt hpos)
  simp only [decide_eq_false_iff_not, not_lt]
  exact this

theorem client_firstToken_line (t : List Char) (ht : t ≠ [])
    (hd : ∀ c ∈ t, Client.isLineDelim c = false) :
    Client.firstToken (t ++ ['\n']) = some t := by
  cases t with
  | nil => exact absurd rfl ht
  | cons c cs =>
    have hc : Client.isLineDelim c = false := hd c (by simp)
    have htw : ∀ (l : List Char), (∀ x ∈ l, Client.isLineDelim x = false) →
        (l ++ ['\n']).takeWhile (fun x => !Client.isLineDelim x) = l := by
      intro l
      induction l with
      | nil =>
        intro _
        rfl
      | cons a l ih =>
        intro h
        have ha : Client.isLineDelim a = false := h a (by simp)
        simp only [List.cons_append, List.takeWhile_cons, ha, Bool.not_false, if_true]
        rw [ih (fun x hx => h x (by simp [hx]))]
    unfold Client.firstToken
    simp only [List.cons_append, List.dropWhile_cons, hc, Bool.false_eq_true, if_false]
    have := htw (c :: cs) hd
    simp only [List.cons_append] at this
    rw [this]

theorem numeralFrom_zeros (k : Nat) : numeralFrom 8 0 (List.replicate k '0') = some 0 := by
  induction k with
  | zero => rfl
  | succ k ih =>
    have hd : digitValue '0' = some 0 := by decide
    simp only [List.replicate_succ, numeralFrom, hd]
    simpa using ih

theorem literalValue_zeros (k : Nat) :
    literalValue ('0' :: '0' :: List.replicate k '0') = some 0 := by
  have h := numeralFrom_zeros (k + 1)
  rw [List.replicate_succ] at h
  simp [literalValue, magnitude, h]

theorem client_zeros_cons : Client.zeros = '0' :: '0' :: List.replicate 1498 '0' := by
  have h1 : List.replicate (1499 + 1) '0' = '0' :: List.replicate 1499 '0' :=
    List.replicate_succ _ _
  have h2 : List.replicate (1498 + 1) '0' = '0' :: List.replicate 1498 '0' :=
    List.replicate_succ _ _
  exact h1.trans (congrArg (List.cons '0') h2)

theorem client_zeros_props :
    Client.zeros ≠ [] ∧ Client.zeros.length = 1500 ∧
    (∀ c ∈ Client.zeros, Client.isLineDelim c = false) ∧
    Client.sampleLib.strtol Client.zeros = { value := 0, garbage := [], errno := 0 } := by
  refine ⟨?_, List.length_replicate _ _, ?_, ?_⟩
  · rw [client_zeros_cons]
    exact List.cons_ne_nil _ _
  · intro c hc
    rw [Client.zeros, List.mem_replicate] at hc
    rw [hc.2]
    decide
  · have h := literalValue_zeros 1498
    rw [← client_zeros_cons] at h
    simp only [Client.sampleLib, h]

theorem client_step_accept (lib : Client.Lib) (st : Client.State) (t : List Char)
    (ht : t ≠ []) (hd : ∀ c ∈ t, Client.isLineDelim c = false)
    (herr : (lib.strtol t).errno = 0) (hg : (lib.strtol t).garbage = []) :
    Client.step lib st (t ++ ['\n'])
      = match Client.append st.TxBuff t with
        | .error f => .error f
        | .ok buff1 =>
          match Client.append buff1 [' '] with
          | .error f => .error f
          | .ok buff2 =>
            .ok (.next { TxBuff := buff2,
                         TxOverflow := Client.toInt (Client.toSize lib
                           (Client.toSize lib st.TxOverflow - ((t.length : Int) + 1))) }) := by
  unfold Client.step
  rw [client_firstToken_line t ht hd]
  simp only [client_overflow_never_detected, Bool.false_eq_true, if_false, herr, hg,
    ne_eq, not_true_eq_false, List.length_nil, gt_iff_lt, Nat.lt_irrefl]

theorem client_first_line :
    Client.step Client.sampleLib Client.init (Client.zeros ++ ['\n'])
      = .ok (.next { TxBuff := Client.zeros ++ [' '], TxOverflow := 545 }) := by
  obtain ⟨h1, h2, h3, h4⟩ := client_zeros_props
  rw [client_step_accept _ _ _ h1 h3 (by rw [h4]) (by rw [h4])]
  have a1 : Client.append Client.init.TxBuff Client.zeros = .ok Client.zeros := by
    unfold Client.append
    rw [if_pos]
    · rfl
    · show ([] ++ Client.zeros).length + 1 ≤ Client.MAX_TX
      rw [List.nil_append, h2]
      decide
  have a2 : Client.append Client.zeros [' '] = .ok (Client.zeros ++ [' ']) := by
    unfold Client.append
    rw [if_pos]
    rw [List.length_append, h2]
    decide
  rw [a1]
  simp only []
  rw [a2]
  simp only []
  rw [h2]
  have : Client.toInt (Client.toSize Client.sampleLib
      (Client.toSize Client.sampleLib Client.init.TxOverflow - (((1500 : Nat) : Int) + 1)))
      = 545 := by decide
  rw [this]

theorem client_second_line :
    Client.step Client.sampleLib { TxBuff := Client.zeros ++ [' '], TxOverflow := 545 }
      (Client.zeros ++ ['\n']) = .error .outOfBounds := by
  obtain ⟨h1, h2, h3, h4⟩ := client_zeros_props
  rw [client_step_accept _ _ _ h1 h3 (by rw [h4]) (by rw [h4])]
  have a1 : Client.append (Client.zeros ++ [' ']) Client.zeros = .error .outOfBounds := by
    unfold Client.append
    rw [if_neg]
    rw [List.length_append, List.length_append, h2]
    decide
  simp only [a1]

/-- C28 fails on the code: the overflow test of the summing client never succeeds.
In `(TxOverflow - strlen (token)) < 0` the value of `strlen` is a `size_t`, so the
difference is computed as an unsigned value and is never below 0, whatever the
width of `size_t`. After a first line of 1500 zeros, an accepted literal, the buffer
holds 1501 characters and `TxOverflow` is 545; a second such line is longer than the
remaining capacity, yet no overflow is detected, the loop goes on and `strncat`
copies the token past the end of the `MAX_TX` bytes of `TxBuff`. -/
theorem client_overflow_unchecked :
    (∀ (lib : Client.Lib) (TxOverflow : Int) (len : Nat),
      Client.overflowDetected lib TxOverflow len = false) ∧
    Client.MAX_TX = 2048 ∧ Client.init.TxOverflow = 2046 ∧
    Client.zeros.length = 1500 ∧
    Client.sampleLib.strtol Client.zeros = { value := 0, garbage := [], errno := 0 } ∧
    Client.step Client.sampleLib Client.init (Client.zeros ++ ['\n'])
      = .ok (.next { TxBuff := Client.zeros ++ [' '], TxOverflow := 545 }) ∧
    (545 : Int) < (Client.zeros.length : Int) ∧
    Client.step Client.sampleLib { TxBuff := Client.zeros ++ [' '], TxOverflow := 545 }
      (Client.zeros ++ ['\n']) = .error .outOfBounds ∧
    Client.MAX_TX - 1 < (Client.zeros ++ [' '] ++ Client.zeros).length ∧
    Client.run Client.sampleLib Client.init
      [Client.zeros ++ ['\n'], Client.zeros ++ ['\n'], ['\n']] = .error .outOfBounds := by
  obtain ⟨_, h2, _, h4⟩ := client_zeros_props
  refine ⟨client_overflow_never_detected, rfl, by decide, h2, h4, client_first_line, ?_,
    client_second_line, ?_, ?_⟩
  · rw [h2]
    decide
  · rw [List.length_append, List.length_append, h2]
    decide
  · simp only [Client.run, client_first_line, client_second_line]

end Engine
